import Mathlib

/-!
Verification of the core of `ome_zarr_transformations` (Rust) against its
natural-language specification.  The Rust sources under `src/rust/src/` are
shallowly embedded below: 64-bit floats are modelled as exact rationals `ℚ`
(reals `ℝ` where a square root is required), in-place buffer writes are
modelled by returning the new buffer contents, and code paths that panic
(out-of-bounds indexing, slice-length mismatches, division by zero) are
modelled with `Option`, `none` standing for a panic.  The float constant
`f64::NAN`, used by the source only to pre-fill scratch buffers, is modelled
by an arbitrary rational `nan` passed as an explicit parameter; theorems
quantify over it, which also proves that the fill value is never observable.

Mutable out-parameter slices of column buffers (`&mut [&mut [f64]]`) are
modelled as lists of pairs `(tag, contents)`: the `tag : Nat` stands for the
identity (address) of the pointed-to buffer, so that the claim about
`ByDimension` restoring the caller's outer-slice layout can be stated.
-/

namespace OZ

/-! ## Generic list helpers used by the embedding -/

/-- Overwrite the front of `buf` with `vals`: the semantics of a loop
`for (o, v) in buf.iter_mut().zip(vals) { *o = v }` (the zip truncates at the
shorter list; the tail of `buf` is untouched). -/
def writeFront (vals buf : List α) : List α :=
  vals.take buf.length ++ buf.drop vals.length

/-- The semantics of a loop `for (b, x) in buf.iter_mut().zip(xs) { *b = f(*b, x) }`:
the common prefix is combined with `f`, the tail of `buf` is kept. -/
def zipWithKeep (f : α → β → α) : List α → List β → List α
  | buf, [] => buf
  | [], _ => []
  | b :: bs, x :: xs => f b x :: zipWithKeep f bs xs

/-- `slice.swap(a, b)`.  The source only ever swaps in-bounds indices; an
out-of-bounds pair (which would panic in Rust) is modelled as a no-op here
and is unreachable from the embedded call sites. -/
def swapPos (l : List α) (a b : Nat) : List α :=
  match l[a]?, l[b]? with
  | some x, some y => (l.set a y).set b x
  | _, _ => l

/-- Rust's `slice::chunks(n)` with an explicit fuel argument (the list length)
to keep the recursion structural. -/
def chunksGo (n : Nat) : Nat → List α → List (List α)
  | 0, _ => []
  | _, [] => []
  | fuel + 1, l => l.take n :: chunksGo n fuel (l.drop n)

/-- Rust's `slice::chunks(n)`: successive chunks of `n` elements, the last one
possibly shorter.  `chunks(0)` panics in Rust; it is modelled as `[]` here and
is unreachable for matrices built by the constructors (positive minor extent). -/
def chunksList (n : Nat) (l : List α) : List (List α) :=
  if n = 0 then [] else chunksGo n l.length l

/-! ## `matrix.rs`: dense row-major matrix -/

/-- `Matrix`: row-major data with `nrows`/`ncols` (`matrix.rs`). -/
structure Matrix (K : Type) where
  data : List K
  nrows : Nat
  ncols : Nat
deriving DecidableEq

/-- `Matrix::get`: `data.get(row * ncols + col)`. -/
def Matrix.get (m : Matrix K) (row col : Nat) : Option K :=
  m.data[row * m.ncols + col]?

/-- `Matrix::rows`: `data.chunks(ncols)`. -/
def Matrix.rows (m : Matrix K) : List (List K) :=
  chunksList m.ncols m.data

/-- `Matrix::try_new`: row-major data.  Fails when `ncols` does not divide the
data length; `ncols = 0` with empty data reaches `data.len() / ncols`, a
division by zero, which panics (second branch). -/
def Matrix.try_new (data : List K) (ncols : Nat) : Option (Matrix K) :=
  if ¬ (ncols ∣ data.length) then none
  else if ncols = 0 then none
  else some ⟨data, data.length / ncols, ncols⟩

/-- The in-place pass of `Matrix::try_new_colmaj`: for each flat index
`f_idx`, compute `r = f_idx % nrows`, `c = f_idx / nrows`,
`new_idx = r * ncols + c` and swap when `new_idx > f_idx`. -/
def colmajPass (nrows ncols : Nat) (data : List K) : List K :=
  (List.range data.length).foldl
    (fun d f_idx =>
      let r := f_idx % nrows
      let c := f_idx / nrows
      let new_idx := r * ncols + c
      if f_idx < new_idx then swapPos d f_idx new_idx else d)
    data

/-- `Matrix::try_new_colmaj`: column-major data with `nrows`, transposed in
place into row-major by pairwise swaps.  As in `try_new`, `nrows = 0` with
empty data panics on the division. -/
def Matrix.try_new_colmaj (data : List K) (nrows : Nat) : Option (Matrix K) :=
  if ¬ (nrows ∣ data.length) then none
  else if nrows = 0 then none
  else some ⟨colmajPass nrows (data.length / nrows) data, nrows, data.length / nrows⟩

/-- `Matrix::is_identity`: square with exact ones on the diagonal and exact
zeros elsewhere.  (`rows` uses `chunks(ncols)`, which panics in Rust when
`ncols = 0`; such matrices do not occur behind the validating constructors.) -/
def Matrix.is_identity [DecidableEq K] [Zero K] [One K] (m : Matrix K) : Bool :=
  if m.ncols ≠ m.nrows then false
  else m.rows.enum.all fun ri =>
    ri.2.enum.all fun ci =>
      if ri.1 = ci.1 then ci.2 == 1 else ci.2 == 0

/-- `Matrix::transpose`: allocates a zero vector and writes
`data[c_idx * nrows + r_idx]` for each entry of each chunk; note the source
chunks by `self.nrows` (only used on square matrices, via `Rotation`). -/
def Matrix.transpose [Zero K] (m : Matrix K) : Matrix K :=
  let data0 := m.data.map fun _ => (0 : K)
  let data :=
    ((chunksList m.nrows m.data).enum).foldl
      (fun d ri =>
        ri.2.enum.foldl (fun d2 ci => d2.set (ci.1 * m.nrows + ri.1) ci.2) d)
      data0
  ⟨data, m.ncols, m.nrows⟩

/-- Inner accumulation loop of `Matrix::matmul_into`:
`buf[idx / ncols] += d * coord[idx % ncols]` for each `(idx, d)` of the
enumerated data, panicking on an out-of-range row or column. -/
def mmGo [Mul K] [Add K] (ncols : Nat) (coord : List K) :
    List (Nat × K) → List K → Option (List K)
  | [], buf => some buf
  | (idx, d) :: rest, buf => do
    let r := idx / ncols
    let c := idx % ncols
    let bv ← buf[r]?
    let cv ← coord[c]?
    mmGo ncols coord rest (buf.set r (bv + d * cv))

/-- `Matrix::matmul_into`: `buf.fill(0.0)` then accumulate row sums.
(When `ncols = 0` the Rust index arithmetic divides by zero, but the loop body
is only reached with nonempty data, which forces `ncols > 0` for matrices
satisfying `data.len() = nrows * ncols`.) -/
def Matrix.matmul_into [Mul K] [Add K] [Zero K] (m : Matrix K) (coord buf : List K) :
    Option (List K) :=
  mmGo m.ncols coord m.data.enum (buf.map fun _ => (0 : K))

/-! ## `map_axis.rs`: construction -/

/-- `MapAxis::try_new` (`map_axis.rs`).  `visited` is a `BTreeSet` of the
entries: its size is the number of distinct entries and its `last()` is the
maximum entry.  Construction fails on duplicates, and when the maximum entry
differs from `map.len() - 1`. -/
def MapAxis.try_new (map : List Nat) : Option (List Nat) :=
  if map.dedup.length ≠ map.length then none
  else if (match map.max? with
           | some mx => decide (mx ≠ map.length - 1)
           | none => false) then none
  else some map

/-! ## `matrix.rs`: orthonormality over `ℝ` (the only user of `sqrt`) -/

/-- `dot` (`matrix.rs`): panics when the vectors have different lengths. -/
def dot (v1 v2 : List ℝ) : Option ℝ :=
  if v1.length ≠ v2.length then none
  else some ((v1.zip v2).map fun p => p.1 * p.2).sum

/-- `magnitude` (`matrix.rs`): `v.iter().map(|x| x * x).sum::<f64>().sqrt()`. -/
noncomputable def magnitude (v : List ℝ) : ℝ :=
  Real.sqrt (v.map fun x => x * x).sum

/-- `Matrix::has_orthonormal_rows` (`matrix.rs`): walking the rows in order,
return `false` as soon as `magnitude(row) - 1.0 > 1e-10` (note: one-sided),
or as soon as a dot product with an earlier row exceeds `1e-10` in absolute
value; return `true` otherwise.  A length mismatch inside `dot` (impossible
for `chunks`-produced rows of a well-formed matrix, where all rows have equal
length) panics; it is rendered here as a failed check. -/
def Matrix.has_orthonormal_rows (m : Matrix ℝ) : Prop :=
  ∀ i < m.rows.length, ∀ ri, m.rows[i]? = some ri →
    (¬ (magnitude ri - 1 > (1 : ℝ) / 10 ^ 10)) ∧
    ∀ j < i, ∀ rj, m.rows[j]? = some rj →
      ∃ d, dot ri rj = some d ∧ ¬ (|d| > (1 : ℝ) / 10 ^ 10)

/-! ## The transformation algebra (`traits.rs` and `transforms/`)

`dyn Transformation` values are modelled as a closed inductive over the nine
concrete implementations.  A `ByDimension` sub-entry
`{ transform, in_dims, out_dims }` is the triple
`(transform, in_dims, out_dims)`. -/

/-- The nine concrete `Transformation` implementations. -/
inductive Transform where
  | identity (ndim : Nat)
  | translate (v : List ℚ)
  | scale (s : List ℚ)
  | mapAxis (m : List Nat)
  | affine (unaugmented : Matrix ℚ) (translation : List ℚ)
  | rotation (matrix : Matrix ℚ)
  | sequence (transforms : List Transform)
  | byDimension (subs : List (Transform × List Nat × List Nat))
  | bijection (forward backward : Transform)

/-- `input_ndim` of each implementation.  `Sequence::input_ndim` unwraps the
first stage (a sequence is never empty behind `try_new`); the empty case is
given the junk value 0. -/
def Transform.input_ndim : Transform → Nat
  | .identity ndim => ndim
  | .translate v => v.length
  | .scale s => s.length
  | .mapAxis m => m.length
  | .affine u _ => u.ncols
  | .rotation mt => mt.ncols
  | .sequence [] => 0
  | .sequence (t :: _) => t.input_ndim
  | .byDimension subs => (subs.map fun bt => bt.2.1.length).sum
  | .bijection f _ => f.input_ndim

/-- `output_ndim` of each implementation; `Sequence::output_ndim` unwraps the
last stage. -/
def Transform.output_ndim : Transform → Nat
  | .identity ndim => ndim
  | .translate v => v.length
  | .scale s => s.length
  | .mapAxis m => m.length
  | .affine u _ => u.nrows
  | .rotation mt => mt.nrows
  | .sequence ts =>
    match h : ts.getLast? with
    | some t => t.output_ndim
    | none => 0
  | .byDimension subs => (subs.map fun bt => bt.2.2.length).sum
  | .bijection f _ => f.output_ndim
decreasing_by
  all_goals simp_wf
  all_goals first
    | omega
    | (obtain ⟨hne, ht⟩ := List.mem_getLast?_eq_getLast h
       have := List.sizeOf_lt_of_mem (ht ▸ List.getLast_mem hne)
       omega)

/-- `Sequence`'s stored `max_inner_ndim`:
`transforms.iter().skip(1).map(input_ndim).max().unwrap()` (the `unwrap`
cannot fail for sequences of length ≥ 2; the junk value for shorter lists
is 0). -/
def seqMaxInnerNdim (ts : List Transform) : Nat :=
  ((ts.drop 1).map Transform.input_ndim).foldl max 0

/-- `is_identity` of each implementation, as in the sources.  The source
provides no `is_identity` for `ByDimension`; in line with the trait contract
(`false` is not definitive) it is modelled as `false`. -/
def Transform.is_identity : Transform → Bool
  | .identity _ => true
  | .translate v => v.all fun t => t == 0
  | .scale s => s.all fun x => x == 1
  | .mapAxis m => m.enum.all fun p => p.1 == p.2
  | .affine u t => if t.any (fun x => x != 0) then false else u.is_identity
  | .rotation mt => mt.is_identity
  | .sequence ts => ts.attach.all fun x =>
    match x with
    | ⟨t, _⟩ => t.is_identity
  | .byDimension _ => false
  | .bijection f g => f.is_identity && g.is_identity
decreasing_by
  all_goals simp_wf
  all_goals first
    | omega
    | (rename_i hmem; have := List.sizeOf_lt_of_mem hmem; omega)

/-- `MapAxis::invert`: `inv_map[in_idx] = out_idx` over the enumerated map,
starting from a zero vector of the same length.  (An entry `≥ len` would
panic in Rust; `List.set` ignores it — unreachable for validated maps.) -/
def invertMap (m : List Nat) : List Nat :=
  m.enum.foldl (fun inv p => inv.set p.2 p.1) (List.replicate m.length 0)

/-- `invert` of each implementation: `Affine::invert` is `None` in the source;
`Sequence::invert` inverts the stages in reverse order; `ByDimension::invert`
swaps `in_dims`/`out_dims`; `Bijection::invert` swaps roles. -/
def Transform.invert : Transform → Option Transform
  | .identity n => some (.identity n)
  | .translate v => some (.translate (v.map fun t => -t))
  | .scale s => some (.scale (s.map fun x => 1 / x))
  | .mapAxis m => some (.mapAxis (invertMap m))
  | .affine _ _ => none
  | .rotation mt => some (.rotation mt.transpose)
  | .sequence ts => do
    let inv ← ts.reverse.attach.mapM fun x =>
      match x with
      | ⟨t, _⟩ => t.invert
    some (.sequence inv)
  | .byDimension subs => do
    let inv ← subs.attach.mapM fun x =>
      match x with
      | ⟨(t, in_dims, out_dims), _⟩ => do
        let ti ← t.invert
        some (ti, out_dims, in_dims)
    some (.byDimension inv)
  | .bijection f g => some (.bijection g f)
decreasing_by
  all_goals simp_wf
  all_goals first
    | omega
    | (rename_i hmem
       have := List.sizeOf_lt_of_mem (List.mem_reverse.mp hmem)
       omega)
    | (rename_i hmem; have := List.sizeOf_lt_of_mem hmem; simp at this; omega)

/-- A `ByDimension` sub-entry `{ transform, in_dims, out_dims }`. -/
abbrev SubT := Transform × List Nat × List Nat

/-- A mutably borrowed output column: buffer identity (address) and contents. -/
abbrev TBuf := Nat × List ℚ

/-- `buf[i] = v` with Rust's panic on an out-of-bounds index. -/
def setChecked (buf : List α) (i : Nat) (v : α) : Option (List α) :=
  if i < buf.length then some (buf.set i v) else none

/-- The scatter loop of the `ByDimension` point form:
`for (out_dim, val) in out_dims.iter().zip(vals) { buf[*out_dim] = *val }`. -/
def scatterInto (out_dims : List Nat) (vals buf : List ℚ) : Option (List ℚ) :=
  (out_dims.zip vals).foldlM (fun b p => setChecked b p.1 p.2) buf

mutual

/-- `Transformation::transform_into` of each implementation:
`Identity` is `copy_from_slice` (length mismatch panics); `Translate`/`Scale`
write `t + p` / `s * p` over the zipped prefix; `MapAxis` writes `pt[m[i]]`;
`Affine` is `matmul_into` followed by adding the translation; `Rotation` is
`matmul_into`; `Sequence` ping-pongs two scratch buffers of width
`max_inner_ndim` (`transform_into_inner`); `ByDimension` gathers, applies and
scatters per sub-entry; `Bijection` delegates to its forward transform. -/
def transform_into (nan : ℚ) : Transform → List ℚ → List ℚ → Option (List ℚ)
  | .identity _, pt, buf => if pt.length = buf.length then some pt else none
  | .translate v, pt, buf =>
    some (writeFront (List.zipWith (fun p t => t + p) pt v) buf)
  | .scale s, pt, buf =>
    some (writeFront (List.zipWith (fun p sv => sv * p) pt s) buf)
  | .mapAxis m, pt, buf => do
    let vals ← (m.take buf.length).mapM fun i => pt[i]?
    some (writeFront vals buf)
  | .affine u t, pt, buf => do
    let r ← u.matmul_into pt buf
    some (zipWithKeep (fun o tv => o + tv) r t)
  | .rotation mt, pt, buf => mt.matmul_into pt buf
  | .sequence ts, pt, buf => do
    let mi := seqMaxInnerNdim ts
    let r ← seqPointGo nan ts true pt buf (List.replicate mi nan) (List.replicate mi nan)
    some r.1
  | .byDimension subs, pt, buf =>
    bdPointGo nan subs pt (List.replicate pt.length nan) (List.replicate buf.length nan) buf
  | .bijection f _, pt, buf => transform_into nan f pt buf
termination_by t _ _ => sizeOf t
decreasing_by
  all_goals simp_wf
  all_goals omega

/-- `Sequence::transform_into_inner`: stage 0 reads the caller point and
writes `buf1[..out]`, the last stage reads `buf0[..in]` and writes the caller
buffer, middle stages read `buf0[..in]` and write `buf1[..out]`; after every
stage the two scratch buffers are swapped.  Over-long slice bounds panic.
Returns the final `(out_buf, buf0, buf1)`. -/
def seqPointGo (nan : ℚ) :
    List Transform → Bool → List ℚ → List ℚ → List ℚ → List ℚ →
    Option (List ℚ × List ℚ × List ℚ)
  | [], _, _, out_buf, buf0, buf1 => some (out_buf, buf0, buf1)
  | t :: rest, first, pt, out_buf, buf0, buf1 =>
    let outN := t.output_ndim
    let inN := t.input_ndim
    if first then
      if outN ≤ buf1.length then do
        let r ← transform_into nan t pt (buf1.take outN)
        seqPointGo nan rest false pt out_buf (r ++ buf1.drop outN) buf0
      else none
    else if rest.isEmpty then
      if inN ≤ buf0.length then do
        let r ← transform_into nan t (buf0.take inN) out_buf
        seqPointGo nan rest false pt r buf1 buf0
      else none
    else
      if inN ≤ buf0.length ∧ outN ≤ buf1.length then do
        let r ← transform_into nan t (buf0.take inN) (buf1.take outN)
        seqPointGo nan rest false pt out_buf (r ++ buf1.drop outN) buf0
      else none
termination_by ts _ _ _ _ _ => sizeOf ts
decreasing_by
  all_goals simp_wf
  all_goals omega

/-- The `ByDimension` point loop: gather `pt` at `in_dims` into the scratch
input, transform into the scratch output prefix, scatter into the caller
buffer at `out_dims`.  The two scratch vectors persist across sub-entries,
as in the source. -/
def bdPointGo (nan : ℚ) :
    List SubT → List ℚ → List ℚ → List ℚ → List ℚ → Option (List ℚ)
  | [], _, _, _, buf => some buf
  | (t, in_dims, out_dims) :: rest, pt, ordered_pt, ordered_buf, buf => do
    let vals ← (in_dims.take ordered_pt.length).mapM fun i => pt[i]?
    let op := writeFront vals ordered_pt
    if in_dims.length ≤ op.length ∧ out_dims.length ≤ ordered_buf.length then do
      let r ← transform_into nan t (op.take in_dims.length)
        (ordered_buf.take out_dims.length)
      let ob := r ++ ordered_buf.drop out_dims.length
      let buf2 ← scatterInto out_dims ob buf
      bdPointGo nan rest pt op ob buf2
    else none
termination_by subs _ _ _ _ => sizeOf subs
decreasing_by
  all_goals simp_wf
  all_goals omega

end

/-! ## Column (struct-of-arrays) forms -/

/-- `Matrix::matmul_transposed_into`: for each `(buf_col, mat_row)` of
`buf.iter_mut().zip(data.chunks(ncols))`, fill the column with zeros, then for
each `(mat_val, coord_col)` of the row zipped with the input columns
accumulate `*b += c * mat_val` over the zipped column prefix.  Output columns
beyond the zip are untouched.  `chunks(0)` panics. -/
def Matrix.matmul_transposed_into (m : Matrix ℚ) (coord_cols : List (List ℚ))
    (bufs : List TBuf) : Option (List TBuf) :=
  if m.ncols = 0 then none
  else
    let rows := chunksList m.ncols m.data
    some (((bufs.zip rows).map fun p =>
        (p.1.1,
          (p.2.zip coord_cols).foldl
            (fun acc q => zipWithKeep (fun b c => b + c * q.1) acc q.2)
            (p.1.2.map fun _ => (0 : ℚ)))) ++
      bufs.drop rows.length)

/-- `Identity::column_transform_into`: `b.copy_from_slice(c)` over the zipped
columns and buffers (length mismatch panics; surplus buffers untouched). -/
def idColGo : List (List ℚ) → List TBuf → Option (List TBuf)
  | [], bufs => some bufs
  | _, [] => some []
  | c :: cs, b :: bs =>
    if c.length = b.2.length then do
      let r ← idColGo cs bs
      some ((b.1, c) :: r)
    else none

/-- The shared shape of `Translate::column_transform_into` (`*b = c + t`) and
`Scale::column_transform_into` (`*b = c * s`): a triple zip of columns,
buffers and the parameter vector, writing `f c param` over each zipped column
prefix; everything beyond a zip is untouched. -/
def perDimColGo (f : ℚ → ℚ → ℚ) : List (List ℚ) → List TBuf → List ℚ → List TBuf
  | c :: cs, b :: bs, t :: tsv =>
    (b.1, writeFront (c.map fun x => f x t) b.2) :: perDimColGo f cs bs tsv
  | _, bufs, _ => bufs

/-- `MapAxis::column_transform_into`:
`buf_col.copy_from_slice(columns[*idx])` over the map zipped with the
buffers; an out-of-range index or a length mismatch panics. -/
def maColGo (columns : List (List ℚ)) : List Nat → List TBuf → Option (List TBuf)
  | [], bufs => some bufs
  | _ :: _, [] => some []
  | idx :: rest, b :: bs => do
    let col ← columns[idx]?
    if col.length = b.2.length then do
      let r ← maColGo columns rest bs
      some ((b.1, col) :: r)
    else none

/-- The search inside the `ByDimension` swap loop:
`order[tgt..].iter().enumerate().find_map(|(sub, loc)| (desired == *loc).then_some(sub + tgt))`. -/
def findFrom (order : List Nat) (tgt desired : Nat) : Option Nat :=
  ((order.drop tgt).enum.find? fun p => p.2 = desired).map fun p => p.1 + tgt

/-- The swap loop of `ByDimension::column_transform_into` for one sub-entry:
bring the columns listed in `out_dims` (enumerated) to positions
`start + local`, swapping both the buffer slice and the `order` map in
tandem and recording each swap.  A failed search is the source's `unwrap`
panic.  (The `continue` guard compares the found index against `local_tgt_idx`
rather than `tgt_idx`, which for `start > 0` performs a recorded
自-swap of a position with itself; this is faithful to the source.) -/
def bdSwapLoop :
    List (Nat × Nat) → Nat → List TBuf → List Nat → List (Nat × Nat) →
    Option (List TBuf × List Nat × List (Nat × Nat))
  | [], _, bufs, order, swaps => some (bufs, order, swaps)
  | (local_tgt, desired) :: rest, start, bufs, order, swaps => do
    let tgt := local_tgt + start
    let src ← findFrom order tgt desired
    if src = local_tgt then
      bdSwapLoop rest start bufs order swaps
    else
      bdSwapLoop rest start (swapPos bufs tgt src) (swapPos order tgt src)
        (swaps ++ [(tgt, src)])

mutual

/-- `column_transform_into` of each implementation, on tagged column buffers.
All nine implementations override the slow trait default.  `Sequence`
ping-pongs two scratch column blocks of `max_inner_ndim` columns (the
`buf0_input` flag selects which block is read); `ByDimension` permutes the
outer buffer slice in place so each sub-entry sees a contiguous sub-slice,
then undoes the recorded swaps in reverse order. -/
def column_transform_into (nan : ℚ) :
    Transform → List (List ℚ) → List TBuf → Option (List TBuf)
  | .identity _, columns, bufs => idColGo columns bufs
  | .translate v, columns, bufs => some (perDimColGo (fun c t => c + t) columns bufs v)
  | .scale s, columns, bufs => some (perDimColGo (fun c sv => c * sv) columns bufs s)
  | .mapAxis m, columns, bufs => maColGo columns m bufs
  | .affine u t, columns, bufs => do
    let r ← u.matmul_transposed_into columns bufs
    some (zipWithKeep (fun (b : TBuf) tv => (b.1, b.2.map fun c => c + tv)) r t)
  | .rotation mt, columns, bufs => mt.matmul_transposed_into columns bufs
  | .sequence ts, columns, bufs => do
    let c0 ← columns[0]?
    let n_pts := c0.length
    let mi := seqMaxInnerNdim ts
    let scr0 := (List.range mi).map fun i => ((i, List.replicate n_pts nan) : TBuf)
    let scr1 := (List.range mi).map fun i => ((mi + i, List.replicate n_pts nan) : TBuf)
    let r ← seqColGo nan ts true true columns bufs scr0 scr1
    some r.1
  | .byDimension subs, columns, bufs => do
    let r ← bdColGo nan subs columns bufs (List.range bufs.length) [] 0
    some (r.2.reverse.foldl (fun b p => swapPos b p.1 p.2) r.1)
  | .bijection f _, columns, bufs => column_transform_into nan f columns bufs
termination_by t _ _ => sizeOf t
decreasing_by
  all_goals simp_wf
  all_goals omega

/-- `Sequence::column_transform_into`'s stage loop.  Stage 0 reads the caller
columns and writes `buf1_vec[..out]`; the last stage reads the selected
scratch block's `[..in]` columns and writes the caller buffers; middle stages
read one block and write the other; `buf0_input` flips after every stage.
Returns `(bufs, buf0_vec, buf1_vec)`. -/
def seqColGo (nan : ℚ) :
    List Transform → Bool → Bool → List (List ℚ) → List TBuf → List TBuf → List TBuf →
    Option (List TBuf × List TBuf × List TBuf)
  | [], _, _, _, bufs, b0, b1 => some (bufs, b0, b1)
  | t :: rest, first, b0in, columns, bufs, b0, b1 =>
    let outN := t.output_ndim
    let inN := t.input_ndim
    if first then
      if outN ≤ b1.length then do
        let r ← column_transform_into nan t columns (b1.take outN)
        seqColGo nan rest false (!b0in) columns bufs b0 (r ++ b1.drop outN)
      else none
    else if rest.isEmpty then
      if b0in then
        if inN ≤ b0.length then do
          let bufs2 ← column_transform_into nan t ((b0.take inN).map Prod.snd) bufs
          seqColGo nan rest false (!b0in) columns bufs2 b0 b1
        else none
      else
        if inN ≤ b1.length then do
          let bufs2 ← column_transform_into nan t ((b1.take inN).map Prod.snd) bufs
          seqColGo nan rest false (!b0in) columns bufs2 b0 b1
        else none
    else if b0in then
      if inN ≤ b0.length ∧ outN ≤ b1.length then do
        let r ← column_transform_into nan t ((b0.take inN).map Prod.snd) (b1.take outN)
        seqColGo nan rest false (!b0in) columns bufs b0 (r ++ b1.drop outN)
      else none
    else
      if inN ≤ b1.length ∧ outN ≤ b0.length then do
        let r ← column_transform_into nan t ((b1.take inN).map Prod.snd) (b0.take outN)
        seqColGo nan rest false (!b0in) columns bufs (r ++ b0.drop outN) b1
      else none
termination_by ts _ _ _ _ _ _ => sizeOf ts
decreasing_by
  all_goals simp_wf
  all_goals omega

/-- `ByDimension::column_transform_into`'s sub-entry loop, carrying the buffer
slice, the `order` map, the swap log and `start`.  For each sub-entry: build
`input_cols` from the caller columns at `in_dims` (out-of-range panics), run
the swap loop, run the sub-transform on the contiguous slice
`bufs[start..start + out_dims.len()]` (an over-long slice bound panics), and
splice the written slice back. -/
def bdColGo (nan : ℚ) :
    List SubT → List (List ℚ) → List TBuf → List Nat → List (Nat × Nat) → Nat →
    Option (List TBuf × List (Nat × Nat))
  | [], _, bufs, _, swaps, _ => some (bufs, swaps)
  | (t, in_dims, out_dims) :: rest, columns, bufs, order, swaps, start => do
    let input_cols ← in_dims.mapM fun idx => columns[idx]?
    let s ← bdSwapLoop out_dims.enum start bufs order swaps
    let e := start + out_dims.length
    if e ≤ s.1.length then do
      let seg ← column_transform_into nan t input_cols ((s.1.drop start).take (e - start))
      bdColGo nan rest columns (s.1.take start ++ seg ++ s.1.drop e) s.2.1 s.2.2 e
    else none
termination_by subs _ _ _ _ _ => sizeOf subs
decreasing_by
  all_goals simp_wf
  all_goals omega

end

/-! ## The mathematical point semantics

A clean denotation of each transformation as a function on points, used as
the bridge between the point form and the column form.  The two theorems
relating `transform_into` and `column_transform_into` to `pointFun` are what
give the "column equals scalar" refinement its content. -/

/-- Total scatter (used only under well-formedness, where every index is in
range). -/
def scatterF (out_dims : List Nat) (vals buf : List ℚ) : List ℚ :=
  (out_dims.zip vals).foldl (fun b q => b.set q.1 q.2) buf

/-- Row-times-vector product of a row-major matrix, as a pure function:
entry `r` is the dot product of row `r` (the `r`-th `ncols`-chunk of the
data) with the vector. -/
def matVec (m : Matrix ℚ) (x : List ℚ) : List ℚ :=
  (List.range m.nrows).map fun r =>
    (List.zipWith (fun a b => a * b) ((m.data.drop (r * m.ncols)).take m.ncols) x).sum

/-- The point denotation of each transformation. -/
def pointFun : Transform → List ℚ → List ℚ
  | .identity _, p => p
  | .translate v, p => List.zipWith (fun pv tv => tv + pv) p v
  | .scale s, p => List.zipWith (fun pv sv => sv * pv) p s
  | .mapAxis m, p => m.map fun i => p.getD i 0
  | .affine u t, p => List.zipWith (fun a b => a + b) (matVec u p) t
  | .rotation mt, p => matVec mt p
  | .sequence ts, p => ts.attach.foldl (fun acc x =>
      match x with
      | ⟨t, _⟩ => pointFun t acc) p
  | .byDimension subs, p =>
    subs.attach.foldl (fun buf x =>
      match x with
      | ⟨(t, in_dims, out_dims), _⟩ =>
        scatterF out_dims (pointFun t (in_dims.map fun i => p.getD i 0)) buf)
      (List.replicate ((subs.map fun bt => bt.2.2.length).sum) 0)
  | .bijection f _, p => pointFun f p
termination_by t _ => sizeOf t
decreasing_by
  all_goals simp_wf
  all_goals first
    | omega
    | (rename_i h5
       have h6 := List.sizeOf_lt_of_mem h5
       simp at h6
       omega)

/-- The point of index `i` of a columnar batch. -/
def colAt (cols : List (List ℚ)) (i : Nat) : List ℚ :=
  cols.map fun c => c.getD i 0

/-- Updating a (tag, contents) array at a list of positions: position `p.1`
receives contents `p.2`, keeping its tag.  The virtual in-original-order
array maintained through the `ByDimension` swap bookkeeping. -/
def updCols (ps : List (Nat × List ℚ)) (a : List TBuf) : List TBuf :=
  ps.foldl (fun a p => a.set p.1 ((a.getD p.1 (0, [])).1, p.2)) a

/-- The expected output columns of a columnar call: column `d` holds, for
each sample `i`, coordinate `d` of the point semantics applied to sample `i`. -/
def specCols (t : Transform) (cols : List (List ℚ)) (k : Nat) : List (List ℚ) :=
  (List.range t.output_ndim).map fun d =>
    (List.range k).map fun i => (pointFun t (colAt cols i)).getD d 0

/-- Well-formedness of a transformation value, as established by the
validating constructors and builders of the source: `MapAxis` maps are
permutations (claim C7 proves this is exactly what `try_new` accepts);
`Affine`/`Rotation` matrices have consistent data length and at least one
column (a zero-column matrix would panic in the columnar path); sequences
have ≥ 2 stages, agreeing adjacent dimensionalities, and at least one input
dimension (a zero-dimensional columnar batch panics on `columns[0]`);
`ByDimension` in/out dims partition the input/output index ranges and each
sub-transform has the dimensions of its dim lists; `Bijection` has matching
dimension arithmetic. -/
def WFT : Transform → Prop
  | .identity _ => True
  | .translate _ => True
  | .scale _ => True
  | .mapAxis m => m.Perm (List.range m.length)
  | .affine u t => u.data.length = u.nrows * u.ncols ∧ t.length = u.nrows ∧ 1 ≤ u.ncols
  | .rotation mt => mt.data.length = mt.nrows * mt.ncols ∧ mt.nrows = mt.ncols ∧ 1 ≤ mt.ncols
  | .sequence ts => 2 ≤ ts.length ∧ 1 ≤ Transform.input_ndim (.sequence ts) ∧
      ts.Chain' (fun a b => a.output_ndim = b.input_ndim) ∧ ∀ t ∈ ts, WFT t
  | .byDimension subs =>
      ((subs.map fun bt => bt.2.1).flatten).Perm
        (List.range ((subs.map fun bt => bt.2.1.length).sum)) ∧
      ((subs.map fun bt => bt.2.2).flatten).Perm
        (List.range ((subs.map fun bt => bt.2.2.length).sum)) ∧
      ∀ t in_dims out_dims, (t, in_dims, out_dims) ∈ subs →
        WFT t ∧ t.input_ndim = in_dims.length ∧ t.output_ndim = out_dims.length
  | .bijection f g => WFT f ∧ WFT g ∧ f.input_ndim = g.output_ndim ∧
      g.input_ndim = f.output_ndim
termination_by t => sizeOf t
decreasing_by
  all_goals simp_wf
  all_goals first
    | omega
    | (rename_i h5
       have h6 := List.sizeOf_lt_of_mem h5
       simp at h6
       omega)

/-! ## The resampler stack (`indexer/value.rs` and `traits.rs`) -/

/-- The coordinate-materialization loop shared by the trait-default columnar
lookups: `for (dim_idx, col) in columns.iter().enumerate() { coord[dim_idx] = col[idx] }`
(a ragged column panics; the write is always in range since the coordinate
scratch has one slot per column). -/
def coordAt (columns : List (List ℚ)) (idx : Nat) (coord : List ℚ) : Option (List ℚ) :=
  columns.enum.foldlM
    (fun c p => do
      let v ← p.2[idx]?
      some (c.set p.1 v))
    coord

/-- The trait-default `RealIndex::column_get_into` (`indexer/value.rs`,
lines 86–95): a `NaN`-filled coordinate scratch, then for each sample index
materialize the coordinate and write `buf[0] = self.get(&coord)` — note the
constant index 0. -/
def RealIndex.column_get_into (nan : ℚ) (g : List ℚ → ℚ) (columns : List (List ℚ))
    (buf : List ℚ) : Option (List ℚ) := do
  let c0 ← columns[0]?
  let st ← (List.range c0.length).foldlM
    (fun (st : List ℚ × List ℚ) idx => do
      let coord ← coordAt columns idx st.1
      let buf2 ← setChecked st.2 0 (g coord)
      some ((coord, buf2)))
    (List.replicate columns.length nan, buf)
  some st.2

/-- The trait-default `ValueProvider::column_get_into` (`traits.rs`, lines
134–142): textually the same loop as the `RealIndex` default, including the
constant index 0 in `buf[0] = self.get(&coord)`. -/
def ValueProvider.column_get_into (nan : ℚ) (g : List ℚ → ℚ) (columns : List (List ℚ))
    (buf : List ℚ) : Option (List ℚ) := do
  let c0 ← columns[0]?
  let st ← (List.range c0.length).foldlM
    (fun (st : List ℚ × List ℚ) idx => do
      let coord ← coordAt columns idx st.1
      let buf2 ← setChecked st.2 0 (g coord)
      some ((coord, buf2)))
    (List.replicate columns.length nan, buf)
  some st.2

/-- An inner real-valued indexer: an advertised dimensionality and a total
lookup.  Its columnar form is taken to be the trait default above (an
implementor that does not override it). -/
structure RealIndexM where
  ndim : Nat
  get : List ℚ → ℚ

/-- `Transformed::try_new`: requires `transform.output_ndim() == indexer.ndim()`. -/
def Transformed.try_new (indexer : RealIndexM) (transform : Transform) :
    Option (RealIndexM × Transform) :=
  if transform.output_ndim ≠ indexer.ndim then none
  else some (indexer, transform)

/-- `Transformed::get`: a scratch coordinate of length
`transform.output_ndim()`, transformed into, then handed to the inner
indexer. -/
def Transformed.get (nan : ℚ) (tr : RealIndexM × Transform) (coord : List ℚ) :
    Option ℚ := do
  let nc ← transform_into nan tr.2 coord (List.replicate tr.2.output_ndim nan)
  some (tr.1.get nc)

/-- `Transformed::column_get_into`:
`Ravelled::new_full(columns[0].len(), columns.len(), f64::NAN)` — that is,
`columns.len()` scratch columns (one per *input* dimension) each of length
`columns[0].len()` — transformed via the transformation's columnar form, then
handed to the inner indexer's columnar lookup. -/
def Transformed.column_get_into (nan : ℚ) (tr : RealIndexM × Transform)
    (columns : List (List ℚ)) (buf : List ℚ) : Option (List ℚ) := do
  let c0 ← columns[0]?
  let scratch := (List.range columns.length).map
    fun i => ((i, List.replicate c0.length nan) : TBuf)
  let out ← column_transform_into nan tr.2 columns scratch
  RealIndex.column_get_into nan tr.1.get (out.map Prod.snd) buf

/-! ## The coordinate-system graph (`graph.rs`) -/

/-- A graph edge payload: a shared transformation and an ordered-float cost. -/
structure GEdge where
  transform : Transform
  cost : ℚ

/-- `NodeInfo`: the petgraph node index and the frozen dimensionality. -/
structure NodeInfo where
  idx : Nat
  ndim : Nat

/-- `TransformGraph`: node labels in insertion order (the position is the
petgraph `NodeIndex`), directed edges in insertion order, the label map, and
the path cache (a locked `HashMap`, modelled as an association list). -/
structure TransformGraph (C : Type) where
  nodes : List C
  edges : List (Nat × Nat × GEdge)
  coord_systems : List (C × NodeInfo)
  path_cache : List ((Nat × Nat) × Option Transform)

/-- `TransformGraph::default()`. -/
def TransformGraph.empty (C : Type) : TransformGraph C := ⟨[], [], [], []⟩

/-- `HashMap::insert` on the modelled cache (overwrites an existing key). -/
def cacheInsert (cache : List ((Nat × Nat) × Option Transform)) (k : Nat × Nat)
    (v : Option Transform) : List ((Nat × Nat) × Option Transform) :=
  (cache.filter fun p => !(decide (p.1 = k))) ++ [(k, v)]

/-- `HashMap::get` on the modelled cache. -/
def cacheGet (cache : List ((Nat × Nat) × Option Transform)) (k : Nat × Nat) :
    Option (Option Transform) :=
  (cache.find? fun p => decide (p.1 = k)).map Prod.snd

/-- `TransformGraph::ensure_coord_system`: an existing label must agree on
the dimensionality; a fresh label is appended with the next node index. -/
def ensure_coord_system [DecidableEq C] (g : TransformGraph C) (node : C) (ndim : Nat) :
    Option (TransformGraph C × Nat) :=
  match g.coord_systems.find? fun p => decide (p.1 = node) with
  | some p => if p.2.ndim ≠ ndim then none else some (g, p.2.idx)
  | none =>
    let idx := g.nodes.length
    some ({ g with
            nodes := g.nodes ++ [node],
            coord_systems := g.coord_systems ++ [(node, ⟨idx, ndim⟩)] }, idx)

/-- `TransformGraph::add_edge` (`graph.rs`, lines 111–149): clear the whole
path cache; if the labels are equal, register the source label and return
`Ok(true)` without inserting any edge; otherwise register both endpoints,
normalize an identity transform to `Identity(n)` with cost 0, insert the
inverse edge first when requested and available, insert the forward edge,
and return whether an inverse was added. -/
def add_edge [DecidableEq C] (g0 : TransformGraph C) (src tgt : C)
    (transform : Transform) (weight : ℚ) (with_inverse : Bool) :
    Option (TransformGraph C × Bool) :=
  let g := { g0 with path_cache := [] }
  if src = tgt then do
    let r ← ensure_coord_system g src transform.input_ndim
    some (r.1, true)
  else do
    let r1 ← ensure_coord_system g src transform.input_ndim
    let r2 ← ensure_coord_system r1.1 tgt transform.output_ndim
    let u := r1.2
    let v := r2.2
    let tw : Transform × ℚ :=
      if transform.is_identity then (.identity transform.input_ndim, 0)
      else (transform, weight)
    let g2 := r2.1
    match (if with_inverse then tw.1.invert else none) with
    | some inv =>
      some ({ g2 with
              edges := (g2.edges ++ [(v, u, ⟨inv, tw.2⟩)]) ++ [(u, v, ⟨tw.1, tw.2⟩)] },
        true)
    | none =>
      some ({ g2 with edges := g2.edges ++ [(u, v, ⟨tw.1, tw.2⟩)] }, false)

/-- `edges_connecting(u, v)`: petgraph's adjacency lists yield edges most
recently added first, hence the reversal of the insertion-ordered list. -/
def edges_connecting (g : TransformGraph C) (u v : Nat) : List GEdge :=
  ((g.edges.filter fun e => decide (e.1 = u) && decide (e.2.1 = v)).map
    fun e => e.2.2).reverse

/-- `Iterator::min_by_key`: the first of equally minimal elements. -/
def minByCostKeepFirst (es : List GEdge) : Option GEdge :=
  es.foldl
    (fun acc e =>
      match acc with
      | none => some e
      | some b => if e.cost < b.cost then some e else acc)
    none

/-- `TransformGraph::best_edge`: the minimum-cost edge between two nodes. -/
def best_edge (g : TransformGraph C) (u v : Nat) : Option GEdge :=
  minByCostKeepFirst (edges_connecting g u v)

/-- The distinct successor nodes of `cur` (for path enumeration). -/
def succs (g : TransformGraph C) (cur : Nat) : List Nat :=
  ((g.edges.filter fun e => decide (e.1 = cur)).map fun e => e.2.1).dedup

/-- All repetition-free edge paths from `cur` to `v` (fuel-bounded depth-first
enumeration; a fuel of the node count suffices for simple paths). -/
def simplePathsAux (g : TransformGraph C) (v : Nat) :
    Nat → Nat → List Nat → List (List Nat)
  | 0, _, _ => []
  | fuel + 1, cur, visited =>
    if cur = v then [[cur]]
    else
      ((succs g cur).filter fun n => !(visited.contains n)).flatMap
        fun n => (simplePathsAux g v fuel n (cur :: visited)).map fun p => cur :: p

/-- All simple paths from `u` to `v` in the graph. -/
def simplePaths (g : TransformGraph C) (u v : Nat) : List (List Nat) :=
  simplePathsAux g v g.nodes.length u []

/-- The cost of a path: the sum over consecutive node pairs of the
minimum-cost parallel edge (as relaxed by the search). -/
def pathCost (g : TransformGraph C) : List Nat → Option ℚ
  | [] => some 0
  | [_] => some 0
  | a :: b :: rest => do
    let e ← best_edge g a b
    let c ← pathCost g (b :: rest)
    some (e.cost + c)

/-- First-of-minima selection over candidate paths. -/
def minPathBy (g : TransformGraph C) (paths : List (List Nat)) :
    Option (ℚ × List Nat) :=
  paths.foldl
    (fun acc p =>
      match pathCost g p with
      | none => acc
      | some c =>
        match acc with
        | none => some (c, p)
        | some b => if c < b.1 then some (c, p) else acc)
    none

/-- Modelled from the spec: petgraph's `astar` with the zero heuristic (that
is, Dijkstra) over non-negative edge costs — the dependency's source is not
part of this repository.  Documented behaviour: returns a minimum-total-cost
path from `u` to `v` (node list including both endpoints), where parallel
edges contribute their minimum cost, or `None` when no path exists. -/
def astar_model (g : TransformGraph C) (u v : Nat) : Option (ℚ × List Nat) :=
  minPathBy g (simplePaths g u v)

/-- `SequenceBuilder::add_arced`: rejects a stage whose input dimensionality
differs from the previous stage's output dimensionality. -/
def SequenceBuilder.add_arced (stages : List Transform) (t : Transform) :
    Option (List Transform) :=
  match stages.getLast? with
  | some prev => if t.input_ndim ≠ prev.output_ndim then none else some (stages ++ [t])
  | none => some (stages ++ [t])

/-- `Sequence::try_new`: at least two stages. -/
def Sequence.try_new (ts : List Transform) : Option Transform :=
  if ts.length < 2 then none else some (.sequence ts)

/-- `SequenceBuilder::build_any`: fails on an empty builder; takes the target
dimensionality from the last stage's input dimensionality; drops identity
stages; returns an `Identity`, the sole survivor, or a `Sequence`. -/
def SequenceBuilder.build_any (stages : List Transform) : Option Transform := do
  let ndim ← stages.getLast?.map Transform.input_ndim
  let kept := stages.filter fun t => !t.is_identity
  match kept with
  | [] => some (.identity ndim)
  | [t] => some t
  | _ => Sequence.try_new kept

/-- Consecutive pairs: `path.windows(2)`. -/
def windowsPairs : List Nat → List (Nat × Nat)
  | a :: b :: rest => (a, b) :: windowsPairs (b :: rest)
  | _ => []

/-- The fusion block of `find_path`: feed the minimum-cost edge of every
consecutive node pair into a `SequenceBuilder` and build best-effort.  A
missing edge is the source's early `?` return; the builder `expect`s are
panics, likewise modelled by `none`. -/
def fusePath (g : TransformGraph C) (path : List Nat) : Option Transform := do
  let stages ← (windowsPairs path).foldlM
    (fun st ab => do
      let e ← best_edge g ab.1 ab.2
      SequenceBuilder.add_arced st e.transform)
    []
  SequenceBuilder.build_any stages

/-- `TransformGraph::find_path` (`graph.rs`, lines 165–223): unknown labels
give `None`; equal labels give a fresh `Identity` of the source's
dimensionality; a cache hit is returned as-is; a direct edge short-circuits
with the minimum-cost edge (identity-normalized); otherwise the shortest
path is fused.  Returns the result together with the graph carrying the
updated cache (the source updates the cache through interior mutability). -/
def find_path [DecidableEq C] (g : TransformGraph C) (src tgt : C) :
    Option Transform × TransformGraph C :=
  match g.coord_systems.find? fun p => decide (p.1 = src) with
  | none => (none, g)
  | some pstart =>
    let start := pstart.2
    if src = tgt then (some (.identity start.ndim), g)
    else
      match g.coord_systems.find? fun p => decide (p.1 = tgt) with
      | none => (none, g)
      | some pv =>
        let u := start.idx
        let v := pv.2.idx
        match cacheGet g.path_cache (u, v) with
        | some maybe => (maybe, g)
        | none =>
          match best_edge g u v with
          | some e =>
            let t := if e.transform.is_identity then Transform.identity start.ndim
              else e.transform
            (some t, { g with path_cache := cacheInsert g.path_cache (u, v) (some t) })
          | none =>
            match astar_model g u v with
            | none => (none, { g with path_cache := cacheInsert g.path_cache (u, v) none })
            | some cp =>
              match cp.2 with
              | [] => (none, g)
              | [_] => (none, g)
              | [_, _] => (none, g)
              | _ =>
                match fusePath g cp.2 with
                | none => (none, g)
                | some t =>
                  (some t, { g with path_cache := cacheInsert g.path_cache (u, v) (some t) })

/-- The frozen dimensionality of the node with index `i`. -/
def ndimAt (g : TransformGraph C) (i : Nat) : Option Nat :=
  (g.coord_systems.find? fun p => decide (p.2.idx = i)).map fun p => p.2.ndim

/-- The invariant `add_edge` maintains: every edge joins two registered
nodes, never the same node, and its transformation's dimensionalities agree
with the frozen node dimensionalities. -/
def WFGraph (g : TransformGraph C) : Prop :=
  ∀ u v e, (u, v, e) ∈ g.edges →
    u < g.nodes.length ∧ v < g.nodes.length ∧ u ≠ v ∧
    ∃ du dv, ndimAt g u = some du ∧ ndimAt g v = some dv ∧
      e.transform.input_ndim = du ∧ e.transform.output_ndim = dv

/-- `p` is a repetition-free directed path from `u` to `v` along edges of the
graph (both endpoints included). -/
def IsSimplePath (g : TransformGraph C) (u v : Nat) (p : List Nat) : Prop :=
  p.head? = some u ∧ p.getLast? = some v ∧ p.Nodup ∧
  ∀ ab ∈ windowsPairs p, ∃ e, (ab.1, ab.2, e) ∈ g.edges

/-! ## Theorems -/

/-! ### Supporting lemmas for `MapAxis::try_new` (claim C7) -/

theorem nat_max?_eq_some_iff {a : Nat} {xs : List Nat} :
    xs.max? = some a ↔ a ∈ xs ∧ ∀ b ∈ xs, b ≤ a :=
  List.max?_eq_some_iff (fun a => Nat.le_refl a)
    (fun a b => Nat.max_def .. ▸ (by split <;> simp))
    (fun a b c => Nat.max_le)

theorem dedup_length_eq_iff {l : List Nat} : l.dedup.length = l.length ↔ l.Nodup := by
  constructor
  · intro h
    have hs := List.dedup_sublist l
    rw [← hs.eq_of_length h]
    exact l.nodup_dedup
  · intro h
    rw [List.dedup_eq_self.mpr h]

theorem perm_range_of_nodup_max {m : List Nat} (hnd : m.Nodup) {mx : Nat}
    (hmx : m.max? = some mx) (hob : mx = m.length - 1) :
    m.Perm (List.range m.length) := by
  obtain ⟨hmem, hub⟩ := nat_max?_eq_some_iff.mp hmx
  have hne : m ≠ [] := by rintro rfl; simp at hmem
  have hlen1 : 1 ≤ m.length := List.length_pos.mpr hne
  have hlt : ∀ x ∈ m, x < m.length := fun x hx => by
    have := hub x hx
    omega
  have hsub : m.toFinset ⊆ (List.range m.length).toFinset := by
    intro a ha
    rw [List.mem_toFinset] at ha ⊢
    rw [List.mem_range]
    exact hlt a ha
  have hcard1 : m.toFinset.card = m.length := List.toFinset_card_of_nodup hnd
  have hcard2 : (List.range m.length).toFinset.card = m.length := by
    rw [List.toFinset_card_of_nodup (List.nodup_range _), List.length_range]
  have heq : m.toFinset = (List.range m.length).toFinset :=
    Finset.eq_of_subset_of_card_le hsub (by rw [hcard1, hcard2])
  exact List.perm_of_nodup_nodup_toFinset_eq hnd (List.nodup_range _) heq

theorem max_eq_of_perm_range {m : List Nat} {mx : Nat} (hm : m.max? = some mx)
    (hperm : m.Perm (List.range m.length)) : mx = m.length - 1 := by
  obtain ⟨hmem, hub⟩ := nat_max?_eq_some_iff.mp hm
  have h3 : mx < m.length := by
    have := hperm.mem_iff.mp hmem
    simpa [List.mem_range] using this
  have hlen1 : 1 ≤ m.length := by
    rcases m with _ | _
    · simp at hmem
    · simp
  have h4 : m.length - 1 ∈ m := hperm.mem_iff.mpr (by rw [List.mem_range]; omega)
  have := hub _ h4
  omega

/-- C7: `MapAxis::try_new` succeeds exactly on the permutations of
`0 .. map.len()`: it fails on any duplicate entry, and on any duplicate-free
map whose maximum entry is not `map.len() - 1`; distinct entries with maximum
`map.len() - 1` are exactly the permutations. -/
theorem map_axis_try_new_iff_perm (m : List Nat) :
    (MapAxis.try_new m).isSome ↔ m.Perm (List.range m.length) := by
  unfold MapAxis.try_new
  by_cases h1 : m.dedup.length = m.length
  · have hnd : m.Nodup := dedup_length_eq_iff.mp h1
    simp only [h1, ne_eq, not_true_eq_false, if_false]
    cases hm : m.max? with
    | none =>
      have : m = [] := List.max?_eq_none_iff.mp hm
      subst this
      simp
    | some mx =>
      by_cases h2 : mx = m.length - 1
      · simp only [h2]
        simp only [decide_not, ne_eq]
        simp
        exact perm_range_of_nodup_max hnd hm h2
      · simp only [h2]
        simp
        intro hperm
        exact h2 (max_eq_of_perm_range hm hperm)
  · simp only [h1, ne_eq, not_false_eq_true, if_true, Option.isSome_none,
      Bool.false_eq_true, false_iff]
    intro hperm
    exact h1 (dedup_length_eq_iff.mpr (hperm.nodup_iff.mpr (List.nodup_range _)))

/-! ### Claim C4: `Matrix::try_new_colmaj` (code bug) -/

/-- C4: at the non-square failing input `data = [1,2,3,4,5,6]`, `nrows = 3`,
construction succeeds but the naive in-place swap pass scrambles the data:
element (0,1) of the result is 3, whereas the column-major reading of the
input demands `data[1 * 3 + 0] = 4`.  (The swap-when-larger pass only
realizes the transposition permutation when every cycle has length ≤ 2,
i.e. for square shapes.) -/
theorem try_new_colmaj_nonsquare_scrambles :
    Matrix.try_new_colmaj ([1, 2, 3, 4, 5, 6] : List ℚ) 3 =
      some ⟨[1, 3, 5, 4, 2, 6], 3, 2⟩ ∧
    (Matrix.mk ([1, 3, 5, 4, 2, 6] : List ℚ) 3 2).get 0 1 = some 3 ∧
    ([1, 2, 3, 4, 5, 6] : List ℚ)[1 * 3 + 0]? = some 4 ∧
    (3 : ℚ) ≠ 4 :=
  ⟨by decide, by decide, by decide, by decide⟩

/-! ### Claim C5: `Matrix::has_orthonormal_rows` (code bug) -/

theorem magnitude_half : magnitude [(1/2 : ℝ)] = 1/2 := by
  unfold magnitude
  have h1 : (([(1/2 : ℝ)].map fun x => x * x).sum) = (1/2 : ℝ) ^ 2 := by
    simp
    norm_num
  rw [h1, Real.sqrt_sq (by norm_num : (0:ℝ) ≤ 1/2)]

/-- C5: the magnitude check in `has_orthonormal_rows` is one-sided
(`magnitude - 1.0 > 1e-10`), so the 1×1 matrix `[0.5]`, whose single row has
magnitude 1/2 — differing from 1 by far more than `1e-10` in absolute value —
is accepted, contradicting the claim that rows with magnitude well below 1
are rejected. -/
theorem has_orthonormal_rows_accepts_low_magnitude :
    (Matrix.mk ([1/2] : List ℝ) 1 1).has_orthonormal_rows ∧
    ¬ (|magnitude [(1/2 : ℝ)] - 1| ≤ (1 : ℝ) / 10 ^ 10) := by
  constructor
  · intro i hi ri hri
    have hrows : (Matrix.mk ([1/2] : List ℝ) 1 1).rows = [[1/2]] := by
      simp [Matrix.rows, chunksList, chunksGo]
    rw [hrows] at hri
    rw [hrows] at hi
    simp at hi
    subst hi
    simp at hri
    subst hri
    refine ⟨?_, ?_⟩
    · rw [show ((2⁻¹ : ℝ)) = 1/2 by norm_num, magnitude_half]
      norm_num
    · intro j hj
      omega
  · rw [magnitude_half]
    intro hcon
    rw [abs_le] at hcon
    have := hcon.1
    norm_num at this

/-! ### Claim C3: `TransformGraph::add_edge` on a self-loop (code bug) -/

/-- C3: a self-loop call registers the label, inserts no edge of any kind —
and returns `true`, regardless of `with_inverse`, although no inverse edge
was added; the claim (and the function's own doc comment, which says the
return value reports whether the inverse edge was added) requires `false`. -/
theorem add_edge_self_loop_returns_true :
    (add_edge (TransformGraph.empty Nat) 0 0 (.translate [1]) 1 true).map
      (fun r => (r.1.nodes, r.1.edges, r.2)) = some ([0], [], true) ∧
    (add_edge (TransformGraph.empty Nat) 0 0 (.translate [1]) 1 false).map
      (fun r => (r.1.nodes, r.1.edges, r.2)) = some ([0], [], true) := by
  constructor <;>
    simp [add_edge, ensure_coord_system, TransformGraph.empty, Transform.input_ndim]

/-! ### Claim C6: `Transformed::column_get_into` scratch shape (code bug) -/

/-- C6: for the `Transformed` resampler over a 1→2-dimensional `Affine`
(matrix `[[2],[3]]`, zero translation) and an inner 2-dimensional indexer
summing its coordinate (using the trait-default columnar lookup), the
construction precondition holds, `get([1])` sees the full transformed
coordinate `[2, 3]` and returns 5, but `column_get_into([[1]])` materializes
a scratch of `columns.len() = 1` columns (the input dimensionality, not the
output dimensionality), so the inner indexer sees the 1-dimensional
coordinate `[2]` and the call writes 2. -/
theorem transformed_column_scratch_wrong_ndim :
    Transformed.try_new ⟨2, fun c => c.sum⟩ (.affine ⟨[2, 3], 2, 1⟩ [0, 0]) =
      some (⟨2, fun c => c.sum⟩, .affine ⟨[2, 3], 2, 1⟩ [0, 0]) ∧
    Transformed.get 0 (⟨2, fun c => c.sum⟩, .affine ⟨[2, 3], 2, 1⟩ [0, 0]) [1] =
      some 5 ∧
    Transformed.column_get_into 0 (⟨2, fun c => c.sum⟩, .affine ⟨[2, 3], 2, 1⟩ [0, 0])
      [[1]] [0] = some [2] ∧
    (5 : ℚ) ≠ 2 := by
  refine ⟨?_, ?_, ?_, by norm_num⟩
  · simp [Transformed.try_new, Transform.output_ndim]
  · simp [Transformed.get, transform_into, Transform.output_ndim, Matrix.matmul_into,
      mmGo, zipWithKeep, List.enum]
    norm_num
  · simp [Transformed.column_get_into, column_transform_into,
      Matrix.matmul_transposed_into, chunksList, chunksGo, zipWithKeep,
      RealIndex.column_get_into, coordAt, setChecked, List.enum, List.range_succ,
      List.foldlM_cons, List.foldlM_nil]

/-! ### Claim C10: the trait-default columnar lookups write only `buf[0]` -/

theorem coordAt_go (idx : Nat) :
    ∀ (cs : List (List ℚ)) (s : Nat) (coord : List ℚ),
      (∀ c ∈ cs, idx < c.length) → s + cs.length ≤ coord.length →
      (List.enumFrom s cs).foldlM
        (fun c p => do
          let v ← p.2[idx]?
          some (c.set p.1 v))
        coord =
      some (coord.take s ++ cs.map (fun c => c.getD idx 0) ++ coord.drop (s + cs.length))
  | [], s, coord, _, _ => by
    simp
  | col :: cs, s, coord, hlen, hsz => by
    have hidx : idx < col.length := hlen col (by simp)
    have hcv : col[idx]? = some (col.getD idx 0) := by
      simp [List.getElem?_eq_getElem hidx, List.getD_eq_getElem _ _ hidx]
    simp only [List.enumFrom_cons, List.foldlM_cons, hcv, Option.bind_eq_bind,
      Option.some_bind]
    have hslt : s < coord.length := by simp at hsz; omega
    have ih := coordAt_go idx cs (s + 1) (coord.set s (col.getD idx 0))
      (fun c2 h2 => hlen c2 (by simp [h2])) (by simp; simp at hsz; omega)
    simp only [Option.bind_eq_bind] at ih
    rw [ih]
    congr 1
    have h1 : List.take (s + 1) (coord.set s (col.getD idx 0)) =
        List.take s coord ++ [col.getD idx 0] := by
      rw [List.set_eq_take_append_cons_drop, if_pos hslt, List.take_append_eq_append_take]
      simp [List.take_take, Nat.min_def, Nat.le_of_lt hslt]
    have h2 : List.drop (s + 1 + cs.length) (coord.set s (col.getD idx 0)) =
        List.drop (s + (1 + cs.length)) coord := by
      rw [List.set_eq_take_append_cons_drop, if_pos hslt, List.drop_append_eq_append_drop]
      have hl : (List.take s coord).length = s := by
        simp [Nat.le_of_lt hslt]
      have hd : List.drop (s + 1 + cs.length) (List.take s coord) = [] := by
        apply List.drop_eq_nil_of_le
        rw [hl]
        omega
      rw [hd, hl]
      simp only [List.nil_append]
      have h3 : s + 1 + cs.length - s = 1 + cs.length := by omega
      rw [h3]
      have h4 : 1 + cs.length = cs.length + 1 := by omega
      rw [h4, List.drop_succ_cons, List.drop_drop]
      congr 1
      omega
    rw [h1, h2]
    simp only [List.map_cons, List.length_cons, List.append_assoc, List.singleton_append]
    have h5 : s + (1 + cs.length) = s + (cs.length + 1) := by omega
    rw [h5]

theorem coordAt_eq {columns : List (List ℚ)} {idx : Nat} {coord : List ℚ}
    (hlen : ∀ c ∈ columns, idx < c.length) (hsz : coord.length = columns.length) :
    coordAt columns idx coord = some (columns.map fun c => c.getD idx 0) := by
  unfold coordAt
  rw [List.enum_eq_enumFrom]
  rw [coordAt_go idx columns 0 coord hlen (by omega)]
  congr 1
  simp [List.drop_eq_nil_of_le (le_of_eq hsz)]

theorem colget_loop (g : List ℚ → ℚ) (columns : List (List ℚ)) (n : Nat)
    (hcols : ∀ c ∈ columns, c.length = n) (buf : List ℚ) (hbuf : buf ≠ []) (nan : ℚ) :
    ∀ m, 1 ≤ m → m ≤ n →
      (List.range m).foldlM
        (fun (st : List ℚ × List ℚ) idx => do
          let coord ← coordAt columns idx st.1
          let buf2 ← setChecked st.2 0 (g coord)
          some ((coord, buf2)))
        (List.replicate columns.length nan, buf) =
      some (columns.map (fun c => c.getD (m - 1) 0),
        buf.set 0 (g (columns.map fun c => c.getD (m - 1) 0))) := by
  intro m
  induction m with
  | zero => omega
  | succ m ih =>
    intro _ hmn
    by_cases hm1 : m = 0
    · subst hm1
      simp only [List.range_succ, List.range_zero, List.nil_append, List.foldlM_cons,
        List.foldlM_nil]
      rw [coordAt_eq (fun c hc => by rw [hcols c hc]; omega) (by simp)]
      have hset : setChecked buf 0 (g (columns.map fun c => c.getD 0 0)) =
          some (buf.set 0 (g (columns.map fun c => c.getD 0 0))) := by
        unfold setChecked
        rw [if_pos (by cases buf with | nil => simp at hbuf | cons a l => simp)]
      simp only [Option.bind_eq_bind, Option.some_bind, hset]
      simp
    · have hm : 1 ≤ m := by omega
      rw [List.range_succ, List.foldlM_append]
      rw [ih hm (by omega)]
      simp only [Option.bind_eq_bind, Option.some_bind, List.foldlM_cons, List.foldlM_nil]
      rw [coordAt_eq (fun c hc => by rw [hcols c hc]; omega) (by simp)]
      have hset : setChecked (buf.set 0 (g (columns.map fun c => c.getD (m - 1) 0))) 0
          (g (columns.map fun c => c.getD m 0)) =
          some ((buf.set 0 (g (columns.map fun c => c.getD (m - 1) 0))).set 0
            (g (columns.map fun c => c.getD m 0))) := by
        unfold setChecked
        rw [if_pos (by cases buf with | nil => simp at hbuf | cons a l => simp)]
      simp only [Option.bind_eq_bind, Option.some_bind, hset, List.set_set]
      simp

/-- C10: both trait-default columnar lookups (`RealIndex::column_get_into`
and `ValueProvider::column_get_into`) write every sample's value to position
0 only: on a batch of `n ≥ 1` samples the final buffer is the input buffer
with position 0 holding the value of the last sample's coordinate, and every
position `j ≥ 1` left unchanged. -/
theorem default_column_get_writes_only_position_zero (nan : ℚ) (g : List ℚ → ℚ)
    (columns : List (List ℚ)) (buf : List ℚ) (n : Nat) (hne : columns ≠ [])
    (hcols : ∀ c ∈ columns, c.length = n) (hn : 1 ≤ n) (hbuf : buf ≠ []) :
    RealIndex.column_get_into nan g columns buf =
      some (buf.set 0 (g (columns.map fun c => c.getD (n - 1) 0))) ∧
    ValueProvider.column_get_into nan g columns buf =
      some (buf.set 0 (g (columns.map fun c => c.getD (n - 1) 0))) ∧
    ∀ j, 1 ≤ j → (buf.set 0 (g (columns.map fun c => c.getD (n - 1) 0)))[j]? = buf[j]? := by
  obtain ⟨c0, rest, rfl⟩ : ∃ c0 rest, columns = c0 :: rest := by
    cases columns with
    | nil => exact absurd rfl hne
    | cons a l => exact ⟨a, l, rfl⟩
  have hc0 : c0.length = n := hcols c0 (by simp)
  have key := colget_loop g (c0 :: rest) n hcols buf hbuf nan n hn (Nat.le_refl n)
  simp only [Option.bind_eq_bind] at key
  refine ⟨?_, ?_, ?_⟩
  · unfold RealIndex.column_get_into
    simp only [List.getElem?_cons_zero, Option.bind_eq_bind, Option.some_bind, hc0]
    rw [key]
    simp only [Option.some_bind]
  · unfold ValueProvider.column_get_into
    simp only [List.getElem?_cons_zero, Option.bind_eq_bind, Option.some_bind, hc0]
    rw [key]
    simp only [Option.some_bind]
  · intro j hj
    rw [List.getElem?_set_ne (by omega)]

/-- Witness for C10 at `columns = [[1, 2]]`, `buf = [5, 6]`, `g = sum`. -/
theorem default_column_get_writes_only_position_zero_witness :
    ([[(1 : ℚ), 2]] : List (List ℚ)) ≠ [] ∧
    (∀ c ∈ ([[(1 : ℚ), 2]] : List (List ℚ)), c.length = 2) ∧
    (1 : Nat) ≤ 2 ∧ ([5, 6] : List ℚ) ≠ [] ∧
    (RealIndex.column_get_into 0 (fun c => c.sum) [[1, 2]] [5, 6] =
      some (([5, 6] : List ℚ).set 0
        ((fun c : List ℚ => c.sum) (([[(1 : ℚ), 2]] : List (List ℚ)).map
          fun c => c.getD (2 - 1) 0))) ∧
    ValueProvider.column_get_into 0 (fun c => c.sum) [[1, 2]] [5, 6] =
      some (([5, 6] : List ℚ).set 0
        ((fun c : List ℚ => c.sum) (([[(1 : ℚ), 2]] : List (List ℚ)).map
          fun c => c.getD (2 - 1) 0))) ∧
    ∀ j, 1 ≤ j →
      ((([5, 6] : List ℚ).set 0
        ((fun c : List ℚ => c.sum) (([[(1 : ℚ), 2]] : List (List ℚ)).map
          fun c => c.getD (2 - 1) 0))))[j]? = (([5, 6] : List ℚ))[j]?) :=
  ⟨by decide, by decide, by decide, by decide,
    default_column_get_writes_only_position_zero 0 (fun c => c.sum) [[1, 2]] [5, 6] 2
      (by decide) (by decide) (by decide) (by decide)⟩

/-! ### Claim C8: the two-stage sequence scenario -/

/-- C8: `Sequence([Scale([1, 0.5, 2]), Translate([10, -6, 0.5])])` applied as
a single point to `[2, 4, 3]` writes exactly `[12, -4, 6.5]` into any
length-3 output buffer, for any scratch fill value. -/
theorem sequence_scale_translate_point (nan : ℚ) (buf : List ℚ) (h : buf.length = 3) :
    transform_into nan (.sequence [.scale [1, 1/2, 2], .translate [10, -6, 1/2]])
      [2, 4, 3] buf = some [12, -4, 13/2] := by
  obtain ⟨a, b, c, rfl⟩ := List.length_eq_three.mp h
  simp [transform_into, seqPointGo, seqMaxInnerNdim, Transform.input_ndim,
    Transform.output_ndim, writeFront]
  norm_num

/-- Witness for C8 at the zero-filled output buffer. -/
theorem sequence_scale_translate_point_witness :
    ([0, 0, 0] : List ℚ).length = 3 ∧
    transform_into 0 (.sequence [.scale [1, 1/2, 2], .translate [10, -6, 1/2]])
      [2, 4, 3] [0, 0, 0] = some [12, -4, 13/2] :=
  ⟨by decide, sequence_scale_translate_point 0 [0, 0, 0] (by decide)⟩

/-! ## List and matrix helper lemmas -/

theorem writeFront_length (vals buf : List α) : (writeFront vals buf).length = buf.length := by
  unfold writeFront
  simp
  omega

theorem writeFront_eq_of_length {vals buf : List α} (h : vals.length = buf.length) :
    writeFront vals buf = vals := by
  unfold writeFront
  rw [List.take_of_length_le (le_of_eq h), List.drop_eq_nil_of_le (le_of_eq h.symm)]
  simp

theorem writeFront_take {vals buf : List α} (h : vals.length ≤ buf.length) :
    (writeFront vals buf).take vals.length = vals := by
  unfold writeFront
  rw [List.take_append_eq_append_take]
  have h1 : List.take vals.length (List.take buf.length vals) = vals := by
    rw [List.take_take, Nat.min_eq_left h, List.take_of_length_le (Nat.le_refl _)]
  have h2 : (List.take buf.length vals).length = vals.length := by
    simp
    omega
  rw [h1, h2]
  simp

theorem zipWithKeep_eq_zipWith {f : α → β → α} :
    ∀ {xs : List α} {ys : List β}, xs.length ≤ ys.length →
      zipWithKeep f xs ys = List.zipWith f xs ys
  | [], [], _ => rfl
  | [], _ :: _, _ => rfl
  | _ :: _, [], h => by simp at h
  | x :: xs, y :: ys, h => by
    simp only [zipWithKeep, List.zipWith_cons_cons]
    rw [zipWithKeep_eq_zipWith (by simpa using h)]

theorem mapM_eq_some_map {f : α → Option β} {g : α → β} :
    ∀ {l : List α}, (∀ x ∈ l, f x = some (g x)) → l.mapM f = some (l.map g)
  | [], _ => rfl
  | x :: xs, h => by
    rw [List.mapM_cons, h x (by simp)]
    rw [mapM_eq_some_map (fun y hy => h y (by simp [hy]))]
    rfl

theorem le_foldl_max (l : List Nat) : ∀ x ∈ l, ∀ a, x ≤ l.foldl max a := by
  induction l with
  | nil => simp
  | cons b bs ih =>
    intro x hx a
    simp only [List.foldl_cons]
    rcases List.mem_cons.mp hx with rfl | hx2
    · calc x ≤ max a x := Nat.le_max_right a x
        _ ≤ bs.foldl max (max a x) := by
          clear ih hx
          induction bs generalizing a x with
          | nil => simp
          | cons c cs ih2 =>
            simp only [List.foldl_cons]
            calc max a x ≤ max (max a x) c := Nat.le_max_left _ _
              _ ≤ cs.foldl max (max (max a x) c) := ih2 _ _
    · exact ih x hx2 _



theorem set_getD_self {l : List α} {n : Nat} {d : α} (h : n < l.length) :
    l.set n (l.getD n d) = l := by
  apply List.ext_getElem?
  intro i
  by_cases hi : i = n
  · subst hi
    rw [List.getElem?_set_self (by omega)]
    rw [List.getD_eq_getElem l d h, List.getElem?_eq_getElem h]
  · rw [List.getElem?_set_ne (by omega)]

theorem mmGo_append (ncols : Nat) (coord : List ℚ) (l1 l2 : List (Nat × ℚ)) :
    ∀ buf, mmGo ncols coord (l1 ++ l2) buf =
      (mmGo ncols coord l1 buf).bind (mmGo ncols coord l2) := by
  induction l1 with
  | nil => intro buf; simp [mmGo]
  | cons p l1 ih =>
    intro buf
    obtain ⟨idx, d⟩ := p
    simp only [List.cons_append, mmGo, Option.bind_eq_bind]
    cases hb : buf[idx / ncols]? with
    | none => simp
    | some bv =>
      cases hc : coord[idx % ncols]? with
      | none => simp
      | some cv =>
        simp only [Option.some_bind]
        exact ih _

theorem mm_row (ncols : Nat) (coord : List ℚ) (hnc : 0 < ncols) :
    ∀ (row : List ℚ) (j r : Nat) (buf : List ℚ),
      j + row.length ≤ ncols → r < buf.length → j + row.length ≤ coord.length →
      mmGo ncols coord (List.enumFrom (r * ncols + j) row) buf =
      some (buf.set r (buf.getD r 0 +
        (List.zipWith (fun a b => a * b) row (coord.drop j)).sum))
  | [], j, r, buf, _, hr, _ => by
    simp only [List.enumFrom_nil, mmGo, List.zipWith_nil_left, List.sum_nil, add_zero,
      set_getD_self hr]
  | d :: row, j, r, buf, hjn, hr, hjc => by
    have hj : j < ncols := by simp at hjn; omega
    have hjc1 : j < coord.length := by simp at hjc; omega
    have hdiv : (r * ncols + j) / ncols = r := by
      rw [Nat.add_comm, Nat.add_mul_div_right _ _ hnc, Nat.div_eq_of_lt hj, Nat.zero_add]
    have hmod : (r * ncols + j) % ncols = j := by
      rw [Nat.add_comm, Nat.add_mul_mod_self_right, Nat.mod_eq_of_lt hj]
    simp only [List.enumFrom_cons, mmGo, hdiv, hmod, Option.bind_eq_bind]
    rw [List.getElem?_eq_getElem hr, List.getElem?_eq_getElem hjc1]
    simp only [Option.some_bind]
    have harith : r * ncols + j + 1 = r * ncols + (j + 1) := by omega
    rw [harith, mm_row ncols coord hnc row (j + 1) r _
      (by simp at hjn ⊢; omega) (by simpa using hr) (by simp at hjc ⊢; omega)]
    congr 1
    rw [List.set_set]
    congr 1
    rw [List.getD_eq_getElem?_getD, List.getElem?_set_self hr, Option.getD_some]
    rw [List.getD_eq_getElem?_getD, List.getElem?_eq_getElem hr, Option.getD_some]
    rw [List.drop_eq_getElem_cons hjc1]
    simp only [List.zipWith_cons_cons, List.sum_cons]
    ring

theorem mm_rows (ncols : Nat) (coord : List ℚ) (hnc : 0 < ncols) :
    ∀ (k : Nat) (data : List ℚ) (r : Nat) (buf : List ℚ),
      data.length = k * ncols → r + k ≤ buf.length → ncols ≤ coord.length →
      mmGo ncols coord (List.enumFrom (r * ncols) data) buf =
      some (buf.take r ++
        ((List.range k).map fun i => buf.getD (r + i) 0 +
          (List.zipWith (fun a b => a * b) ((data.drop (i * ncols)).take ncols) coord).sum) ++
        buf.drop (r + k))
  | 0, data, r, buf, hd, hrb, _ => by
    have hdn : data = [] := List.eq_nil_of_length_eq_zero (by simpa using hd)
    subst hdn
    simp [mmGo]
  | k + 1, data, r, buf, hd, hrb, hcl => by
    have hnk : ncols ≤ data.length := by
      rw [hd]
      calc ncols = 1 * ncols := (one_mul _).symm
        _ ≤ (k + 1) * ncols := Nat.mul_le_mul_right _ (by omega)
    have hrowlen : (data.take ncols).length = ncols := by
      rw [List.length_take]; omega
    have hrestlen : (data.drop ncols).length = k * ncols := by
      rw [List.length_drop, hd, Nat.succ_mul]; omega
    have hrlt : r < buf.length := by omega
    have h0 := mm_row ncols coord hnc (data.take ncols) 0 r buf
      (by simp [hrowlen]) hrlt (by simpa [hrowlen] using hcl)
    simp only [Nat.zero_add, Nat.add_zero, List.drop_zero] at h0
    conv_lhs => rw [← List.take_append_drop ncols data]
    rw [List.enumFrom_append, mmGo_append, hrowlen, h0]
    simp only [Option.some_bind]
    rw [show r * ncols + ncols = (r + 1) * ncols from (Nat.succ_mul r ncols).symm]
    rw [mm_rows ncols coord hnc k (data.drop ncols) (r + 1) _ hrestlen
      (by simp only [List.length_set]; omega) hcl]
    congr 1
    rw [List.set_take, List.take_succ, List.getElem?_eq_getElem hrlt, Option.toList_some,
      List.set_append]
    rw [if_neg (by rw [List.length_take]; omega)]
    rw [show r - (buf.take r).length = 0 by rw [List.length_take]; omega]
    rw [List.drop_set, if_pos (by omega)]
    rw [show r + (k + 1) = r + 1 + k from by omega]
    rw [List.range_succ_eq_map, List.map_cons, List.map_map]
    have hmid : (List.range k).map
        ((fun i => buf.getD (r + i) 0 +
          (List.zipWith (fun a b => a * b) ((data.drop (i * ncols)).take ncols) coord).sum)
          ∘ Nat.succ) =
        (List.range k).map fun i => (buf.set r (buf.getD r 0 +
            (List.zipWith (fun a b => a * b) (data.take ncols) coord).sum)).getD (r + 1 + i) 0 +
          (List.zipWith (fun a b => a * b)
            (((data.drop ncols).drop (i * ncols)).take ncols) coord).sum := by
      refine List.map_congr_left fun i _ => ?_
      simp only [Function.comp]
      rw [List.drop_drop, show ncols + i * ncols = Nat.succ i * ncols from by
        rw [Nat.succ_mul]; omega]
      rw [show r + 1 + i = r + Nat.succ i from by omega]
      simp [List.getD_eq_getElem?_getD,
        List.getElem?_set_ne (show r ≠ r + Nat.succ i from by omega)]
    rw [← hmid]
    simp only [Function.comp, Nat.zero_mul, List.drop_zero, Nat.add_zero]
    simp [List.append_assoc]

theorem matmul_into_eq (m : Matrix ℚ) (coord buf : List ℚ)
    (hb : buf.length = m.nrows) (hc : coord.length = m.ncols)
    (hd : m.data.length = m.nrows * m.ncols) (hnc : 0 < m.ncols) :
    m.matmul_into coord buf = some (matVec m coord) := by
  unfold Matrix.matmul_into
  have h := mm_rows m.ncols coord hnc m.nrows m.data 0 (buf.map fun _ => 0)
    (by rw [hd]) (by simp [hb]) (le_of_eq hc.symm)
  rw [Nat.zero_mul] at h
  rw [List.enum_eq_enumFrom, h]
  congr 1
  simp only [List.take_zero, Nat.zero_add, List.nil_append]
  rw [List.drop_eq_nil_of_le (by simp [hb]), List.append_nil]
  unfold matVec
  refine List.map_congr_left fun i _ => ?_
  have hg : (buf.map fun _ => (0 : ℚ)).getD i 0 = 0 := by
    rw [List.getD_eq_getElem?_getD, List.getElem?_map]
    cases buf[i]? <;> simp
  rw [hg, zero_add]

/-! ## Point-semantics infrastructure -/

theorem matVec_length (m : Matrix ℚ) (x : List ℚ) : (matVec m x).length = m.nrows := by
  simp [matVec]

theorem scatterF_length (o : List Nat) (v b : List ℚ) : (scatterF o v b).length = b.length := by
  unfold scatterF
  induction o.zip v generalizing b with
  | nil => rfl
  | cons q rest ih => simp only [List.foldl_cons]; rw [ih]; simp

theorem scatterF_getD_notin {j : Nat} :
    ∀ (o : List Nat) (v b : List ℚ), j ∉ o → (scatterF o v b).getD j 0 = b.getD j 0
  | [], v, b, _ => rfl
  | d :: o, v, b, hj => by
    cases v with
    | nil => rfl
    | cons x v =>
      unfold scatterF
      simp only [List.zip_cons_cons, List.foldl_cons]
      rw [show (List.zip o v).foldl (fun b q => b.set q.1 q.2) (b.set d x) =
        scatterF o v (b.set d x) from rfl]
      rw [scatterF_getD_notin o v _ (fun h => hj (List.mem_cons_of_mem _ h))]
      rw [List.getD_eq_getElem?_getD, List.getD_eq_getElem?_getD,
        List.getElem?_set_ne (fun h => hj (by subst h; exact List.mem_cons_self _ _))]

theorem scatterF_getD_write {j : Nat} :
    ∀ (o : List Nat) (v : List ℚ) (b1 b2 : List ℚ), b1.length = b2.length →
      j ∈ o → o.length ≤ v.length → (∀ d ∈ o, d < b1.length) →
      (scatterF o v b1).getD j 0 = (scatterF o v b2).getD j 0
  | [], _, _, _, _, hj, _, _ => absurd hj (List.not_mem_nil _)
  | d :: o, v, b1, b2, hlen, hj, hlv, hd => by
    cases v with
    | nil => simp at hlv
    | cons x v =>
      unfold scatterF
      simp only [List.zip_cons_cons, List.foldl_cons]
      rw [show (List.zip o v).foldl (fun b q => b.set q.1 q.2) (b1.set d x) =
        scatterF o v (b1.set d x) from rfl,
        show (List.zip o v).foldl (fun b q => b.set q.1 q.2) (b2.set d x) =
        scatterF o v (b2.set d x) from rfl]
      by_cases hjo : j ∈ o
      · exact scatterF_getD_write o v _ _ (by simp [hlen]) hjo (by simpa using hlv)
          (fun e he => by simpa using hd e (List.mem_cons_of_mem _ he))
      · have hjd : j = d := by
          rcases List.mem_cons.mp hj with h | h
          · exact h
          · exact absurd h hjo
        subst hjd
        rw [scatterF_getD_notin o v _ hjo, scatterF_getD_notin o v _ hjo]
        have hdl : j < b1.length := hd j (List.mem_cons_self _ _)
        rw [List.getD_eq_getElem?_getD, List.getD_eq_getElem?_getD,
          List.getElem?_set_self hdl, List.getElem?_set_self (hlen ▸ hdl)]

theorem scatter_fold_agree :
    ∀ (items : List (List Nat × List ℚ)) (b1 b2 : List ℚ),
      b1.length = b2.length →
      (∀ q ∈ items, q.1.length ≤ q.2.length ∧ ∀ d ∈ q.1, d < b1.length) →
      (∀ j, j < b1.length → j ∈ (items.map Prod.fst).flatten ∨ b1.getD j 0 = b2.getD j 0) →
      items.foldl (fun b q => scatterF q.1 q.2 b) b1 =
      items.foldl (fun b q => scatterF q.1 q.2 b) b2
  | [], b1, b2, hlen, _, hagree => by
    simp only [List.foldl_nil]
    refine List.ext_getElem hlen fun n h1 h2 => ?_
    have := hagree n h1
    simp only [List.map_nil, List.flatten_nil, List.not_mem_nil, false_or] at this
    rw [List.getD_eq_getElem b1 0 h1, List.getD_eq_getElem b2 0 h2] at this
    exact this
  | (o, v) :: rest, b1, b2, hlen, hq, hagree => by
    simp only [List.foldl_cons]
    refine scatter_fold_agree rest (scatterF o v b1) (scatterF o v b2)
      (by rw [scatterF_length, scatterF_length, hlen]) ?_ ?_
    · intro q hqm
      refine ⟨(hq q (List.mem_cons_of_mem _ hqm)).1, fun d hd => ?_⟩
      rw [scatterF_length]
      exact (hq q (List.mem_cons_of_mem _ hqm)).2 d hd
    · intro j hj
      rw [scatterF_length] at hj
      by_cases hjr : j ∈ (rest.map Prod.fst).flatten
      · exact Or.inl hjr
      · right
        by_cases hjo : j ∈ o
        · exact scatterF_getD_write o v b1 b2 hlen hjo
            (hq (o, v) (List.mem_cons_self _ _)).1
            (fun d hd => (hq (o, v) (List.mem_cons_self _ _)).2 d hd)
        · rw [scatterF_getD_notin o v _ hjo, scatterF_getD_notin o v _ hjo]
          rcases hagree j hj with h | h
          · simp only [List.map_cons, List.flatten_cons, List.mem_append] at h
            rcases h with h | h
            · exact absurd h hjo
            · exact absurd h hjr
          · exact h

theorem scatterInto_eq :
    ∀ (o : List Nat) (v b : List ℚ), o.length ≤ v.length → (∀ d ∈ o, d < b.length) →
      scatterInto o v b = some (scatterF o v b)
  | [], v, b, _, _ => rfl
  | d :: o, v, b, hl, hd => by
    cases v with
    | nil => simp at hl
    | cons x v =>
      unfold scatterInto scatterF
      simp only [List.zip_cons_cons, List.foldlM_cons, List.foldl_cons]
      rw [show setChecked b d x = some (b.set d x) from
        if_pos (hd d (List.mem_cons_self _ _))]
      simp only [Option.bind_eq_bind, Option.some_bind]
      have := scatterInto_eq o v (b.set d x) (by simpa using hl)
        (fun e he => by simpa using hd e (List.mem_cons_of_mem _ he))
      unfold scatterInto scatterF at this
      exact this

theorem pointFun_sequence (ts : List Transform) (p : List ℚ) :
    pointFun (.sequence ts) p = ts.foldl (fun acc t => pointFun t acc) p := by
  rw [pointFun]
  exact List.foldl_attach ts (fun acc t => pointFun t acc) p

theorem pointFun_byDimension (subs : List SubT) (p : List ℚ) :
    pointFun (.byDimension subs) p = subs.foldl
      (fun buf q => scatterF q.2.2 (pointFun q.1 (q.2.1.map fun i => p.getD i 0)) buf)
      (List.replicate ((subs.map fun bt => bt.2.2.length).sum) 0) := by
  rw [pointFun]
  exact List.foldl_attach subs
    (fun buf q => scatterF q.2.2 (pointFun q.1 (q.2.1.map fun i => p.getD i 0)) buf) _

theorem input_ndim_sequence_cons (t : Transform) (rest : List Transform) :
    (Transform.sequence (t :: rest)).input_ndim = t.input_ndim := by
  simp [Transform.input_ndim]

theorem output_ndim_sequence {ts : List Transform} {tl : Transform}
    (h : ts.getLast? = some tl) :
    (Transform.sequence ts).output_ndim = tl.output_ndim := by
  rw [Transform.output_ndim]
  split
  · rename_i t' heq
    rw [heq] at h
    injection h with h
    rw [h]
  · rename_i heq
    rw [heq] at h
    cases h

theorem foldl_pointFun_length :
    ∀ (ts : List Transform) (x : List ℚ),
      (∀ t ∈ ts, ∀ p, p.length = t.input_ndim → (pointFun t p).length = t.output_ndim) →
      ts.Chain' (fun a b => a.output_ndim = b.input_ndim) →
      (∀ t rest, ts = t :: rest → x.length = t.input_ndim) →
      ∀ tl, ts.getLast? = some tl →
      (ts.foldl (fun acc t => pointFun t acc) x).length = tl.output_ndim
  | [], _, _, _, _, _, h => by simp at h
  | [t], x, hlen, _, hx, tl, h => by
    simp only [List.getLast?_singleton, Option.some.injEq] at h
    subst h
    simp only [List.foldl_cons, List.foldl_nil]
    exact hlen t (List.mem_singleton_self _) x (hx t [] rfl)
  | t :: t2 :: r2, x, hlen, hch, hx, tl, h => by
    simp only [List.foldl_cons]
    have hch2 := List.chain'_cons.mp hch
    refine foldl_pointFun_length (t2 :: r2) (pointFun t x)
      (fun u hu => hlen u (List.mem_cons_of_mem _ hu)) hch2.2 ?_ tl
      (by rw [← h, List.getLast?_cons_cons])
    intro u rest2 he
    injection he with he1 he2
    subst he1
    rw [hlen t (List.mem_cons_self _ _) x (hx t _ rfl), hch2.1]

theorem seqPointGo_spec (nan : ℚ) (mi : Nat) :
    ∀ (rest : List Transform) (x tail0 buf1 out_buf pt : List ℚ),
      rest ≠ [] →
      (∀ t ∈ rest,
        (∀ p, p.length = t.input_ndim → (pointFun t p).length = t.output_ndim) ∧
        (∀ p buf, p.length = t.input_ndim → buf.length = t.output_ndim →
          transform_into nan t p buf = some (pointFun t p))) →
      rest.Chain' (fun a b => a.output_ndim = b.input_ndim) →
      (∀ t ∈ rest, t.input_ndim ≤ mi) →
      x.length + tail0.length = mi → buf1.length = mi →
      (∀ t r2, rest = t :: r2 → x.length = t.input_ndim) →
      (∀ tl, rest.getLast? = some tl → out_buf.length = tl.output_ndim) →
      ∃ b0 b1, seqPointGo nan rest false pt out_buf (x ++ tail0) buf1 =
        some (rest.foldl (fun acc t => pointFun t acc) x, b0, b1)
  | [], _, _, _, _, _, hne, _, _, _, _, _, _, _ => absurd rfl hne
  | [t], x, tail0, buf1, out_buf, pt, _, hIH, _, hmi, hb0, _, hx, hout => by
    have hxl : x.length = t.input_ndim := hx t [] rfl
    have hti : t.input_ndim ≤ mi := hmi t (List.mem_cons_self _ _)
    simp only [seqPointGo, Bool.false_eq_true, if_false, List.isEmpty_nil, if_true,
      List.length_append]
    rw [if_pos (by omega : t.input_ndim ≤ x.length + tail0.length)]
    rw [show (x ++ tail0).take t.input_ndim = x from by rw [← hxl]; exact List.take_left x tail0]
    rw [(hIH t (List.mem_cons_self _ _)).2 x out_buf hxl
      (hout t (by simp))]
    simp only [Option.bind_eq_bind, Option.some_bind]
    exact ⟨buf1, x ++ tail0, by simp [seqPointGo]⟩
  | t :: t2 :: r2, x, tail0, buf1, out_buf, pt, _, hIH, hch, hmi, hb0, hb1, hx, hout => by
    have hxl : x.length = t.input_ndim := hx t _ rfl
    have hti : t.input_ndim ≤ mi := hmi t (List.mem_cons_self _ _)
    have hch2 := List.chain'_cons.mp hch
    have hto : t.output_ndim ≤ mi := by
      rw [hch2.1]
      exact hmi t2 (List.mem_cons_of_mem _ (List.mem_cons_self _ _))
    simp only [seqPointGo, Bool.false_eq_true, if_false, List.isEmpty_cons,
      List.length_append]
    rw [if_pos (by constructor <;> omega :
      t.input_ndim ≤ x.length + tail0.length ∧ t.output_ndim ≤ buf1.length)]
    rw [show (x ++ tail0).take t.input_ndim = x from by rw [← hxl]; exact List.take_left x tail0]
    rw [(hIH t (List.mem_cons_self _ _)).2 x (buf1.take t.output_ndim) hxl
      (by rw [List.length_take]; omega)]
    simp only [Option.bind_eq_bind, Option.some_bind]
    have hyl : (pointFun t x).length = t.output_ndim :=
      (hIH t (List.mem_cons_self _ _)).1 x hxl
    obtain ⟨b0, b1, heq⟩ := seqPointGo_spec nan mi (t2 :: r2) (pointFun t x)
      (buf1.drop t.output_ndim) (x ++ tail0) out_buf pt (by simp)
      (fun u hu => hIH u (List.mem_cons_of_mem _ hu)) hch2.2
      (fun u hu => hmi u (List.mem_cons_of_mem _ hu))
      (by rw [hyl, List.length_drop]; omega)
      (by simp; omega)
      (by intro u rest2 he; injection he with he1 he2; subst he1; rw [hyl, hch2.1])
      (fun tl htl => hout tl (by rw [← htl, List.getLast?_cons_cons]))
    refine ⟨b0, b1, ?_⟩
    simp only [seqPointGo, Bool.false_eq_true, if_false, List.isEmpty_cons,
      List.length_append] at heq
    simp only [List.foldl_cons]
    exact heq

theorem zip_left_trunc :
    ∀ (o : List α) (v1 v2 : List β), o.length ≤ v1.length → o.zip (v1 ++ v2) = o.zip v1
  | [], _, _, _ => by simp
  | a :: o, [], v2, h => by simp at h
  | a :: o, b :: v1, v2, h => by
    simp only [List.cons_append, List.zip_cons_cons, List.cons.injEq, true_and]
    exact zip_left_trunc o v1 v2 (by simpa using h)

theorem scatterF_append_trunc (o : List Nat) (v1 v2 b : List ℚ) (h : o.length ≤ v1.length) :
    scatterF o (v1 ++ v2) b = scatterF o v1 b := by
  unfold scatterF
  rw [zip_left_trunc o v1 v2 h]

theorem bdPointGo_spec (nan : ℚ) (pt : List ℚ) :
    ∀ (subs : List SubT) (ordered_pt ordered_buf buf : List ℚ),
      (∀ t ins outs, (t, ins, outs) ∈ subs →
        (∀ p, p.length = t.input_ndim → (pointFun t p).length = t.output_ndim) ∧
        (∀ p b, p.length = t.input_ndim → b.length = t.output_ndim →
          transform_into nan t p b = some (pointFun t p))) →
      (∀ t ins outs, (t, ins, outs) ∈ subs →
        t.input_ndim = ins.length ∧ t.output_ndim = outs.length ∧
        ins.length ≤ pt.length ∧ (∀ i ∈ ins, i < pt.length) ∧
        (∀ d ∈ outs, d < buf.length) ∧ outs.length ≤ ordered_buf.length) →
      ordered_pt.length = pt.length →
      bdPointGo nan subs pt ordered_pt ordered_buf buf =
        some (subs.foldl
          (fun b q => scatterF q.2.2 (pointFun q.1 (q.2.1.map fun i => pt.getD i 0)) b) buf)
  | [], ordered_pt, ordered_buf, buf, _, _, _ => by simp [bdPointGo]
  | (t, ins, outs) :: rest, ordered_pt, ordered_buf, buf, hIH, hwf, hop => by
    obtain ⟨hin, hout, hinp, hir, hdr, hob⟩ := hwf t ins outs (List.mem_cons_self _ _)
    simp only [bdPointGo]
    rw [show ins.take ordered_pt.length = ins from
      List.take_of_length_le (by omega)]
    rw [mapM_eq_some_map (g := fun i => pt.getD i 0) (fun i hi => by
      show pt[i]? = some (pt.getD i 0)
      rw [List.getElem?_eq_getElem (hir i hi), List.getD_eq_getElem pt 0 (hir i hi)])]
    simp only [Option.bind_eq_bind, Option.some_bind]
    have hvl : (ins.map fun i => pt.getD i 0).length = ins.length := List.length_map _ _
    rw [if_pos (⟨by rw [writeFront_length]; omega, hob⟩ :
      ins.length ≤ (writeFront (ins.map fun i => pt.getD i 0) ordered_pt).length ∧
      outs.length ≤ ordered_buf.length)]
    rw [show (writeFront (ins.map fun i => pt.getD i 0) ordered_pt).take ins.length =
        ins.map fun i => pt.getD i 0 from by
      rw [← hvl]; exact writeFront_take (by rw [hvl]; omega)]
    rw [(hIH t ins outs (List.mem_cons_self _ _)).2 _ (ordered_buf.take outs.length)
      (by rw [hvl, hin]) (by rw [List.length_take, hout]; omega)]
    simp only [Option.some_bind]
    have hyl : (pointFun t (ins.map fun i => pt.getD i 0)).length = outs.length := by
      rw [(hIH t ins outs (List.mem_cons_self _ _)).1 _ (by rw [hvl, hin]), hout]
    rw [scatterInto_eq outs _ buf (by rw [List.length_append, hyl]; omega) hdr]
    simp only [Option.some_bind]
    rw [scatterF_append_trunc _ _ _ _ (by rw [hyl])]
    rw [bdPointGo_spec nan pt rest (writeFront (ins.map fun i => pt.getD i 0) ordered_pt)
      (pointFun t (ins.map fun i => pt.getD i 0) ++ ordered_buf.drop outs.length)
      (scatterF outs (pointFun t (ins.map fun i => pt.getD i 0)) buf)
      (fun u uins uouts hu => hIH u uins uouts (List.mem_cons_of_mem _ hu))
      (fun u uins uouts hu => by
        obtain ⟨h1, h2, h3, h4, h5, h6⟩ := hwf u uins uouts (List.mem_cons_of_mem _ hu)
        refine ⟨h1, h2, h3, h4, fun d hd => ?_, ?_⟩
        · rw [scatterF_length]; exact h5 d hd
        · rw [List.length_append, hyl, List.length_drop]; omega)
      (by rw [writeFront_length, hop])]
    simp only [List.foldl_cons]

theorem point_spec (nan : ℚ) :
    ∀ (n : Nat) (t : Transform), sizeOf t ≤ n → WFT t →
      (∀ p, p.length = t.input_ndim → (pointFun t p).length = t.output_ndim) ∧
      (∀ p buf, p.length = t.input_ndim → buf.length = t.output_ndim →
        transform_into nan t p buf = some (pointFun t p)) := by
  intro n
  induction n with
  | zero =>
    intro t hs
    exact absurd hs (by cases t <;> simp)
  | succ n ih =>
    intro t hs hw
    match t with
    | .identity nd =>
      refine ⟨fun p hp => ?_, fun p buf hp hb => ?_⟩
      · simpa [pointFun, Transform.output_ndim] using
          (by simpa [Transform.input_ndim] using hp : p.length = nd)
      · simp only [Transform.input_ndim] at hp
        simp only [Transform.output_ndim] at hb
        simp only [transform_into]
        rw [if_pos (hp.trans hb.symm)]
        simp [pointFun]
    | .translate v =>
      simp only [Transform.input_ndim, Transform.output_ndim] at *
      refine ⟨fun p hp => ?_, fun p buf hp hb => ?_⟩
      · simp [pointFun, List.length_zipWith]
        omega
      · simp only [transform_into, pointFun]
        rw [writeFront_eq_of_length (by rw [List.length_zipWith]; omega)]
    | .scale sv =>
      simp only [Transform.input_ndim, Transform.output_ndim] at *
      refine ⟨fun p hp => ?_, fun p buf hp hb => ?_⟩
      · simp [pointFun, List.length_zipWith]
        omega
      · simp only [transform_into, pointFun]
        rw [writeFront_eq_of_length (by rw [List.length_zipWith]; omega)]
    | .mapAxis m =>
      simp only [Transform.input_ndim, Transform.output_ndim] at *
      simp only [WFT] at hw
      have hmem : ∀ i ∈ m, i < m.length := fun i hi =>
        List.mem_range.mp (hw.mem_iff.mp hi)
      refine ⟨fun p hp => ?_, fun p buf hp hb => ?_⟩
      · simp [pointFun]
      · simp only [transform_into, pointFun]
        rw [show m.take buf.length = m from List.take_of_length_le (by omega)]
        rw [mapM_eq_some_map (g := fun i => p.getD i 0) (fun i hi => by
          show p[i]? = some (p.getD i 0)
          have : i < p.length := by rw [hp]; exact hmem i hi
          rw [List.getElem?_eq_getElem this, List.getD_eq_getElem p 0 this])]
        simp only [Option.bind_eq_bind, Option.some_bind]
        rw [writeFront_eq_of_length (by simp [hb])]
    | .affine u tr =>
      simp only [WFT] at hw
      obtain ⟨hd, ht, hnc⟩ := hw
      simp only [Transform.input_ndim, Transform.output_ndim] at *
      refine ⟨fun p hp => ?_, fun p buf hp hb => ?_⟩
      · simp [pointFun, List.length_zipWith, matVec_length, ht]
      · simp only [transform_into, pointFun]
        rw [matmul_into_eq u p buf hb hp hd hnc]
        simp only [Option.bind_eq_bind, Option.some_bind]
        rw [zipWithKeep_eq_zipWith (by rw [matVec_length, ht])]
    | .rotation mt =>
      simp only [WFT] at hw
      obtain ⟨hd, hsq, hnc⟩ := hw
      simp only [Transform.input_ndim, Transform.output_ndim] at *
      refine ⟨fun p hp => ?_, fun p buf hp hb => ?_⟩
      · simp [pointFun, matVec_length]
      · simp only [transform_into, pointFun]
        exact matmul_into_eq mt p buf (by omega) hp hd hnc
    | .bijection f g =>
      simp only [WFT] at hw
      obtain ⟨hwf, hwg, hio, hgi⟩ := hw
      have hsf : sizeOf f ≤ n := by simp at hs; omega
      simp only [Transform.input_ndim, Transform.output_ndim] at *
      refine ⟨fun p hp => ?_, fun p buf hp hb => ?_⟩
      · simpa [pointFun] using (ih f hsf hwf).1 p hp
      · simp only [transform_into, pointFun]
        exact (ih f hsf hwf).2 p buf hp hb
    | .sequence ts =>
      simp only [WFT] at hw
      obtain ⟨hlen2, hin1, hch, hall⟩ := hw
      have hmem : ∀ u ∈ ts,
          (∀ p, p.length = u.input_ndim → (pointFun u p).length = u.output_ndim) ∧
          (∀ p buf, p.length = u.input_ndim → buf.length = u.output_ndim →
            transform_into nan u p buf = some (pointFun u p)) := fun u hu =>
        ih u (by have := List.sizeOf_lt_of_mem hu; simp at hs; omega) (hall u hu)
      cases ts with
      | nil => simp at hlen2
      | cons t0 rest =>
        cases rest with
        | nil => simp at hlen2
        | cons t1 r2 =>
          have hmiAll : ∀ u ∈ t1 :: r2, u.input_ndim ≤ seqMaxInnerNdim (t0 :: t1 :: r2) :=
            fun u hu => by
              simp only [seqMaxInnerNdim, List.drop_succ_cons, List.drop_zero]
              exact le_foldl_max _ _ (List.mem_map_of_mem _ hu) 0
          have hch2 := List.chain'_cons.mp hch
          have hto0 : t0.output_ndim ≤ seqMaxInnerNdim (t0 :: t1 :: r2) := by
            rw [hch2.1]
            exact hmiAll t1 (List.mem_cons_self _ _)
          refine ⟨fun p hp => ?_, fun p buf hp hb => ?_⟩
          · rw [pointFun_sequence]
            rw [output_ndim_sequence (List.getLast?_eq_getLast _ (by simp))]
            exact foldl_pointFun_length _ p (fun u hu => (hmem u hu).1) hch
              (fun u rest2 he => by
                injection he with h1 _
                subst h1
                simpa [Transform.input_ndim] using hp)
              _ (List.getLast?_eq_getLast _ (by simp))
          · simp only [Transform.input_ndim] at hp
            obtain ⟨b0, b1, heq⟩ := seqPointGo_spec nan (seqMaxInnerNdim (t0 :: t1 :: r2))
              (t1 :: r2) (pointFun t0 p)
              ((List.replicate (seqMaxInnerNdim (t0 :: t1 :: r2)) nan).drop t0.output_ndim)
              (List.replicate (seqMaxInnerNdim (t0 :: t1 :: r2)) nan) buf p (by simp)
              (fun u hu => hmem u (List.mem_cons_of_mem _ hu)) hch2.2 hmiAll
              (by rw [(hmem t0 (List.mem_cons_self _ _)).1 p hp, List.length_drop,
                   List.length_replicate]
                  omega)
              (by rw [List.length_replicate])
              (fun u rest2 he => by
                injection he with h1 _
                subst h1
                rw [(hmem t0 (List.mem_cons_self _ _)).1 p hp, hch2.1])
              (fun tl htl => by
                rw [hb]
                exact output_ndim_sequence (by rw [List.getLast?_cons_cons]; exact htl))
            simp only [transform_into, seqPointGo, List.length_replicate, if_true,
              Bool.false_eq_true, if_false, List.isEmpty_cons, List.length_append,
              Option.bind_eq_bind] at heq ⊢
            rw [if_pos hto0]
            rw [(hmem t0 (List.mem_cons_self _ _)).2 p
              ((List.replicate (seqMaxInnerNdim (t0 :: t1 :: r2)) nan).take t0.output_ndim)
              hp (by rw [List.length_take, List.length_replicate]; omega)]
            simp only [Option.bind_eq_bind, Option.some_bind]
            rw [heq]
            simp only [Option.some_bind, pointFun_sequence, List.foldl_cons]
    | .byDimension subs =>
      simp only [WFT] at hw
      obtain ⟨hinPerm, houtPerm, hsubs⟩ := hw
      have hmem : ∀ u uins uouts, (u, uins, uouts) ∈ subs →
          (∀ p, p.length = u.input_ndim → (pointFun u p).length = u.output_ndim) ∧
          (∀ p b, p.length = u.input_ndim → b.length = u.output_ndim →
            transform_into nan u p b = some (pointFun u p)) := fun u uins uouts hu =>
        ih u (by have := List.sizeOf_lt_of_mem hu; simp at hs this; omega)
          (hsubs u uins uouts hu).1
      simp only [Transform.input_ndim, Transform.output_ndim] at *
      refine ⟨fun p hp => ?_, fun p buf hp hb => ?_⟩
      · rw [pointFun_byDimension]
        have hfl : ∀ (l : List SubT) (b : List ℚ),
            (l.foldl (fun b q =>
              scatterF q.2.2 (pointFun q.1 (q.2.1.map fun i => p.getD i 0)) b) b).length =
            b.length := by
          intro l
          induction l with
          | nil => intro b; rfl
          | cons q rest ihq =>
            intro b
            simp only [List.foldl_cons]
            rw [ihq, scatterF_length]
        rw [hfl, List.length_replicate]
      · simp only [transform_into]
        rw [bdPointGo_spec nan p subs (List.replicate p.length nan)
          (List.replicate buf.length nan) buf hmem
          (fun u uins uouts hu => by
            obtain ⟨hwu, hiu, hou⟩ := hsubs u uins uouts hu
            have hinsum : uins.length ≤ p.length := by
              rw [hp]
              exact List.single_le_sum (fun _ _ => Nat.zero_le _) _
                (List.mem_map_of_mem (fun bt => bt.2.1.length) hu)
            have houtsum : uouts.length ≤ buf.length := by
              rw [hb]
              exact List.single_le_sum (fun _ _ => Nat.zero_le _) _
                (List.mem_map_of_mem (fun bt => bt.2.2.length) hu)
            refine ⟨hiu, hou, hinsum, fun i hi => ?_, fun d hd => ?_, ?_⟩
            · rw [hp]
              exact List.mem_range.mp (hinPerm.mem_iff.mp
                (List.mem_flatten.mpr ⟨uins, List.mem_map_of_mem (fun bt => bt.2.1) hu, hi⟩))
            · rw [hb]
              exact List.mem_range.mp (houtPerm.mem_iff.mp
                (List.mem_flatten.mpr ⟨uouts, List.mem_map_of_mem (fun bt => bt.2.2) hu, hd⟩))
            · rw [List.length_replicate]
              exact houtsum)
          (by rw [List.length_replicate])]
        rw [pointFun_byDimension]
        congr 1
        have conv1 : ∀ b : List ℚ, subs.foldl (fun b q =>
            scatterF q.2.2 (pointFun q.1 (q.2.1.map fun i => p.getD i 0)) b) b =
            (subs.map fun q => (q.2.2, pointFun q.1 (q.2.1.map fun i => p.getD i 0))).foldl
              (fun b r => scatterF r.1 r.2 b) b := fun b =>
          (List.foldl_map (fun q : SubT =>
            (q.2.2, pointFun q.1 (q.2.1.map fun i => p.getD i 0)))
            (fun b r => scatterF r.1 r.2 b) subs b).symm
        rw [conv1 buf, conv1 (List.replicate ((subs.map fun bt => bt.2.2.length).sum) 0)]
        refine scatter_fold_agree _ buf _ (by rw [hb, List.length_replicate]) ?_ ?_
        · intro q hq
          obtain ⟨⟨u, uins, uouts⟩, hu, hqe⟩ := List.mem_map.mp hq
          subst hqe
          obtain ⟨hwu, hiu, hou⟩ := hsubs u uins uouts hu
          refine ⟨?_, fun d hd => ?_⟩
          · rw [(hmem u uins uouts hu).1 _ (by rw [List.length_map, hiu]), hou]
          · rw [hb]
            exact List.mem_range.mp (houtPerm.mem_iff.mp
              (List.mem_flatten.mpr ⟨uouts, List.mem_map_of_mem (fun bt => bt.2.2) hu, hd⟩))
        · intro j hj
          left
          have hmapeq : (subs.map fun q : SubT =>
              ((q.2.2, pointFun q.1 (q.2.1.map fun i => p.getD i 0)) :
                List Nat × List ℚ)).map Prod.fst = subs.map fun bt => bt.2.2 := by
            rw [List.map_map]
            rfl
          rw [hmapeq]
          exact houtPerm.symm.mem_iff.mp (List.mem_range.mpr (by rw [hb] at hj; exact hj))

/-! ## Column-form frame infrastructure: `swapPos` and the swap-replay -/

theorem set_getElem_self {l : List α} {n : Nat} (h : n < l.length) :
    l.set n l[n] = l := by
  have := set_getD_self (l := l) (n := n) (d := l[n]) h
  rwa [List.getD_eq_getElem l _ h] at this

theorem swapPos_map (f : α → β) (l : List α) (a b : Nat) :
    swapPos (l.map f) a b = (swapPos l a b).map f := by
  unfold swapPos
  rw [List.getElem?_map, List.getElem?_map]
  cases l[a]? with
  | none => simp
  | some x =>
    cases l[b]? with
    | none => simp
    | some y => simp [List.map_set]

theorem swapPos_self (l : List α) (a : Nat) : swapPos l a a = l := by
  unfold swapPos
  cases ha : l[a]? with
  | none => simp
  | some x =>
    simp only [List.set_set]
    have hal := (List.getElem?_eq_some_iff.mp ha).1
    have hx : x = l[a] := by
      rw [List.getElem?_eq_getElem hal] at ha
      injection ha with h
      exact h.symm
    rw [hx, set_getElem_self hal]

theorem swapPos_swapPos (l : List α) (a b : Nat) : swapPos (swapPos l a b) a b = l := by
  by_cases hab : a = b
  · subst hab
    rw [swapPos_self, swapPos_self]
  · cases ha : l[a]? with
    | none =>
      have h1 : swapPos l a b = l := by
        unfold swapPos
        rw [ha]
      rw [h1, h1]
    | some x =>
      cases hb : l[b]? with
      | none =>
        have h1 : swapPos l a b = l := by
          unfold swapPos
          rw [ha, hb]
        simp only [h1]
      | some y =>
        have hal := (List.getElem?_eq_some_iff.mp ha).1
        have hbl := (List.getElem?_eq_some_iff.mp hb).1
        have hxv : l[a] = x := by
          rw [List.getElem?_eq_getElem hal] at ha
          injection ha with h
        have hyv : l[b] = y := by
          rw [List.getElem?_eq_getElem hbl] at hb
          injection hb with h
        have hinner : swapPos l a b = (l.set a y).set b x := by
          unfold swapPos
          rw [ha, hb]
        rw [hinner]
        have hma : ((l.set a y).set b x)[a]? = some y := by
          rw [List.getElem?_set_ne (fun h => hab h.symm),
            List.getElem?_set_self hal]
        have hmb : ((l.set a y).set b x)[b]? = some x :=
          List.getElem?_set_self (by simpa using hbl)
        have houter : swapPos ((l.set a y).set b x) a b =
            ((((l.set a y).set b x).set a x).set b y) := by
          unfold swapPos
          rw [hma, hmb]
        rw [houter]
        rw [List.set_comm _ _ _ (fun h => hab h.symm), List.set_set, List.set_set]
        rw [← hxv, ← hyv, set_getElem_self hal, set_getElem_self hbl]

theorem swap_unwind :
    ∀ (swaps : List (Nat × Nat)) (l : List α),
      swaps.reverse.foldl (fun b p => swapPos b p.1 p.2)
        (swaps.foldl (fun b p => swapPos b p.1 p.2) l) = l
  | [], l => rfl
  | p :: ss, l => by
    simp only [List.reverse_cons, List.foldl_append, List.foldl_cons, List.foldl_nil]
    rw [swap_unwind ss (swapPos l p.1 p.2), swapPos_swapPos]

theorem swap_foldl_map (f : α → β) :
    ∀ (swaps : List (Nat × Nat)) (l : List α),
      swaps.foldl (fun b p => swapPos b p.1 p.2) (l.map f) =
      (swaps.foldl (fun b p => swapPos b p.1 p.2) l).map f
  | [], l => rfl
  | p :: ss, l => by
    simp only [List.foldl_cons]
    rw [swapPos_map, swap_foldl_map f ss]

theorem map_getD_range (l : List α) (d : α) :
    (List.range l.length).map (fun j => l.getD j d) = l := by
  refine List.ext_getElem (by simp) fun n h1 h2 => ?_
  simp only [List.getElem_map, List.getElem_range]
  rw [List.getD_eq_getElem l d h2]

theorem idColGo_frame :
    ∀ (cs : List (List ℚ)) (bufs out : List TBuf), idColGo cs bufs = some out →
      out.map Prod.fst = bufs.map Prod.fst
  | [], bufs, out, h => by
    simp only [idColGo, Option.some.injEq] at h
    rw [← h]
  | c :: cs, [], out, h => by
    simp only [idColGo, Option.some.injEq] at h
    rw [← h]
  | c :: cs, b :: bs, out, h => by
    simp only [idColGo] at h
    split at h
    · cases hr : idColGo cs bs with
      | none => rw [hr] at h; simp at h
      | some r =>
        rw [hr] at h
        simp only [Option.bind_eq_bind, Option.some_bind, Option.some.injEq] at h
        rw [← h]
        simp only [List.map_cons, List.cons.injEq, true_and]
        exact idColGo_frame cs bs r hr
    · cases h

theorem perDimColGo_frame (f : ℚ → ℚ → ℚ) :
    ∀ (cs : List (List ℚ)) (bufs : List TBuf) (ps : List ℚ),
      (perDimColGo f cs bufs ps).map Prod.fst = bufs.map Prod.fst
  | c :: cs, b :: bs, t :: ps => by
    simp only [perDimColGo, List.map_cons, List.cons.injEq, true_and]
    exact perDimColGo_frame f cs bs ps
  | [], bufs, ps => by cases bufs <;> cases ps <;> rfl
  | c :: cs, [], ps => by cases ps <;> rfl
  | c :: cs, b :: bs, [] => rfl

theorem maColGo_frame (columns : List (List ℚ)) :
    ∀ (m : List Nat) (bufs out : List TBuf), maColGo columns m bufs = some out →
      out.map Prod.fst = bufs.map Prod.fst
  | [], bufs, out, h => by
    simp only [maColGo, Option.some.injEq] at h
    rw [← h]
  | i :: m, [], out, h => by
    simp only [maColGo, Option.some.injEq] at h
    rw [← h]
  | i :: m, b :: bs, out, h => by
    simp only [maColGo, Option.bind_eq_bind] at h
    cases hc : columns[i]? with
    | none => rw [hc] at h; simp at h
    | some col =>
      rw [hc] at h
      simp only [Option.some_bind] at h
      split at h
      · cases hr : maColGo columns m bs with
        | none => rw [hr] at h; simp at h
        | some r =>
          rw [hr] at h
          simp only [Option.some_bind, Option.some.injEq] at h
          rw [← h]
          simp only [List.map_cons, List.cons.injEq, true_and]
          exact maColGo_frame columns m bs r hr
      · cases h

theorem zip_map_fst_fst {γ δ : Type} {β δ2 : Type} :
    ∀ (l1 : List (γ × δ)) (l2 : List β) (g : (γ × δ) × β → δ2),
      ((l1.zip l2).map fun p => (p.1.1, g p)).map Prod.fst ++
        (l1.drop l2.length).map Prod.fst = l1.map Prod.fst
  | [], l2, g => by simp
  | a :: l1, [], g => by simp
  | a :: l1, b :: l2, g => by
    simp only [List.zip_cons_cons, List.map_cons, List.drop_succ_cons, List.cons_append,
      List.cons.injEq, true_and]
    exact zip_map_fst_fst l1 l2 g

theorem matmul_transposed_frame (m : Matrix ℚ) (coord_cols : List (List ℚ))
    (bufs out : List TBuf) (h : m.matmul_transposed_into coord_cols bufs = some out) :
    out.map Prod.fst = bufs.map Prod.fst := by
  unfold Matrix.matmul_transposed_into at h
  split at h
  · cases h
  · simp only [Option.some.injEq] at h
    rw [← h, List.map_append]
    exact zip_map_fst_fst bufs (chunksList m.ncols m.data) _

theorem zipWithKeep_tag_frame (g : TBuf → ℚ → List ℚ) :
    ∀ (r : List TBuf) (t : List ℚ),
      (zipWithKeep (fun (b : TBuf) tv => (b.1, g b tv)) r t).map Prod.fst = r.map Prod.fst
  | [], t => by cases t <;> rfl
  | b :: r, [] => rfl
  | b :: r, tv :: t => by
    simp only [zipWithKeep, List.map_cons, List.cons.injEq, true_and]
    exact zipWithKeep_tag_frame g r t

theorem bdSwapLoop_rep (tags0 base : List Nat) :
    ∀ (pairs : List (Nat × Nat)) (start : Nat) (bufs : List TBuf) (order : List Nat)
      (swaps : List (Nat × Nat)) (res : List TBuf × List Nat × List (Nat × Nat)),
      bdSwapLoop pairs start bufs order swaps = some res →
      bufs.map Prod.fst = order.map (fun j => tags0.getD j 0) →
      order = swaps.foldl (fun o p => swapPos o p.1 p.2) base →
      res.1.map Prod.fst = res.2.1.map (fun j => tags0.getD j 0) ∧
      res.2.1 = res.2.2.foldl (fun o p => swapPos o p.1 p.2) base
  | [], start, bufs, order, swaps, res, h, h1, h2 => by
    simp only [bdSwapLoop, Option.some.injEq] at h
    rw [← h]
    exact ⟨h1, h2⟩
  | (lt, des) :: rest, start, bufs, order, swaps, res, h, h1, h2 => by
    simp only [bdSwapLoop, Option.bind_eq_bind] at h
    cases hf : findFrom order (lt + start) des with
    | none => rw [hf] at h; simp at h
    | some src =>
      rw [hf] at h
      simp only [Option.some_bind] at h
      split at h
      · exact bdSwapLoop_rep tags0 base rest start bufs order swaps res h h1 h2
      · refine bdSwapLoop_rep tags0 base rest start _ _ _ res h ?_ ?_
        · rw [← swapPos_map, h1, swapPos_map]
        · rw [List.foldl_append, List.foldl_cons, List.foldl_nil, ← h2]

theorem seqColGo_frame (nan : ℚ) :
    ∀ (ts : List Transform) (first b0in : Bool) (columns : List (List ℚ))
      (bufs b0 b1 : List TBuf) (res : List TBuf × List TBuf × List TBuf),
      (∀ u ∈ ts, ∀ cols bs o, column_transform_into nan u cols bs = some o →
        o.map Prod.fst = bs.map Prod.fst) →
      seqColGo nan ts first b0in columns bufs b0 b1 = some res →
      res.1.map Prod.fst = bufs.map Prod.fst
  | [], first, b0in, columns, bufs, b0, b1, res, _, h => by
    simp only [seqColGo, Option.some.injEq] at h
    rw [← h]
  | t :: rest, first, b0in, columns, bufs, b0, b1, res, hIH, h => by
    have hmem := hIH t (List.mem_cons_self _ _)
    have hrest := fun u hu => hIH u (List.mem_cons_of_mem _ hu)
    simp only [seqColGo, Option.bind_eq_bind] at h
    split at h
    · split at h
      · cases hr : column_transform_into nan t columns (b1.take t.output_ndim) with
        | none => rw [hr] at h; simp at h
        | some r =>
          rw [hr] at h
          simp only [Option.some_bind] at h
          exact seqColGo_frame nan rest false (!b0in) columns bufs b0 _ res hrest h
      · cases h
    · split at h
      · split at h
        · split at h
          · cases hr : column_transform_into nan t ((b0.take t.input_ndim).map Prod.snd)
                bufs with
            | none => rw [hr] at h; simp at h
            | some bufs2 =>
              rw [hr] at h
              simp only [Option.some_bind] at h
              rw [seqColGo_frame nan rest false (!b0in) columns bufs2 b0 b1 res hrest h]
              exact hmem _ _ _ hr
          · cases h
        · split at h
          · cases hr : column_transform_into nan t ((b1.take t.input_ndim).map Prod.snd)
                bufs with
            | none => rw [hr] at h; simp at h
            | some bufs2 =>
              rw [hr] at h
              simp only [Option.some_bind] at h
              rw [seqColGo_frame nan rest false (!b0in) columns bufs2 b0 b1 res hrest h]
              exact hmem _ _ _ hr
          · cases h
      · split at h
        · split at h
          · cases hr : column_transform_into nan t ((b0.take t.input_ndim).map Prod.snd)
                (b1.take t.output_ndim) with
            | none => rw [hr] at h; simp at h
            | some r =>
              rw [hr] at h
              simp only [Option.some_bind] at h
              exact seqColGo_frame nan rest false (!b0in) columns bufs b0 _ res hrest h
          · cases h
        · split at h
          · cases hr : column_transform_into nan t ((b1.take t.input_ndim).map Prod.snd)
                (b0.take t.output_ndim) with
            | none => rw [hr] at h; simp at h
            | some r =>
              rw [hr] at h
              simp only [Option.some_bind] at h
              exact seqColGo_frame nan rest false (!b0in) columns bufs _ b1 res hrest h
          · cases h

theorem splice_eq (l : List α) (a b : Nat) (hab : a ≤ b) :
    l.take a ++ ((l.drop a).take (b - a) ++ l.drop b) = l := by
  rw [show l.drop b = (l.drop a).drop (b - a) from by rw [List.drop_drop]; congr 1; omega]
  rw [List.take_append_drop, List.take_append_drop]

theorem bdColGo_tags (nan : ℚ) (tags0 base : List Nat) :
    ∀ (subs : List SubT) (columns : List (List ℚ)) (bufs : List TBuf)
      (order : List Nat) (swaps : List (Nat × Nat)) (start : Nat)
      (res : List TBuf × List (Nat × Nat)),
      (∀ u uins uouts, (u, uins, uouts) ∈ subs → ∀ cols bs o,
        column_transform_into nan u cols bs = some o →
        o.map Prod.fst = bs.map Prod.fst) →
      bdColGo nan subs columns bufs order swaps start = some res →
      bufs.map Prod.fst = order.map (fun j => tags0.getD j 0) →
      order = swaps.foldl (fun o p => swapPos o p.1 p.2) base →
      res.1.map Prod.fst =
        (res.2.foldl (fun o p => swapPos o p.1 p.2) base).map (fun j => tags0.getD j 0)
  | [], columns, bufs, order, swaps, start, res, _, h, h1, h2 => by
    simp only [bdColGo, Option.some.injEq] at h
    rw [← h]
    rw [h1, h2]
  | (t, ins, outs) :: rest, columns, bufs, order, swaps, start, res, hIH, h, h1, h2 => by
    simp only [bdColGo, Option.bind_eq_bind] at h
    cases hic : ins.mapM (fun idx => columns[idx]?) with
    | none => rw [hic] at h; simp at h
    | some ic =>
      rw [hic] at h
      simp only [Option.some_bind] at h
      cases hsw : bdSwapLoop outs.enum start bufs order swaps with
      | none => rw [hsw] at h; simp at h
      | some sres =>
        rw [hsw] at h
        simp only [Option.some_bind] at h
        obtain ⟨hr1, hr2⟩ := bdSwapLoop_rep tags0 base outs.enum start bufs order swaps
          sres hsw h1 h2
        split at h
        · cases hseg : column_transform_into nan t ic
              ((sres.1.drop start).take (start + outs.length - start)) with
          | none => rw [hseg] at h; simp at h
          | some seg =>
            rw [hseg] at h
            simp only [Option.some_bind] at h
            have hsegf := hIH t ins outs (List.mem_cons_self _ _) _ _ _ hseg
            refine bdColGo_tags nan tags0 base rest columns _ sres.2.1 sres.2.2
              (start + outs.length) res
              (fun u uins uouts hu => hIH u uins uouts (List.mem_cons_of_mem _ hu))
              h ?_ hr2
            rw [List.map_append, List.map_append, hsegf, ← List.map_append,
              ← List.map_append, List.append_assoc, splice_eq _ _ _ (by omega), hr1]
        · cases h

theorem colFrame (nan : ℚ) :
    ∀ (n : Nat) (t : Transform) (columns : List (List ℚ)) (bufs out : List TBuf),
      sizeOf t ≤ n → column_transform_into nan t columns bufs = some out →
      out.map Prod.fst = bufs.map Prod.fst := by
  intro n
  induction n with
  | zero =>
    intro t _ _ _ hs
    exact absurd hs (by cases t <;> simp)
  | succ n ih =>
    intro t columns bufs out hs h
    match t with
    | .identity nd =>
      simp only [column_transform_into] at h
      exact idColGo_frame _ _ _ h
    | .translate v =>
      simp only [column_transform_into, Option.some.injEq] at h
      rw [← h]
      exact perDimColGo_frame _ _ _ _
    | .scale sv =>
      simp only [column_transform_into, Option.some.injEq] at h
      rw [← h]
      exact perDimColGo_frame _ _ _ _
    | .mapAxis m =>
      simp only [column_transform_into] at h
      exact maColGo_frame _ _ _ _ h
    | .affine u tr =>
      simp only [column_transform_into, Option.bind_eq_bind] at h
      cases hr : u.matmul_transposed_into columns bufs with
      | none => rw [hr] at h; simp at h
      | some r =>
        rw [hr] at h
        simp only [Option.some_bind, Option.some.injEq] at h
        rw [← h]
        rw [zipWithKeep_tag_frame (fun b tv => b.2.map fun c => c + tv) r tr]
        exact matmul_transposed_frame u columns bufs r hr
    | .rotation mt =>
      simp only [column_transform_into] at h
      exact matmul_transposed_frame mt columns bufs out h
    | .sequence ts =>
      simp only [column_transform_into, Option.bind_eq_bind] at h
      cases hc0 : columns[0]? with
      | none => rw [hc0] at h; simp at h
      | some c0 =>
        rw [hc0] at h
        simp only [Option.some_bind] at h
        cases hr : seqColGo nan ts true true columns bufs
            ((List.range (seqMaxInnerNdim ts)).map fun i =>
              ((i, List.replicate c0.length nan) : TBuf))
            ((List.range (seqMaxInnerNdim ts)).map fun i =>
              ((seqMaxInnerNdim ts + i, List.replicate c0.length nan) : TBuf)) with
        | none => rw [hr] at h; simp at h
        | some r =>
          rw [hr] at h
          simp only [Option.some_bind, Option.some.injEq] at h
          rw [← h]
          refine seqColGo_frame nan ts true true columns bufs _ _ r ?_ hr
          intro u hu cols bs o ho
          exact ih u cols bs o
            (by have := List.sizeOf_lt_of_mem hu; simp at hs; omega) ho
    | .byDimension subs =>
      simp only [column_transform_into, Option.bind_eq_bind] at h
      cases hr : bdColGo nan subs columns bufs (List.range bufs.length) [] 0 with
      | none => rw [hr] at h; simp at h
      | some r =>
        rw [hr] at h
        simp only [Option.some_bind, Option.some.injEq] at h
        rw [← h]
        have htags := bdColGo_tags nan (bufs.map Prod.fst) (List.range bufs.length)
          subs columns bufs (List.range bufs.length) [] 0 r
          (fun u uins uouts hu => fun cols bs o ho =>
            ih u cols bs o
              (by
                have h5 := List.sizeOf_lt_of_mem hu
                simp at hs h5
                omega) ho)
          hr
          (by rw [show bufs.length = (bufs.map Prod.fst).length from
                (List.length_map _ _).symm, map_getD_range])
          (by rw [List.foldl_nil])
        rw [show (r.2.reverse.foldl (fun b p => swapPos b p.1 p.2) r.1).map Prod.fst =
            r.2.reverse.foldl (fun o p => swapPos o p.1 p.2) (r.1.map Prod.fst) from
          (swap_foldl_map Prod.fst r.2.reverse r.1).symm]
        rw [htags]
        rw [show ((r.2.foldl (fun o p => swapPos o p.1 p.2) (List.range bufs.length)).map
            (fun j => (bufs.map Prod.fst).getD j 0)) =
            r.2.foldl (fun o p => swapPos o p.1 p.2)
              ((List.range bufs.length).map fun j => (bufs.map Prod.fst).getD j 0) from
          (swap_foldl_map _ r.2 (List.range bufs.length)).symm]
        rw [show bufs.length = (bufs.map Prod.fst).length from
          (List.length_map _ _).symm, map_getD_range, swap_unwind]
    | .bijection f g =>
      simp only [column_transform_into] at h
      exact ih f columns bufs out (by simp at hs; omega) h

/-- **C9**: whenever `ByDimension::column_transform_into` returns, the outer
output slice presents its column buffers (identified by their tags, i.e. the
borrowed buffers' addresses) in exactly the same order as at entry and with
the same count: every swap performed by the sub-entry loop — including the
recorded degenerate self-swaps — is undone by the reversed swap replay, so
only the contents of the column buffers can differ from before the call. -/
theorem by_dimension_column_restores_layout (nan : ℚ) (subs : List SubT)
    (columns : List (List ℚ)) (bufs out : List TBuf)
    (h : column_transform_into nan (.byDimension subs) columns bufs = some out) :
    out.map Prod.fst = bufs.map Prod.fst ∧ out.length = bufs.length :=
  have h1 := colFrame nan (sizeOf (Transform.byDimension subs)) _ columns bufs out le_rfl h
  ⟨h1, by rw [← List.length_map out Prod.fst, h1, List.length_map]⟩

/-- Witness for C9 at a concrete call: one sub-entry mapping input dim 0 to
output dim 0 through `Identity`, one sample, tag 5 on the single column. -/
theorem by_dimension_column_restores_layout_witness :
    column_transform_into (0 : ℚ) (Transform.byDimension [((Transform.identity 1), [0], [0])])
      [[3]] [(5, [0])] = some [(5, [3])] ∧
    [((5 : Nat), [(3 : ℚ)])].map Prod.fst = [((5 : Nat), [(0 : ℚ)])].map Prod.fst :=
  have he : column_transform_into (0 : ℚ)
      (Transform.byDimension [((Transform.identity 1), [0], [0])])
      [[3]] [(5, [0])] = some [(5, [3])] := by
    simp [column_transform_into, bdColGo, bdSwapLoop, findFrom, idColGo, List.enum,
      List.mapM.loop, List.range_succ, List.enumFrom, List.find?]
  ⟨he, (by_dimension_column_restores_layout 0 _ [[3]] [(5, [0])] [(5, [3])] he).1⟩

/-! ## Column-form content infrastructure -/

theorem chunksGo_spec (n : Nat) (hn : 0 < n) :
    ∀ (m : Nat) (fuel : Nat) (l : List ℚ), l.length = m * n → l.length ≤ fuel →
      chunksGo n fuel l = (List.range m).map fun j => (l.drop (j * n)).take n
  | 0, fuel, l, hl, _ => by
    have : l = [] := List.eq_nil_of_length_eq_zero (by simpa using hl)
    subst this
    cases fuel <;> rfl
  | m + 1, fuel, l, hl, hf => by
    have hlen : 0 < l.length := by rw [hl]; positivity
    cases fuel with
    | zero => omega
    | succ f =>
      have hnil : l ≠ [] := by
        intro he
        rw [he] at hlen
        simp at hlen
      obtain ⟨a, l2, rfl⟩ := List.exists_cons_of_ne_nil hnil
      show (a :: l2).take n :: chunksGo n f ((a :: l2).drop n) = _
      rw [chunksGo_spec n hn m f ((a :: l2).drop n)
        (by rw [List.length_drop, hl, Nat.succ_mul]; omega)
        (by rw [List.length_drop]; omega)]
      rw [List.range_succ_eq_map, List.map_cons, List.map_map]
      simp only [Nat.zero_mul, List.drop_zero, Function.comp]
      congr 1
      refine List.map_congr_left fun j _ => ?_
      rw [List.drop_drop, show n + j * n = Nat.succ j * n from by rw [Nat.succ_mul]; omega]
      simp only [Function.comp]

theorem chunksList_spec (n : Nat) (hn : 0 < n) (m : Nat) (l : List ℚ)
    (hl : l.length = m * n) :
    chunksList n l = (List.range m).map fun j => (l.drop (j * n)).take n := by
  unfold chunksList
  rw [if_neg (by omega)]
  exact chunksGo_spec n hn m l.length l hl le_rfl

theorem getD_const_map (l : List α) (c : ℚ) (s : Nat) :
    (l.map fun _ => c).getD s c = c := by
  rw [List.getD_eq_getElem?_getD, List.getElem?_map]
  cases l[s]? <;> simp

theorem mt_fold (k : Nat) :
    ∀ (pairs : List (ℚ × List ℚ)) (acc : List ℚ), acc.length = k →
      (∀ p ∈ pairs, p.2.length = k) →
      pairs.foldl (fun a q => zipWithKeep (fun b c => b + c * q.1) a q.2) acc =
      (List.range k).map fun s => acc.getD s 0 + (pairs.map fun q => q.2.getD s 0 * q.1).sum
  | [], acc, ha, _ => by
    simp only [List.foldl_nil, List.map_nil, List.sum_nil, add_zero]
    rw [← ha, map_getD_range]
  | (v, col) :: pairs, acc, ha, hp => by
    simp only [List.foldl_cons]
    rw [zipWithKeep_eq_zipWith (by rw [ha, hp (v, col) (List.mem_cons_self _ _)])]
    rw [mt_fold k pairs _ (by
        rw [List.length_zipWith, ha, hp (v, col) (List.mem_cons_self _ _)]
        simp)
      (fun q hq => hp q (List.mem_cons_of_mem _ hq))]
    refine List.map_congr_left fun s hs => ?_
    have hsk := List.mem_range.mp hs
    have hcl : col.length = k := hp (v, col) (List.mem_cons_self _ _)
    have hzl : s < (List.zipWith (fun b c => b + c * v) acc col).length := by
      rw [List.length_zipWith, ha, hcl]
      simpa using hsk
    rw [List.getD_eq_getElem _ 0 hzl, List.getElem_zipWith]
    simp only [List.map_cons, List.sum_cons]
    rw [List.getD_eq_getElem acc 0 (by omega), List.getD_eq_getElem col 0 (by omega)]
    ring

theorem zipWith_congr_fn {f g : α → β → γ} (h : ∀ a b, f a b = g a b) :
    ∀ (l1 : List α) (l2 : List β), List.zipWith f l1 l2 = List.zipWith g l1 l2
  | [], _ => by simp
  | _ :: _, [] => by simp
  | a :: l1, b :: l2 => by
    simp only [List.zipWith_cons_cons, h a b, List.cons.injEq, true_and]
    exact zipWith_congr_fn h l1 l2

theorem matmul_transposed_spec (m : Matrix ℚ) (cols : List (List ℚ)) (bufs : List TBuf)
    (k : Nat) (hd : m.data.length = m.nrows * m.ncols) (hnc : 0 < m.ncols)
    (hcols : cols.length = m.ncols) (hck : ∀ c ∈ cols, c.length = k)
    (hbufs : bufs.length = m.nrows) (hbk : ∀ b ∈ bufs, b.2.length = k) :
    m.matmul_transposed_into cols bufs =
      some (List.zipWith (fun (b : TBuf) col => (b.1, col)) bufs
        ((List.range m.nrows).map fun d =>
          (List.range k).map fun i => (matVec m (colAt cols i)).getD d 0)) := by
  simp only [Matrix.matmul_transposed_into]
  rw [if_neg (by omega : ¬ m.ncols = 0)]
  rw [chunksList_spec m.ncols hnc m.nrows m.data hd]
  rw [List.drop_eq_nil_of_le (by rw [List.length_map, List.length_range, hbufs]),
    List.append_nil]
  congr 1
  refine List.ext_getElem ?_ fun j h1 h2 => ?_
  · simp [hbufs]
  · have hj : j < m.nrows := by
      rw [List.length_map, List.length_zip, List.length_map, List.length_range,
        hbufs] at h1
      simpa using h1
    have hjb : j < bufs.length := by omega
    have hjz : j < (bufs.zip ((List.range m.nrows).map fun r =>
        (m.data.drop (r * m.ncols)).take m.ncols)).length := by
      rw [List.length_zip, List.length_map, List.length_range, hbufs]
      simp [hj]
    rw [List.getElem_map, List.getElem_zip, List.getElem_zipWith, List.getElem_map,
      List.getElem_range]
    simp only [Prod.mk.injEq]
    refine ⟨trivial, ?_⟩
    rw [List.getElem_map, List.getElem_range]
    have hrowlen : ((m.data.drop (j * m.ncols)).take m.ncols).length = m.ncols := by
      rw [List.length_take, List.length_drop, hd]
      have : j * m.ncols + m.ncols ≤ m.nrows * m.ncols :=
        by
          rw [show j * m.ncols + m.ncols = (j + 1) * m.ncols from
            (Nat.succ_mul j m.ncols).symm]
          exact Nat.mul_le_mul_right _ (by omega)
      omega
    rw [mt_fold k _ _ (by
        rw [List.length_map]
        exact hbk _ (List.getElem_mem hjb))
      (by
        intro p hp
        obtain ⟨a, b⟩ := p
        exact hck b (List.of_mem_zip hp).2)]
    refine List.map_congr_left fun s hs => ?_
    rw [getD_const_map, zero_add]
    have hmv : s < k → (matVec m (colAt cols s)).getD j 0 =
        (List.zipWith (fun a b => a * b) ((m.data.drop (j * m.ncols)).take m.ncols)
          (colAt cols s)).sum := by
      intro _
      rw [List.getD_eq_getElem _ 0 (by rw [matVec_length]; exact hj)]
      unfold matVec
      rw [List.getElem_map, List.getElem_range]
    rw [hmv (List.mem_range.mp hs)]
    unfold colAt
    rw [List.zipWith_map_right]
    rw [List.zip_eq_zipWith, List.map_zipWith]
    exact congrArg List.sum (zipWith_congr_fn (fun a b => mul_comm _ _) _ _)

theorem idColGo_spec :
    ∀ (cs : List (List ℚ)) (bufs : List TBuf), cs.length = bufs.length →
      (∀ p ∈ cs.zip bufs, p.1.length = p.2.2.length) →
      idColGo cs bufs = some (List.zipWith (fun (b : TBuf) c => (b.1, c)) bufs cs)
  | [], bufs, hl, _ => by
    have : bufs = [] := List.eq_nil_of_length_eq_zero (by simp at hl; omega)
    subst this
    rfl
  | c :: cs, [], hl, _ => by simp at hl
  | c :: cs, b :: bs, hl, hp => by
    simp only [idColGo]
    rw [if_pos (hp (c, b) (by simp [List.zip_cons_cons]))]
    rw [idColGo_spec cs bs (by simpa using hl)
      (fun q hq => hp q (by simp [List.zip_cons_cons, hq]))]
    rfl

theorem perDimColGo_spec (f : ℚ → ℚ → ℚ) :
    ∀ (cs : List (List ℚ)) (bufs : List TBuf) (ps : List ℚ),
      cs.length = bufs.length → bufs.length = ps.length →
      (∀ p ∈ cs.zip bufs, p.1.length = p.2.2.length) →
      perDimColGo f cs bufs ps = List.zipWith (fun (b : TBuf) c => (b.1, c)) bufs
        (List.zipWith (fun c t => c.map fun x => f x t) cs ps)
  | [], bufs, ps, hl, _, _ => by
    have : bufs = [] := List.eq_nil_of_length_eq_zero (by simp at hl; omega)
    subst this
    simp [perDimColGo]
  | c :: cs, [], ps, hl, _, _ => by simp at hl
  | c :: cs, b :: bs, [], _, hl2, _ => by simp at hl2
  | c :: cs, b :: bs, t :: ps, hl, hl2, hp => by
    simp only [perDimColGo, List.zipWith_cons_cons]
    rw [writeFront_eq_of_length (by
      rw [List.length_map]
      exact hp (c, b) (by simp [List.zip_cons_cons]))]
    rw [perDimColGo_spec f cs bs ps (by simpa using hl) (by simpa using hl2)
      (fun q hq => hp q (by simp [List.zip_cons_cons, hq]))]

theorem maColGo_spec (columns : List (List ℚ)) :
    ∀ (ms : List Nat) (bufs : List TBuf), ms.length = bufs.length →
      (∀ p ∈ ms.zip bufs, ∃ h : p.1 < columns.length,
        (columns.get ⟨p.1, h⟩).length = p.2.2.length) →
      maColGo columns ms bufs = some (List.zipWith
        (fun (b : TBuf) i => (b.1, columns.getD i [])) bufs ms)
  | [], bufs, hl, _ => by
    have : bufs = [] := List.eq_nil_of_length_eq_zero (by simp at hl; omega)
    subst this
    rfl
  | i :: ms, [], hl, _ => by simp at hl
  | i :: ms, b :: bs, hl, hp => by
    obtain ⟨hi, hleq⟩ := hp (i, b) (by simp [List.zip_cons_cons])
    simp only [maColGo, Option.bind_eq_bind]
    rw [List.getElem?_eq_getElem hi]
    simp only [Option.some_bind]
    rw [if_pos (by simpa using hleq)]
    rw [maColGo_spec columns ms bs (by simpa using hl)
      (fun q hq => hp q (by simp [List.zip_cons_cons, hq]))]
    simp only [Option.some_bind, Option.some.injEq, List.zipWith_cons_cons,
      List.cons.injEq, true_and]
    constructor
    · rw [List.getD_eq_getElem columns [] hi]
    · trivial

theorem specCols_ext {t : Transform} {cols : List (List ℚ)} {k : Nat} {L : List (List ℚ)}
    (hL : L.length = t.output_ndim) (hLk : ∀ c ∈ L, c.length = k)
    (h : ∀ d i, d < L.length → i < k →
      (pointFun t (colAt cols i)).getD d 0 = (L.getD d []).getD i 0) :
    specCols t cols k = L := by
  unfold specCols
  refine List.ext_getElem (by simp [hL]) fun d h1 h2 => ?_
  rw [List.getElem_map, List.getElem_range]
  have hdL : d < L.length := h2
  refine List.ext_getElem (by simp [hLk _ (List.getElem_mem hdL)]) fun i h3 h4 => ?_
  rw [List.getElem_map, List.getElem_range]
  have hik : i < k := by simpa using h3
  rw [h d i hdL hik]
  rw [List.getD_eq_getElem L [] hdL, List.getD_eq_getElem _ 0 h4]

theorem getD_map_getD (cols : List (List ℚ)) (f : List ℚ → ℚ) (d : Nat)
    (hd : d < cols.length) : (cols.map f).getD d 0 = f (cols.getD d []) := by
  rw [List.getD_eq_getElem _ 0 (by simpa using hd), List.getElem_map,
    List.getD_eq_getElem cols [] hd]

theorem colAt_length (cols : List (List ℚ)) (i : Nat) : (colAt cols i).length = cols.length := by
  simp [colAt]

theorem specCols_identity (nd k : Nat) (cols : List (List ℚ))
    (hc : cols.length = nd) (hk : ∀ c ∈ cols, c.length = k) :
    specCols (.identity nd) cols k = cols := by
  refine specCols_ext (by simp [Transform.output_ndim, hc]) hk fun d i hd hi => ?_
  simp only [pointFun]
  unfold colAt
  rw [getD_map_getD cols _ d hd]

theorem getD_zipWith {f : α → β → γ} {l1 : List α} {l2 : List β} {d : Nat}
    (da : α) (db : β) {dc : γ} (h1 : d < l1.length) (h2 : d < l2.length) :
    (List.zipWith f l1 l2).getD d dc = f (l1.getD d da) (l2.getD d db) := by
  rw [List.getD_eq_getElem _ dc (by rw [List.length_zipWith]; omega),
    List.getElem_zipWith, List.getD_eq_getElem l1 da h1, List.getD_eq_getElem l2 db h2]

theorem getD_map_g {g : α → β} (l : List α) (i : Nat) (da : α) {db : β}
    (hi : i < l.length) : (l.map g).getD i db = g (l.getD i da) := by
  rw [List.getD_eq_getElem _ db (by simpa using hi), List.getElem_map,
    List.getD_eq_getElem l da hi]

theorem getD_range {n d : Nat} (h : d < n) : (List.range n).getD d 0 = d := by
  rw [List.getD_eq_getElem _ 0 (by simpa using h), List.getElem_range]

theorem specCols_translate (v : List ℚ) (k : Nat) (cols : List (List ℚ))
    (hc : cols.length = v.length) (hk : ∀ c ∈ cols, c.length = k) :
    specCols (.translate v) cols k =
      List.zipWith (fun c t => c.map fun x => x + t) cols v := by
  refine specCols_ext ?_ ?_ fun d i hd hi => ?_
  · simp only [Transform.output_ndim, List.length_zipWith]
    omega
  · intro c hcm
    obtain ⟨j, hj, hce⟩ := List.mem_iff_getElem.mp hcm
    subst hce
    rw [List.getElem_zipWith, List.length_map]
    exact hk _ (List.getElem_mem _)
  · rw [List.length_zipWith] at hd
    simp only [pointFun]
    rw [getD_zipWith (0 : ℚ) (0 : ℚ) (by rw [colAt_length]; omega) (by omega)]
    unfold colAt
    rw [getD_map_g cols d [] (by omega)]
    rw [getD_zipWith ([] : List ℚ) (0 : ℚ) (by omega) (by omega)]
    have hdm : cols.getD d [] ∈ cols := by
      rw [List.getD_eq_getElem cols [] (by omega : d < cols.length)]
      exact List.getElem_mem _
    rw [getD_map_g (cols.getD d []) i 0 (by rw [hk _ hdm]; omega)]
    ring

theorem specCols_scale (sv : List ℚ) (k : Nat) (cols : List (List ℚ))
    (hc : cols.length = sv.length) (hk : ∀ c ∈ cols, c.length = k) :
    specCols (.scale sv) cols k =
      List.zipWith (fun c t => c.map fun x => x * t) cols sv := by
  refine specCols_ext ?_ ?_ fun d i hd hi => ?_
  · simp only [Transform.output_ndim, List.length_zipWith]
    omega
  · intro c hcm
    obtain ⟨j, hj, hce⟩ := List.mem_iff_getElem.mp hcm
    subst hce
    rw [List.getElem_zipWith, List.length_map]
    exact hk _ (List.getElem_mem _)
  · rw [List.length_zipWith] at hd
    simp only [pointFun]
    rw [getD_zipWith (0 : ℚ) (0 : ℚ) (by rw [colAt_length]; omega) (by omega)]
    unfold colAt
    rw [getD_map_g cols d [] (by omega)]
    rw [getD_zipWith ([] : List ℚ) (0 : ℚ) (by omega) (by omega)]
    have hdm : cols.getD d [] ∈ cols := by
      rw [List.getD_eq_getElem cols [] (by omega : d < cols.length)]
      exact List.getElem_mem _
    rw [getD_map_g (cols.getD d []) i 0 (by rw [hk _ hdm]; omega)]
    ring

theorem specCols_mapAxis (m : List Nat) (k : Nat) (cols : List (List ℚ))
    (hc : cols.length = m.length) (hk : ∀ c ∈ cols, c.length = k)
    (hm : ∀ j ∈ m, j < m.length) :
    specCols (.mapAxis m) cols k = m.map fun idx => cols.getD idx [] := by
  refine specCols_ext ?_ ?_ fun d i hd hi => ?_
  · simp [Transform.output_ndim]
  · intro c hcm
    obtain ⟨j, hj, hce⟩ := List.mem_iff_getElem.mp hcm
    subst hce
    rw [List.getElem_map]
    refine hk _ ?_
    rw [List.getD_eq_getElem cols []
      (by rw [hc]; exact hm _ (List.getElem_mem (by simpa using hj)))]
    exact List.getElem_mem _
  · rw [List.length_map] at hd
    simp only [pointFun]
    rw [getD_map_g m d 0 hd]
    have hmd : m.getD d 0 < cols.length := by
      rw [hc]
      refine hm _ ?_
      rw [List.getD_eq_getElem m 0 hd]
      exact List.getElem_mem _
    unfold colAt
    rw [getD_map_g cols (m.getD d 0) [] hmd]
    rw [getD_map_g m d 0 hd]

theorem specCols_rotation (mt : Matrix ℚ) (k : Nat) (cols : List (List ℚ)) :
    specCols (.rotation mt) cols k =
      (List.range mt.nrows).map fun d =>
        (List.range k).map fun i => (matVec mt (colAt cols i)).getD d 0 := by
  refine specCols_ext ?_ ?_ fun d i hd hi => ?_
  · simp [Transform.output_ndim]
  · intro c hcm
    obtain ⟨j, hj, hce⟩ := List.mem_iff_getElem.mp hcm
    subst hce
    rw [List.getElem_map]
    simp
  · rw [List.length_map, List.length_range] at hd
    simp only [pointFun]
    rw [getD_map_g (List.range mt.nrows) d 0 (by simpa using hd), getD_range hd]
    rw [getD_map_g (List.range k) i 0 (by simpa using hi), getD_range hi]

theorem specCols_affine (u : Matrix ℚ) (tr : List ℚ) (k : Nat) (cols : List (List ℚ))
    (ht : tr.length = u.nrows) :
    specCols (.affine u tr) cols k =
      List.zipWith (fun col tv => col.map fun c => c + tv)
        ((List.range u.nrows).map fun d =>
          (List.range k).map fun i => (matVec u (colAt cols i)).getD d 0) tr := by
  refine specCols_ext ?_ ?_ fun d i hd hi => ?_
  · simp only [Transform.output_ndim, List.length_zipWith, List.length_map,
      List.length_range]
    omega
  · intro c hcm
    obtain ⟨j, hj, hce⟩ := List.mem_iff_getElem.mp hcm
    subst hce
    rw [List.getElem_zipWith, List.length_map, List.getElem_map]
    simp
  · rw [List.length_zipWith, List.length_map, List.length_range] at hd
    simp only [pointFun]
    rw [getD_zipWith (0 : ℚ) (0 : ℚ) (by rw [matVec_length]; omega) (by omega)]
    rw [getD_zipWith ([] : List ℚ) (0 : ℚ) (by rw [List.length_map, List.length_range]; omega)
      (by omega)]
    rw [getD_map_g (List.range u.nrows) d 0 (by simp; omega), getD_range (by omega)]
    rw [getD_map_g ((List.range k).map fun i => (matVec u (colAt cols i)).getD d 0) i 0
      (by simp [hi])]
    rw [getD_map_g (List.range k) i 0 (by simpa using hi), getD_range hi]

theorem zipWithKeep_pair_spec :
    ∀ (bufs : List TBuf) (M : List (List ℚ)) (tr : List ℚ),
      bufs.length = M.length → M.length = tr.length →
      zipWithKeep (fun (b : TBuf) tv => (b.1, b.2.map fun c => c + tv))
        (List.zipWith (fun (b : TBuf) c => (b.1, c)) bufs M) tr =
      List.zipWith (fun (b : TBuf) c => (b.1, c)) bufs
        (List.zipWith (fun col tv => col.map fun c => c + tv) M tr)
  | [], M, tr, h1, h2 => by
    have : M = [] := List.eq_nil_of_length_eq_zero (by simp at h1; omega)
    subst this
    cases tr <;> rfl
  | b :: bufs, [], tr, h1, h2 => by simp at h1
  | b :: bufs, c :: M, [], h1, h2 => by simp at h2
  | b :: bufs, c :: M, tv :: tr, h1, h2 => by
    simp only [List.zipWith_cons_cons, zipWithKeep, List.cons.injEq, true_and]
    exact zipWithKeep_pair_spec bufs M tr (by simpa using h1) (by simpa using h2)

theorem specCols_length (t : Transform) (cols : List (List ℚ)) (k : Nat) :
    (specCols t cols k).length = t.output_ndim := by
  simp [specCols]

theorem specCols_mem_length {t : Transform} {cols : List (List ℚ)} {k : Nat} :
    ∀ c ∈ specCols t cols k, c.length = k := by
  intro c hc
  unfold specCols at hc
  obtain ⟨d, _, rfl⟩ := List.mem_map.mp hc
  simp

theorem colAt_specCols (t : Transform) (cols : List (List ℚ)) (k i : Nat) (hi : i < k)
    (hw : WFT t) (hc : cols.length = t.input_ndim) :
    colAt (specCols t cols k) i = pointFun t (colAt cols i) := by
  have hlen : (pointFun t (colAt cols i)).length = t.output_ndim :=
    (point_spec 0 (sizeOf t) t le_rfl hw).1 _ (by rw [colAt_length, hc])
  conv_lhs => rw [show colAt (specCols t cols k) i =
    (specCols t cols k).map (fun c => c.getD i 0) from rfl]
  conv_rhs => rw [← map_getD_range (pointFun t (colAt cols i)) 0, hlen]
  unfold specCols
  rw [List.map_map]
  refine List.map_congr_left fun d hdm => ?_
  simp only [Function.comp]
  rw [getD_map_g (List.range k) i 0 (by simpa using hi), getD_range hi]

theorem zipWith_pair_map_snd :
    ∀ (bs : List TBuf) (cs : List (List ℚ)), bs.length = cs.length →
      (List.zipWith (fun (b : TBuf) c => (b.1, c)) bs cs).map Prod.snd = cs
  | [], cs, h => by
    have : cs = [] := List.eq_nil_of_length_eq_zero (by simp at h; omega)
    subst this
    rfl
  | b :: bs, [], h => by simp at h
  | b :: bs, c :: cs, h => by
    simp only [List.zipWith_cons_cons, List.map_cons, List.cons.injEq, true_and]
    exact zipWith_pair_map_snd bs cs (by simpa using h)

theorem mem_zipWith_pair_snd :
    ∀ {bs : List TBuf} {cs : List (List ℚ)} (b : TBuf),
      b ∈ List.zipWith (fun (b : TBuf) c => (b.1, c)) bs cs → b.2 ∈ cs
  | [], cs, b, h => by simp at h
  | b0 :: bs, [], b, h => by simp at h
  | b0 :: bs, c :: cs, b, h => by
    simp only [List.zipWith_cons_cons, List.mem_cons] at h
    rcases h with h | h
    · subst h
      exact List.mem_cons_self _ _
    · exact List.mem_cons_of_mem _ (mem_zipWith_pair_snd b h)

theorem specCols_foldl (k : Nat) :
    ∀ (ts : List Transform) (cols : List (List ℚ)),
      (∀ u ∈ ts, WFT u) → ts.Chain' (fun a b => a.output_ndim = b.input_ndim) →
      (∀ u r2, ts = u :: r2 → cols.length = u.input_ndim) →
      (∀ c ∈ cols, c.length = k) →
      ∀ tl, ts.getLast? = some tl →
      ts.foldl (fun cc u => specCols u cc k) cols =
        (List.range tl.output_ndim).map fun d => (List.range k).map fun i =>
          (ts.foldl (fun acc u => pointFun u acc) (colAt cols i)).getD d 0
  | [], cols, _, _, _, _, tl, htl => by simp at htl
  | [t], cols, hw, _, hx, hk, tl, htl => by
    simp only [List.getLast?_singleton, Option.some.injEq] at htl
    subst htl
    simp only [List.foldl_cons, List.foldl_nil]
    rfl
  | t :: t2 :: r2, cols, hw, hch, hx, hk, tl, htl => by
    simp only [List.foldl_cons]
    have hch2 := List.chain'_cons.mp hch
    have hrec := specCols_foldl k (t2 :: r2) (specCols t cols k)
      (fun u hu => hw u (List.mem_cons_of_mem _ hu)) hch2.2
      (fun u rr he => by
        injection he with he1 _
        subst he1
        rw [specCols_length, hch2.1])
      (fun c hc => specCols_mem_length c hc) tl
      (by rw [← htl, List.getLast?_cons_cons])
    simp only [List.foldl_cons] at hrec
    rw [hrec]
    refine List.map_congr_left fun d hd => ?_
    refine List.map_congr_left fun i hi => ?_
    rw [colAt_specCols t cols k i (List.mem_range.mp hi)
      (hw t (List.mem_cons_self _ _)) (hx t _ rfl)]

theorem seqColGo_spec (nan : ℚ) (mi k : Nat) :
    ∀ (rest : List Transform) (b0in : Bool) (curCols columns : List (List ℚ))
      (b0 b1 bufs : List TBuf),
      rest ≠ [] →
      (∀ u ∈ rest, ∀ (cols : List (List ℚ)) (bs : List TBuf),
        cols.length = u.input_ndim → (∀ c ∈ cols, c.length = k) →
        bs.length = u.output_ndim → (∀ b ∈ bs, b.2.length = k) →
        column_transform_into nan u cols bs =
          some (List.zipWith (fun (b : TBuf) c => (b.1, c)) bs (specCols u cols k))) →
      rest.Chain' (fun a b => a.output_ndim = b.input_ndim) →
      (∀ u ∈ rest, u.input_ndim ≤ mi) →
      b0.length = mi → b1.length = mi →
      (∀ b ∈ b0, b.2.length = k) → (∀ b ∈ b1, b.2.length = k) →
      (∀ u r2, rest = u :: r2 →
        ((cond b0in b0 b1).take u.input_ndim).map Prod.snd = curCols) →
      (∀ c ∈ curCols, c.length = k) →
      (∀ u r2, rest = u :: r2 → curCols.length = u.input_ndim) →
      (∀ tl, rest.getLast? = some tl → bufs.length = tl.output_ndim) →
      (∀ b ∈ bufs, b.2.length = k) →
      ∃ x y, seqColGo nan rest false b0in columns bufs b0 b1 =
        some (List.zipWith (fun (b : TBuf) c => (b.1, c)) bufs
          (rest.foldl (fun cc u => specCols u cc k) curCols), x, y)
  | [], _, _, _, _, _, _, hne, _, _, _, _, _, _, _, _, _, _, _, _ => absurd rfl hne
  | [t], b0in, curCols, columns, b0, b1, bufs, _, hIH, _, hmi, hb0, hb1, hb0k, hb1k,
      hcur, hcurk, hcl, hbufs, hbufsk => by
    have hti : t.input_ndim ≤ mi := hmi t (List.mem_cons_self _ _)
    have hbo : bufs.length = t.output_ndim := hbufs t (by simp)
    cases b0in with
    | true =>
      have hread : (b0.take t.input_ndim).map Prod.snd = curCols := by
        simpa using hcur t [] rfl
      simp only [seqColGo, Bool.false_eq_true, if_false, List.isEmpty_nil, if_true,
        Option.bind_eq_bind]
      rw [if_pos (by omega : t.input_ndim ≤ b0.length)]
      rw [hread, hIH t (List.mem_cons_self _ _) curCols bufs (hcl t [] rfl) hcurk
        hbo hbufsk]
      simp only [Option.some_bind]
      exact ⟨b0, b1, by simp only [List.foldl_cons, List.foldl_nil]⟩
    | false =>
      have hread : (b1.take t.input_ndim).map Prod.snd = curCols := by
        simpa using hcur t [] rfl
      simp only [seqColGo, Bool.false_eq_true, if_false, List.isEmpty_nil, if_true,
        Option.bind_eq_bind]
      rw [if_pos (by omega : t.input_ndim ≤ b1.length)]
      rw [hread, hIH t (List.mem_cons_self _ _) curCols bufs (hcl t [] rfl) hcurk
        hbo hbufsk]
      simp only [Option.some_bind]
      exact ⟨b0, b1, by simp only [List.foldl_cons, List.foldl_nil]⟩
  | t :: t2 :: r2, b0in, curCols, columns, b0, b1, bufs, _, hIH, hch, hmi, hb0, hb1,
      hb0k, hb1k, hcur, hcurk, hcl, hbufs, hbufsk => by
    have hti : t.input_ndim ≤ mi := hmi t (List.mem_cons_self _ _)
    have hch2 := List.chain'_cons.mp hch
    have hto : t.output_ndim ≤ mi := by
      rw [hch2.1]
      exact hmi t2 (List.mem_cons_of_mem _ (List.mem_cons_self _ _))
    have hclen : curCols.length = t.input_ndim := hcl t _ rfl
    have hIHt := hIH t (List.mem_cons_self _ _)
    have hIHr := fun u hu => hIH u (List.mem_cons_of_mem _ hu)
    have hmir := fun u hu => hmi u (List.mem_cons_of_mem _ hu)
    cases b0in with
    | true =>
      have hread : (b0.take t.input_ndim).map Prod.snd = curCols := by
        simpa using hcur t _ rfl
      have htakelen : (b1.take t.output_ndim).length = t.output_ndim := by
        rw [List.length_take]
        omega
      have hwrcall := hIHt curCols (b1.take t.output_ndim) hclen hcurk
        (by rw [htakelen]) (fun b hb => hb1k b (List.mem_of_mem_take hb))
      have hrlen : (List.zipWith (fun (b : TBuf) c => (b.1, c)) (b1.take t.output_ndim)
          (specCols t curCols k)).length = t.output_ndim := by
        rw [List.length_zipWith, htakelen, specCols_length]
        simp
      obtain ⟨x, y, hrec⟩ := seqColGo_spec nan mi k (t2 :: r2) false
        (specCols t curCols k) columns b0
        (List.zipWith (fun (b : TBuf) c => (b.1, c)) (b1.take t.output_ndim)
          (specCols t curCols k) ++ b1.drop t.output_ndim) bufs (by simp)
        hIHr hch2.2 hmir hb0
        (by rw [List.length_append, hrlen, List.length_drop]; omega)
        hb0k
        (by
          intro b hb
          rcases List.mem_append.mp hb with hb | hb
          · rw [specCols_mem_length b.2 (mem_zipWith_pair_snd b hb)]
          · exact hb1k b (List.mem_of_mem_drop hb))
        (by
          intro u rr he
          injection he with he1 _
          subst he1
          simp only [Bool.cond_false]
          rw [← hch2.1]
          rw [List.take_left' hrlen]
          exact zipWith_pair_map_snd _ _ (by rw [htakelen, specCols_length]))
        (fun c hc => specCols_mem_length c hc)
        (fun u rr he => by
          injection he with he1 _
          subst he1
          rw [specCols_length, hch2.1])
        (fun tl htl => hbufs tl (by rw [← htl, List.getLast?_cons_cons]))
        hbufsk
      simp only [seqColGo, Bool.false_eq_true, Bool.not_true, Bool.not_false, if_false,
        List.isEmpty_cons, if_true, Option.bind_eq_bind, List.length_append] at hrec ⊢
      rw [if_pos (⟨by omega, by omega⟩ : t.input_ndim ≤ b0.length ∧
        t.output_ndim ≤ b1.length)]
      rw [hread, hwrcall]
      simp only [Option.some_bind]
      refine ⟨x, y, ?_⟩
      rw [hrec]
      simp only [List.foldl_cons]
    | false =>
      have hread : (b1.take t.input_ndim).map Prod.snd = curCols := by
        simpa using hcur t _ rfl
      have htakelen : (b0.take t.output_ndim).length = t.output_ndim := by
        rw [List.length_take]
        omega
      have hwrcall := hIHt curCols (b0.take t.output_ndim) hclen hcurk
        (by rw [htakelen]) (fun b hb => hb0k b (List.mem_of_mem_take hb))
      have hrlen : (List.zipWith (fun (b : TBuf) c => (b.1, c)) (b0.take t.output_ndim)
          (specCols t curCols k)).length = t.output_ndim := by
        rw [List.length_zipWith, htakelen, specCols_length]
        simp
      obtain ⟨x, y, hrec⟩ := seqColGo_spec nan mi k (t2 :: r2) true
        (specCols t curCols k) columns
        (List.zipWith (fun (b : TBuf) c => (b.1, c)) (b0.take t.output_ndim)
          (specCols t curCols k) ++ b0.drop t.output_ndim) b1 bufs (by simp)
        hIHr hch2.2 hmir
        (by rw [List.length_append, hrlen, List.length_drop]; omega)
        hb1
        (by
          intro b hb
          rcases List.mem_append.mp hb with hb | hb
          · rw [specCols_mem_length b.2 (mem_zipWith_pair_snd b hb)]
          · exact hb0k b (List.mem_of_mem_drop hb))
        hb1k
        (by
          intro u rr he
          injection he with he1 _
          subst he1
          simp only [Bool.cond_true]
          rw [← hch2.1]
          rw [List.take_left' hrlen]
          exact zipWith_pair_map_snd _ _ (by rw [htakelen, specCols_length]))
        (fun c hc => specCols_mem_length c hc)
        (fun u rr he => by
          injection he with he1 _
          subst he1
          rw [specCols_length, hch2.1])
        (fun tl htl => hbufs tl (by rw [← htl, List.getLast?_cons_cons]))
        hbufsk
      simp only [seqColGo, Bool.false_eq_true, Bool.not_true, Bool.not_false, if_false,
        List.isEmpty_cons, if_true, Option.bind_eq_bind, List.length_append] at hrec ⊢
      rw [if_pos (⟨by omega, by omega⟩ : t.input_ndim ≤ b1.length ∧
        t.output_ndim ≤ b0.length)]
      rw [hread, hwrcall]
      simp only [Option.some_bind]
      refine ⟨x, y, ?_⟩
      rw [hrec]
      simp only [List.foldl_cons]

theorem findFrom_spec {order : List Nat} {tgt d : Nat}
    (hd : d ∈ order) (hnt : d ∉ order.take tgt) :
    ∃ src, findFrom order tgt d = some src ∧ tgt ≤ src ∧ src < order.length ∧
      order.getD src 0 = d := by
  have hdrop : d ∈ order.drop tgt := by
    rcases List.mem_append.mp (by rw [List.take_append_drop]; exact hd :
      d ∈ order.take tgt ++ order.drop tgt) with h | h
    · exact absurd h hnt
    · exact h
  have hsome : ((order.drop tgt).enum.find? fun p => decide (p.2 = d)).isSome = true := by
    rw [List.find?_isSome]
    obtain ⟨i, hi, he⟩ := List.getElem_of_mem hdrop
    refine ⟨(i, d), ?_, by simp⟩
    have hie : i < (order.drop tgt).enum.length := by
      rw [List.enum_length]
      exact hi
    have hmem := List.getElem_mem hie
    rw [List.getElem_enum, he] at hmem
    exact hmem
  obtain ⟨a, ha⟩ := Option.isSome_iff_exists.mp hsome
  have hpa : a.2 = d := by
    have := List.find?_some ha
    simpa using this
  have hamem : (a.1, a.2) ∈ List.enumFrom 0 (order.drop tgt) := by
    rw [← List.enum_eq_enumFrom]
    exact List.mem_of_find?_eq_some ha
  obtain ⟨-, hlt, hval⟩ := List.mem_enumFrom hamem
  refine ⟨a.1 + tgt, ?_, by omega, ?_, ?_⟩
  · unfold findFrom
    rw [ha]
    rfl
  · rw [List.length_drop] at hlt
    omega
  · have hsrc : a.1 + tgt < order.length := by
      rw [List.length_drop] at hlt
      omega
    rw [List.getD_eq_getElem order 0 hsrc]
    have hlt2 : a.1 < (order.drop tgt).length := by simpa using hlt
    have : (order.drop tgt)[a.1] = order[a.1 + tgt] := by
      rw [List.getElem_drop]
      congr 1
      omega
    rw [← this, ← hpa]
    simp at hval
    rw [hval]
    exact List.getElem_drop order

theorem updCols_length : ∀ (ps : List (Nat × List ℚ)) (a : List TBuf),
    (updCols ps a).length = a.length
  | [], a => rfl
  | p :: ps, a => by
    unfold updCols
    simp only [List.foldl_cons]
    rw [show List.foldl _ (a.set p.1 ((a.getD p.1 (0, [])).1, p.2)) ps =
      updCols ps (a.set p.1 ((a.getD p.1 (0, [])).1, p.2)) from rfl]
    rw [updCols_length ps _, List.length_set]

theorem updCols_getD_notin : ∀ (ps : List (Nat × List ℚ)) (a : List TBuf) (j : Nat)
    (d : TBuf), j ∉ ps.map Prod.fst → (updCols ps a).getD j d = a.getD j d
  | [], a, j, d, _ => rfl
  | p :: ps, a, j, d, hj => by
    unfold updCols
    simp only [List.foldl_cons]
    rw [show List.foldl _ (a.set p.1 ((a.getD p.1 (0, [])).1, p.2)) ps =
      updCols ps (a.set p.1 ((a.getD p.1 (0, [])).1, p.2)) from rfl]
    rw [updCols_getD_notin ps _ j d (fun h => hj (by simp [h]))]
    rw [List.getD_eq_getElem?_getD, List.getElem?_set_ne (fun h => hj (by simp [← h])),
      ← List.getD_eq_getElem?_getD]

theorem updCols_mem : ∀ (ps : List (Nat × List ℚ)) (a : List TBuf) (b : TBuf),
    b ∈ updCols ps a → b ∈ a ∨ b.2 ∈ ps.map Prod.snd
  | [], a, b, hb => Or.inl hb
  | p :: ps, a, b, hb => by
    unfold updCols at hb
    simp only [List.foldl_cons] at hb
    rw [show List.foldl _ (a.set p.1 ((a.getD p.1 (0, [])).1, p.2)) ps =
      updCols ps (a.set p.1 ((a.getD p.1 (0, [])).1, p.2)) from rfl] at hb
    rcases updCols_mem ps _ b hb with h | h
    · rcases List.mem_or_eq_of_mem_set h with h2 | h2
      · exact Or.inl h2
      · subst h2
        exact Or.inr (by simp)
    · exact Or.inr (List.mem_cons_of_mem _ h)

theorem updCols_getD_at : ∀ (ps : List (Nat × List ℚ)) (a : List TBuf) (l : Nat)
    (hl : l < ps.length), (ps.map Prod.fst).Nodup → (ps.get ⟨l, hl⟩).1 < a.length →
    (updCols ps a).getD (ps.get ⟨l, hl⟩).1 (0, []) =
      ((a.getD (ps.get ⟨l, hl⟩).1 (0, [])).1, (ps.get ⟨l, hl⟩).2)
  | [], _, l, hl, _, _ => by simp at hl
  | p :: ps, a, 0, hl, hnd, hpa => by
    unfold updCols
    simp only [List.foldl_cons, List.get_eq_getElem, List.getElem_cons_zero] at hpa ⊢
    rw [show List.foldl _ (a.set p.1 ((a.getD p.1 (0, [])).1, p.2)) ps =
      updCols ps (a.set p.1 ((a.getD p.1 (0, [])).1, p.2)) from rfl]
    rw [updCols_getD_notin ps _ p.1 (0, []) (by
      simp only [List.map_cons, List.nodup_cons] at hnd
      exact hnd.1)]
    rw [List.getD_eq_getElem?_getD, List.getElem?_set_self hpa, Option.getD_some]
  | p :: ps, a, l + 1, hl, hnd, hpa => by
    have hlps : l < ps.length := by simpa using hl
    unfold updCols
    simp only [List.foldl_cons, List.get_eq_getElem, List.getElem_cons_succ] at hpa ⊢
    rw [show List.foldl _ (a.set p.1 ((a.getD p.1 (0, [])).1, p.2)) ps =
      updCols ps (a.set p.1 ((a.getD p.1 (0, [])).1, p.2)) from rfl]
    have hnd2 : (ps.map Prod.fst).Nodup := by
      simp only [List.map_cons, List.nodup_cons] at hnd
      exact hnd.2
    have hne : ps[l].1 ≠ p.1 := by
      intro h
      simp only [List.map_cons, List.nodup_cons] at hnd
      exact hnd.1 (h ▸ List.mem_map_of_mem Prod.fst (List.getElem_mem hlps))
    have hrec := updCols_getD_at ps (a.set p.1 ((a.getD p.1 (0, [])).1, p.2)) l
      (by simpa using hl) hnd2 (by
        simp only [List.get_eq_getElem]
        rw [List.length_set]
        exact hpa)
    simp only [List.get_eq_getElem] at hrec
    rw [hrec]
    rw [show (a.set p.1 ((a.getD p.1 (0, [])).1, p.2)).getD ps[l].1 (0, []) =
        a.getD ps[l].1 (0, []) from by
      rw [List.getD_eq_getElem?_getD, List.getElem?_set_ne (fun h => hne h.symm),
        ← List.getD_eq_getElem?_getD]]

theorem swapPos_perm (l : List Nat) (a b : Nat) : (swapPos l a b).Perm l := by
  by_cases hab : a = b
  · subst hab
    rw [swapPos_self]
  · cases ha : l[a]? with
    | none =>
      rw [show swapPos l a b = l from by unfold swapPos; rw [ha]]
    | some x =>
      cases hb : l[b]? with
      | none =>
        rw [show swapPos l a b = l from by unfold swapPos; rw [ha, hb]]
      | some y =>
        rw [show swapPos l a b = (l.set a y).set b x from by unfold swapPos; rw [ha, hb]]
        have hal := (List.getElem?_eq_some_iff.mp ha).1
        have hbl := (List.getElem?_eq_some_iff.mp hb).1
        have hxa : l[a] = x := by
          rw [List.getElem?_eq_getElem hal] at ha
          injection ha
        have hyb : l[b] = y := by
          rw [List.getElem?_eq_getElem hbl] at hb
          injection hb
        rw [List.perm_iff_count]
        intro c
        rw [List.count_set x c _ b (by simpa using hbl)]
        rw [List.count_set y c l a hal]
        rw [List.getElem_set_ne hab]
        rw [hxa, hyb]
        have h1x : x = c → 1 ≤ l.count c := fun h =>
          List.count_pos_iff.mpr (by rw [← h, ← hxa]; exact List.getElem_mem hal)
        have h1y : y = c → 1 ≤ l.count c := fun h =>
          List.count_pos_iff.mpr (by rw [← h, ← hyb]; exact List.getElem_mem hbl)
        by_cases hxc : x = c <;> by_cases hyc : y = c <;>
          simp [hxc, hyc] <;> omega

theorem swapPos_length : ∀ (l : List α) (a b : Nat), (swapPos l a b).length = l.length := by
  intro l a b
  unfold swapPos
  cases l[a]? with
  | none => rfl
  | some x =>
    cases l[b]? with
    | none => rfl
    | some y => simp

theorem swapPos_take (l : List α) (a b m : Nat) (hma : m ≤ a) (hmb : m ≤ b) :
    (swapPos l a b).take m = l.take m := by
  unfold swapPos
  cases l[a]? with
  | none => rfl
  | some x =>
    cases l[b]? with
    | none => rfl
    | some y =>
      simp only
      rw [List.set_take, List.set_take]
      rw [List.set_eq_of_length_le (by rw [List.length_set, List.length_take]; omega)]
      rw [List.set_eq_of_length_le (by rw [List.length_take]; omega)]

theorem swapPos_getD_tgt (l : List Nat) (a b : Nat) (ha : a < l.length)
    (hb : b < l.length) : (swapPos l a b).getD a 0 = l.getD b 0 := by
  by_cases hab : a = b
  · subst hab
    rw [swapPos_self]
  · rw [show swapPos l a b = (l.set a l[b]).set b l[a] from by
      unfold swapPos
      rw [List.getElem?_eq_getElem ha, List.getElem?_eq_getElem hb]]
    rw [List.getD_eq_getElem?_getD, List.getElem?_set_ne (fun h => hab h.symm),
      List.getElem?_set_self ha, Option.getD_some, List.getD_eq_getElem l 0 hb]

theorem bdSwapLoop_spec (A : List TBuf) (base : List Nat) :
    ∀ (ds : List Nat) (j start : Nat) (order : List Nat) (swaps : List (Nat × Nat)),
      order.Perm (List.range A.length) →
      (∀ d ∈ ds, d ∉ order.take (start + j)) →
      ds.Nodup →
      (∀ d ∈ ds, d < A.length) →
      start + j + ds.length ≤ A.length →
      order = swaps.foldl (fun o p => swapPos o p.1 p.2) base →
      ∃ order2 swaps2,
        bdSwapLoop (List.enumFrom j ds) start (order.map fun i => A.getD i (0, []))
          order swaps =
          some (order2.map fun i => A.getD i (0, []), order2, swaps2) ∧
        order2.Perm (List.range A.length) ∧
        order2.take (start + j) = order.take (start + j) ∧
        (order2.drop (start + j)).take ds.length = ds ∧
        order2 = swaps2.foldl (fun o p => swapPos o p.1 p.2) base
  | [], j, start, order, swaps, hperm, _, _, _, _, hrep =>
    ⟨order, swaps, by simp [bdSwapLoop], hperm, rfl, by simp, hrep⟩
  | d :: ds, j, start, order, swaps, hperm, hpre, hnd, hlt, hsz, hrep => by
    have horder_len : order.length = A.length := by
      have := hperm.length_eq
      simpa using this
    have hd_mem : d ∈ order := hperm.mem_iff.mpr
      (List.mem_range.mpr (hlt d (List.mem_cons_self _ _)))
    have hpred : d ∉ order.take (j + start) := by
      rw [Nat.add_comm]
      exact hpre d (List.mem_cons_self _ _)
    obtain ⟨src, hfind, hge, hsrclt, hval⟩ := findFrom_spec hd_mem hpred
    have hlcons : (d :: ds).length = ds.length + 1 := by simp
    simp only [List.enumFrom_cons, bdSwapLoop, Option.bind_eq_bind]
    rw [hfind]
    simp only [Option.some_bind]
    split
    · rename_i hsj
      have hjs : j + start = src := by omega
      have hjlt : start + j < order.length := by rw [← hjs] at hsrclt; omega
      have htgtval : order.getD (start + j) 0 = d := by
        rw [show start + j = src from by omega]
        exact hval
      obtain ⟨o2, s2, hres, hp2, hpre2, hseg2, hrep2⟩ := bdSwapLoop_spec A base ds
        (j + 1) start order swaps hperm
        (by
          intro e he
          rw [show start + (j + 1) = (start + j) + 1 from by omega, List.take_succ]
          rw [List.getElem?_eq_getElem hjlt, Option.toList_some]
          intro hmem
          rcases List.mem_append.mp hmem with h | h
          · exact hpre e (List.mem_cons_of_mem _ he) h
          · simp only [List.mem_singleton] at h
            rw [← List.getD_eq_getElem order 0 hjlt, htgtval] at h
            rw [h] at he
            exact (List.nodup_cons.mp hnd).1 he)
        hnd.of_cons
        (fun e he => hlt e (List.mem_cons_of_mem _ he))
        (by omega)
        hrep
      refine ⟨o2, s2, hres, hp2, ?_, ?_, hrep2⟩
      · rw [show start + j = min (start + j) (start + (j + 1)) from by omega]
        rw [← List.take_take, hpre2, List.take_take]
      · have ho2len : o2.length = A.length := by
          have := hp2.length_eq
          simpa using this
        have hjo2 : start + j < o2.length := by omega
        rw [List.drop_eq_getElem_cons hjo2, hlcons, List.take_succ_cons]
        have hheads : o2.getD (start + j) 0 = d := by
          have h2 : (o2.take (start + (j + 1))).getD (start + j) 0 =
              (order.take (start + (j + 1))).getD (start + j) 0 := by rw [hpre2]
          rw [List.getD_eq_getElem (o2.take (start + (j + 1))) 0
              (by rw [List.length_take]; omega),
            List.getElem_take, ← List.getD_eq_getElem o2 0 hjo2] at h2
          rw [List.getD_eq_getElem (order.take (start + (j + 1))) 0
              (by rw [List.length_take]; omega),
            List.getElem_take, ← List.getD_eq_getElem order 0 hjlt] at h2
          rw [h2, htgtval]
        rw [List.getD_eq_getElem o2 0 hjo2] at hheads
        rw [hheads]
        rw [show (start + j) + 1 = start + (j + 1) from by omega, hseg2]
    · rename_i hsj
      have htgt_lt : j + start < order.length := by omega
      have horder2 : (swapPos order (j + start) src).Perm (List.range A.length) :=
        (swapPos_perm order _ _).trans hperm
      have hpref : (swapPos order (j + start) src).take (start + j) =
          order.take (start + j) :=
        swapPos_take order _ _ _ (by omega) (by omega)
      have hswlen : (swapPos order (j + start) src).length = order.length :=
        swapPos_length order _ _
      have htgtval2 : (swapPos order (j + start) src).getD (start + j) 0 = d := by
        rw [show start + j = j + start from by omega]
        rw [swapPos_getD_tgt order _ _ htgt_lt hsrclt]
        exact hval
      obtain ⟨o2, s2, hres, hp2, hpre2, hseg2, hrep2⟩ := bdSwapLoop_spec A base ds
        (j + 1) start (swapPos order (j + start) src) (swaps ++ [(j + start, src)])
        horder2
        (by
          intro e he
          rw [show start + (j + 1) = (start + j) + 1 from by omega, List.take_succ]
          rw [List.getElem?_eq_getElem (show start + j <
            (swapPos order (j + start) src).length from by rw [hswlen]; omega),
            Option.toList_some]
          intro hmem
          rcases List.mem_append.mp hmem with h | h
          · rw [hpref] at h
            exact hpre e (List.mem_cons_of_mem _ he) h
          · simp only [List.mem_singleton] at h
            rw [← List.getD_eq_getElem _ 0 (show start + j <
              (swapPos order (j + start) src).length from by rw [hswlen]; omega),
              htgtval2] at h
            rw [h] at he
            exact (List.nodup_cons.mp hnd).1 he)
        hnd.of_cons
        (fun e he => hlt e (List.mem_cons_of_mem _ he))
        (by omega)
        (by rw [List.foldl_append, List.foldl_cons, List.foldl_nil, ← hrep])
      refine ⟨o2, s2, ?_, hp2, ?_, ?_, hrep2⟩
      · rw [swapPos_map]
        exact hres
      · rw [show start + j = min (start + j) (start + (j + 1)) from by omega]
        rw [← List.take_take, hpre2, List.take_take]
        rw [show min (start + j) (start + (j + 1)) = start + j from by omega]
        exact hpref
      · have ho2len : o2.length = A.length := by
          have := hp2.length_eq
          simpa using this
        have hjo2 : start + j < o2.length := by omega
        rw [List.drop_eq_getElem_cons hjo2, hlcons, List.take_succ_cons]
        have hheads : o2.getD (start + j) 0 = d := by
          have h2 : (o2.take (start + (j + 1))).getD (start + j) 0 =
              ((swapPos order (j + start) src).take (start + (j + 1))).getD
                (start + j) 0 := by rw [hpre2]
          rw [List.getD_eq_getElem (o2.take (start + (j + 1))) 0
              (by rw [List.length_take]; omega),
            List.getElem_take, ← List.getD_eq_getElem o2 0 hjo2] at h2
          rw [List.getD_eq_getElem
              ((swapPos order (j + start) src).take (start + (j + 1))) 0
              (by rw [List.length_take, hswlen]; omega),
            List.getElem_take, ← List.getD_eq_getElem (swapPos order (j + start) src) 0
              (show start + j < (swapPos order (j + start) src).length from by
                rw [hswlen]; omega)] at h2
          rw [h2, htgtval2]
        rw [List.getD_eq_getElem o2 0 hjo2] at hheads
        rw [hheads]
        rw [show (start + j) + 1 = start + (j + 1) from by omega, hseg2]

theorem getD_append (l1 l2 : List α) (i : Nat) (d : α) :
    (l1 ++ l2).getD i d =
      if i < l1.length then l1.getD i d else l2.getD (i - l1.length) d := by
  split
  · rw [List.getD_eq_getElem?_getD, List.getElem?_append_left (by omega),
      ← List.getD_eq_getElem?_getD]
  · rw [List.getD_eq_getElem?_getD, List.getElem?_append_right (by omega),
      ← List.getD_eq_getElem?_getD]

theorem getD_take {l : List α} {n i : Nat} (d : α) (h : i < n) :
    (l.take n).getD i d = l.getD i d := by
  rw [List.getD_eq_getElem?_getD, List.getElem?_take, if_pos h,
    ← List.getD_eq_getElem?_getD]

theorem getD_drop (l : List α) (n i : Nat) (d : α) :
    (l.drop n).getD i d = l.getD (n + i) d := by
  rw [List.getD_eq_getElem?_getD, List.getElem?_drop, ← List.getD_eq_getElem?_getD]

theorem getD_zipWith_pair (bs : List TBuf) (cs : List (List ℚ)) (i : Nat)
    (h1 : i < bs.length) (h2 : i < cs.length) :
    (List.zipWith (fun (b : TBuf) c => (b.1, c)) bs cs).getD i (0, []) =
      ((bs.getD i (0, [])).1, cs.getD i []) := by
  rw [List.getD_eq_getElem _ _ (by rw [List.length_zipWith]; omega),
    List.getElem_zipWith, List.getD_eq_getElem bs _ h1, List.getD_eq_getElem cs _ h2]

theorem splice_updCols (A : List TBuf) (o2 uouts : List Nat)
    (spec : List (List ℚ)) (start : Nat)
    (ho2len : o2.length = A.length) (ho2nd : o2.Nodup)
    (hstart : start + uouts.length ≤ A.length)
    (hpre : ∀ e ∈ uouts, e ∉ o2.take start)
    (hnd : uouts.Nodup)
    (hlt : ∀ e ∈ uouts, e < A.length)
    (hseg : (o2.drop start).take uouts.length = uouts)
    (hspeclen : spec.length = uouts.length) :
    (o2.map fun i => A.getD i (0, [])).take start ++
      (List.zipWith (fun (b : TBuf) c => (b.1, c))
        (uouts.map fun e => A.getD e (0, [])) spec ++
      (o2.map fun i => A.getD i (0, [])).drop (start + uouts.length)) =
    o2.map fun i => (updCols (uouts.zip spec) A).getD i (0, []) := by
  have hfst : (uouts.zip spec).map Prod.fst = uouts :=
    List.map_fst_zip _ _ (by omega)
  refine List.ext_getElem ?_ fun i h1 h2 => ?_
  · simp only [List.length_append, List.length_take, List.length_zipWith,
      List.length_map, List.length_drop, ho2len]
    omega
  · have hiA : i < A.length := by
      rw [List.length_map, ho2len] at h2
      exact h2
    rw [← List.getD_eq_getElem _ (0, ([] : List ℚ)) h1,
      ← List.getD_eq_getElem _ (0, ([] : List ℚ)) h2]
    rw [getD_append, getD_map_g o2 i 0 (by omega)]
    rw [List.length_take, List.length_map, ho2len,
      Nat.min_eq_left (by omega : start ≤ A.length)]
    by_cases hcase1 : i < start
    · rw [if_pos (by omega)]
      rw [getD_take (0, ([] : List ℚ)) hcase1, getD_map_g o2 i 0 (by omega)]
      rw [updCols_getD_notin _ _ _ _ (by
        rw [hfst]
        intro hmem
        refine hpre (o2.getD i 0) hmem ?_
        have : (o2.take start).getD i 0 = o2.getD i 0 := getD_take 0 hcase1
        rw [← this]
        rw [List.getD_eq_getElem _ 0 (by rw [List.length_take]; omega)]
        exact List.getElem_mem _)]
    · rw [if_neg (by omega)]
      rw [getD_append]
      rw [List.length_zipWith, List.length_map, hspeclen, Nat.min_self]
      by_cases hcase2 : i < start + uouts.length
      · rw [if_pos (by omega)]
        have hi' : i - start < uouts.length := by omega
        rw [getD_zipWith_pair _ _ _ (by rw [List.length_map]; omega) (by omega)]
        rw [getD_map_g uouts (i - start) 0 hi']
        have ho2i : o2.getD i 0 = uouts.getD (i - start) 0 := by
          conv_rhs => rw [← hseg]
          rw [getD_take 0 hi', getD_drop]
          congr 1
          omega
        rw [ho2i]
        have hval := updCols_getD_at (uouts.zip spec) A (i - start)
          (by rw [List.length_zip]; omega)
          (by rw [hfst]; exact hnd)
          (by
            simp only [List.get_eq_getElem, List.getElem_zip]
            refine hlt _ (List.getElem_mem (by omega)))
        simp only [List.get_eq_getElem, List.getElem_zip] at hval
        rw [show uouts.getD (i - start) 0 = uouts.get ⟨i - start, hi'⟩ from
          List.getD_eq_getElem uouts 0 hi']
        simp only [List.get_eq_getElem]
        rw [hval]
        congr 1
        rw [List.getD_eq_getElem spec [] (by omega)]
      · rw [if_neg (by omega)]
        rw [getD_drop, getD_map_g o2 _ 0 (by omega)]
        rw [show (start + uouts.length) + (i - start - uouts.length) = i from by omega]
        rw [updCols_getD_notin _ _ _ _ (by
          rw [hfst]
          intro hmem
          obtain ⟨l, hl, hle⟩ := List.getElem_of_mem hmem
          have huo : uouts.getD l 0 = o2.getD i 0 := by
            rw [List.getD_eq_getElem uouts 0 hl, hle]
          have ho2l : uouts.getD l 0 = o2.getD (start + l) 0 := by
            conv_lhs => rw [← hseg]
            rw [getD_take 0 hl, getD_drop]
          have hne : start + l ≠ i := by omega
          refine hne ?_
          have hsl : start + l < o2.length := by omega
          have hio : i < o2.length := by omega
          rw [ho2l] at huo
          rw [List.getD_eq_getElem o2 0 hsl, List.getD_eq_getElem o2 0 hio] at huo
          exact (ho2nd.getElem_inj_iff.mp huo))]

theorem bdColGo_spec (nan : ℚ) (k : Nat) (columns : List (List ℚ)) (base : List Nat) :
    ∀ (subs : List SubT) (A : List TBuf) (order : List Nat) (swaps : List (Nat × Nat))
      (start : Nat),
      (∀ u uins uouts, (u, uins, uouts) ∈ subs → ∀ (cols : List (List ℚ))
        (bs : List TBuf),
        cols.length = u.input_ndim → (∀ c ∈ cols, c.length = k) →
        bs.length = u.output_ndim → (∀ b ∈ bs, b.2.length = k) →
        column_transform_into nan u cols bs =
          some (List.zipWith (fun (b : TBuf) c => (b.1, c)) bs (specCols u cols k))) →
      (∀ u uins uouts, (u, uins, uouts) ∈ subs → u.input_ndim = uins.length ∧
        u.output_ndim = uouts.length ∧ ∀ i ∈ uins, i < columns.length) →
      (∀ c ∈ columns, c.length = k) →
      order.Perm (List.range A.length) →
      (∀ b ∈ A, b.2.length = k) →
      (∀ e ∈ (subs.map fun q => q.2.2).flatten, e ∉ order.take start) →
      ((subs.map fun q => q.2.2).flatten).Nodup →
      (∀ e ∈ (subs.map fun q => q.2.2).flatten, e < A.length) →
      start + ((subs.map fun q => q.2.2).flatten).length ≤ A.length →
      order = swaps.foldl (fun o p => swapPos o p.1 p.2) base →
      ∃ swaps2,
        bdColGo nan subs columns (order.map fun i => A.getD i (0, [])) order swaps
          start =
        some ((swaps2.foldl (fun o p => swapPos o p.1 p.2) base).map (fun i =>
          (subs.foldl (fun a q => updCols
            (q.2.2.zip (specCols q.1 (q.2.1.map fun idx => columns.getD idx []) k)) a)
            A).getD i (0, [])), swaps2)
  | [], A, order, swaps, start, _, _, _, _, _, _, _, _, _, hrep =>
    ⟨swaps, by
      simp only [bdColGo, List.foldl_nil, Option.some.injEq]
      rw [← hrep]⟩
  | (u, uins, uouts) :: rest, A, order, swaps, start, hIH, hsubs, hck, hperm, hAk,
      hpre, hnd, hlt, hsz, hrep => by
    obtain ⟨hui, huo, huc⟩ := hsubs u uins uouts (List.mem_cons_self _ _)
    have hflat : ((((u, uins, uouts) :: rest).map fun q => q.2.2).flatten) =
        uouts ++ (rest.map fun q => q.2.2).flatten := by
      simp
    rw [hflat] at hpre hnd hlt hsz
    simp only [List.length_append] at hsz
    have horder_len : order.length = A.length := by
      have := hperm.length_eq
      simpa using this
    simp only [bdColGo, Option.bind_eq_bind]
    rw [mapM_eq_some_map (g := fun idx => columns.getD idx []) (fun i hi => by
      show columns[i]? = some (columns.getD i [])
      rw [List.getElem?_eq_getElem (huc i hi), List.getD_eq_getElem columns [] (huc i hi)])]
    simp only [Option.some_bind]
    obtain ⟨o2, s2, hres, hp2, hpre2, hseg2, hrep2⟩ := bdSwapLoop_spec A base uouts 0
      start order swaps hperm
      (by
        intro e he
        rw [Nat.add_zero]
        exact hpre e (List.mem_append_left _ he))
      hnd.of_append_left
      (fun e he => hlt e (List.mem_append_left _ he))
      (by omega)
      hrep
    rw [List.enum_eq_enumFrom, hres]
    simp only [Option.some_bind]
    rw [Nat.add_zero] at hpre2 hseg2
    have ho2len : o2.length = A.length := by
      have := hp2.length_eq
      simpa using this
    rw [if_pos (by
      rw [List.length_map, ho2len]
      omega : start + uouts.length ≤ (o2.map fun i => A.getD i (0, [])).length)]
    have hslice : ((o2.map fun i => A.getD i (0, [])).drop start).take
        (start + uouts.length - start) =
        uouts.map fun e => A.getD e (0, []) := by
      rw [show start + uouts.length - start = uouts.length from by omega]
      rw [← List.map_drop, ← List.map_take, hseg2]
    rw [hslice]
    have hspec_len : (specCols u (uins.map fun idx => columns.getD idx []) k).length =
        uouts.length := by
      rw [specCols_length, huo]
    rw [hIH u uins uouts (List.mem_cons_self _ _)
      (uins.map fun idx => columns.getD idx []) (uouts.map fun e => A.getD e (0, []))
      (by rw [List.length_map, hui])
      (by
        intro c hc
        obtain ⟨idx, hidx, rfl⟩ := List.mem_map.mp hc
        refine hck _ ?_
        rw [List.getD_eq_getElem columns [] (huc idx hidx)]
        exact List.getElem_mem _)
      (by rw [List.length_map, huo])
      (by
        intro b hb
        obtain ⟨e, he, rfl⟩ := List.mem_map.mp hb
        refine hAk _ ?_
        rw [List.getD_eq_getElem A _ (hlt e (List.mem_append_left _ he))]
        exact List.getElem_mem _)]
    simp only [Option.some_bind]
    have hpre2vals : ∀ e ∈ uouts, e ∉ o2.take start := by
      intro e he
      rw [hpre2]
      exact hpre e (List.mem_append_left _ he)
    have hsplice := splice_updCols A o2 uouts
      (specCols u (uins.map fun idx => columns.getD idx []) k) start ho2len
      (hp2.symm.nodup (List.nodup_range _)) (by omega) hpre2vals hnd.of_append_left
      (fun e he => hlt e (List.mem_append_left _ he)) hseg2 hspec_len
    rw [← List.append_assoc] at hsplice
    rw [hsplice]
    obtain ⟨s3, hres3⟩ := bdColGo_spec nan k columns base rest
      (updCols (uouts.zip (specCols u (uins.map fun idx => columns.getD idx []) k)) A)
      o2 s2 (start + uouts.length)
      (fun v vins vouts hv => hIH v vins vouts (List.mem_cons_of_mem _ hv))
      (fun v vins vouts hv => hsubs v vins vouts (List.mem_cons_of_mem _ hv))
      hck
      (by rw [updCols_length]; exact hp2)
      (by
        intro b hb
        rcases updCols_mem _ _ _ hb with h | h
        · exact hAk b h
        · rw [List.map_snd_zip _ _ (by omega)] at h
          exact specCols_mem_length _ h)
      (by
        intro e he hmem
        have hdisj := List.disjoint_of_nodup_append hnd
        rw [List.take_add] at hmem
        rcases List.mem_append.mp hmem with h | h
        · rw [hpre2] at h
          exact hpre e (List.mem_append_right _ he) h
        · rw [hseg2] at h
          exact hdisj h he)
      hnd.of_append_right
      (fun e he => by
        rw [updCols_length]
        exact hlt e (List.mem_append_right _ he))
      (by rw [updCols_length]; omega)
      hrep2
    refine ⟨s3, ?_⟩
    rw [hres3]
    simp only [List.foldl_cons]
  termination_by subs => subs.length

theorem updCols_tag : ∀ (ps : List (Nat × List ℚ)) (a : List TBuf) (d : Nat),
    ((updCols ps a).getD d (0, [])).1 = (a.getD d (0, [])).1
  | [], a, d => rfl
  | p :: ps, a, d => by
    unfold updCols
    simp only [List.foldl_cons]
    rw [show List.foldl _ (a.set p.1 ((a.getD p.1 (0, [])).1, p.2)) ps =
      updCols ps (a.set p.1 ((a.getD p.1 (0, [])).1, p.2)) from rfl]
    rw [updCols_tag ps _ d]
    by_cases hdp : d = p.1
    · by_cases hdl : p.1 < a.length
      · rw [hdp, List.getD_eq_getElem?_getD, List.getElem?_set_self hdl,
          Option.getD_some]
      · rw [List.set_eq_of_length_le (by omega)]
    · rw [List.getD_eq_getElem?_getD, List.getElem?_set_ne (fun h => hdp h.symm),
        ← List.getD_eq_getElem?_getD]

theorem scatterF_getD_at :
    ∀ (outs : List Nat) (v b : List ℚ) (l : Nat) (hl : l < outs.length),
      outs.Nodup → outs.length ≤ v.length → outs.get ⟨l, hl⟩ < b.length →
      (scatterF outs v b).getD (outs.get ⟨l, hl⟩) 0 = v.getD l 0
  | [], _, _, l, hl, _, _, _ => by simp at hl
  | o :: outs, v, b, 0, hl, hnd, hlv, hob => by
    cases v with
    | nil => simp at hlv
    | cons x v =>
      unfold scatterF
      simp only [List.zip_cons_cons, List.foldl_cons, List.get_eq_getElem,
        List.getElem_cons_zero] at hob ⊢
      rw [show (List.zip outs v).foldl (fun b q => b.set q.1 q.2) (b.set o x) =
        scatterF outs v (b.set o x) from rfl]
      rw [scatterF_getD_notin outs v _ (List.nodup_cons.mp hnd).1]
      rw [List.getD_eq_getElem?_getD, List.getElem?_set_self hob, Option.getD_some]
      rfl
  | o :: outs, v, b, l + 1, hl, hnd, hlv, hob => by
    cases v with
    | nil => simp at hlv
    | cons x v =>
      unfold scatterF
      simp only [List.zip_cons_cons, List.foldl_cons, List.get_eq_getElem,
        List.getElem_cons_succ] at hob ⊢
      rw [show (List.zip outs v).foldl (fun b q => b.set q.1 q.2) (b.set o x) =
        scatterF outs v (b.set o x) from rfl]
      have hl2 : l < outs.length := by simpa using hl
      have := scatterF_getD_at outs v (b.set o x) l hl2 (List.nodup_cons.mp hnd).2
        (by simpa using hlv) (by
          simp only [List.get_eq_getElem]
          rw [List.length_set]
          exact hob)
      simp only [List.get_eq_getElem] at this
      rw [this]
      rfl

theorem updFold (C : SubT → List (List ℚ)) :
    ∀ (subs : List SubT) (a : List TBuf),
      ((subs.foldl (fun a q => updCols (q.2.2.zip (C q)) a) a).length = a.length) ∧
      (∀ d, ((subs.foldl (fun a q => updCols (q.2.2.zip (C q)) a) a).getD d
        (0, [])).1 = (a.getD d (0, [])).1)
  | [], a => ⟨rfl, fun _ => rfl⟩
  | q :: subs, a => by
    simp only [List.foldl_cons]
    refine ⟨?_, fun d => ?_⟩
    · rw [(updFold C subs _).1, updCols_length]
    · rw [(updFold C subs _).2 d, updCols_tag]

theorem updFold_getD_notin (C : SubT → List (List ℚ)) :
    ∀ (subs : List SubT) (a : List TBuf) (d : Nat),
      (∀ q ∈ subs, d ∉ q.2.2) →
      (subs.foldl (fun a q => updCols (q.2.2.zip (C q)) a) a).getD d (0, []) =
        a.getD d (0, [])
  | [], _, _, _ => rfl
  | q :: subs, a, d, hd => by
    simp only [List.foldl_cons]
    rw [updFold_getD_notin C subs _ d (fun r hr => hd r (List.mem_cons_of_mem _ hr))]
    rw [updCols_getD_notin _ _ _ _ (by
      intro hmem
      obtain ⟨p, hp, hpe⟩ := List.mem_map.mp hmem
      refine hd q (List.mem_cons_self _ _) ?_
      rw [← hpe]
      exact (List.of_mem_zip hp).1)]

theorem scatterFold_getD_notin (V : SubT → List ℚ) :
    ∀ (subs : List SubT) (b : List ℚ) (d : Nat),
      (∀ q ∈ subs, d ∉ q.2.2) →
      (subs.foldl (fun b q => scatterF q.2.2 (V q) b) b).getD d 0 = b.getD d 0
  | [], _, _, _ => rfl
  | q :: subs, b, d, hd => by
    simp only [List.foldl_cons]
    rw [scatterFold_getD_notin V subs _ d
      (fun r hr => hd r (List.mem_cons_of_mem _ hr))]
    rw [scatterF_getD_notin _ _ _ (hd q (List.mem_cons_self _ _))]

theorem updFold_mem (C : SubT → List (List ℚ)) (k : Nat) :
    ∀ (subs : List SubT) (a : List TBuf),
      (∀ q ∈ subs, ∀ c ∈ C q, c.length = k) →
      (∀ b ∈ a, b.2.length = k) →
      ∀ b ∈ subs.foldl (fun a q => updCols (q.2.2.zip (C q)) a) a, b.2.length = k
  | [], a, _, ha, b, hb => ha b hb
  | q :: subs, a, hC, ha, b, hb => by
    simp only [List.foldl_cons] at hb
    refine updFold_mem C k subs _ (fun r hr => hC r (List.mem_cons_of_mem _ hr))
      ?_ b hb
    intro b2 hb2
    rcases updCols_mem _ _ _ hb2 with h | h
    · exact ha b2 h
    · obtain ⟨p, hp, hpe⟩ := List.mem_map.mp h
      rw [← hpe]
      exact hC q (List.mem_cons_self _ _) _ (List.of_mem_zip hp).2

theorem parallel_fold (i k : Nat) (C : SubT → List (List ℚ)) (V : SubT → List ℚ) :
    ∀ (subs : List SubT) (a : List TBuf) (b : List ℚ),
      a.length = b.length →
      (∀ q ∈ subs, (C q).length = q.2.2.length ∧ V q = (List.range q.2.2.length).map
        (fun l => ((C q).getD l []).getD i 0)) →
      (∀ q ∈ subs, ∀ e ∈ q.2.2, e < a.length) →
      (∀ q ∈ subs, q.2.2.Nodup) →
      ∀ d, d < a.length → d ∈ (subs.map fun q => q.2.2).flatten →
        ((subs.foldl (fun a q => updCols (q.2.2.zip (C q)) a) a).getD d
          (0, [])).2.getD i 0 =
        (subs.foldl (fun b q => scatterF q.2.2 (V q) b) b).getD d 0
  | [], a, b, _, _, _, _, d, _, hdf => by simp at hdf
  | q :: rest, a, b, hab, hCV, hbound, hnds, d, hd, hdf => by
    simp only [List.map_cons, List.flatten_cons, List.mem_append] at hdf
    simp only [List.foldl_cons]
    by_cases hdr : d ∈ (rest.map fun r => r.2.2).flatten
    · exact parallel_fold i k C V rest _ _
        (by rw [updCols_length, scatterF_length, hab])
        (fun r hr => hCV r (List.mem_cons_of_mem _ hr))
        (fun r hr e he => by
          rw [updCols_length]
          exact hbound r (List.mem_cons_of_mem _ hr) e he)
        (fun r hr => hnds r (List.mem_cons_of_mem _ hr))
        d (by rw [updCols_length]; exact hd) hdr
    · have hdq : d ∈ q.2.2 := by
        rcases hdf with h | h
        · exact h
        · exact absurd h hdr
      have hnotin : ∀ r ∈ rest, d ∉ r.2.2 := by
        intro r hr hmem
        exact hdr (List.mem_flatten.mpr ⟨r.2.2, List.mem_map_of_mem _ hr, hmem⟩)
      rw [updFold_getD_notin C rest _ d hnotin, scatterFold_getD_notin V rest _ d hnotin]
      obtain ⟨hClen, hVdef⟩ := hCV q (List.mem_cons_self _ _)
      obtain ⟨l, hl, hle⟩ := List.getElem_of_mem hdq
      have hzl : l < (q.2.2.zip (C q)).length := by
        rw [List.length_zip, hClen]
        simpa using hl
      have hupd := updCols_getD_at (q.2.2.zip (C q)) a l hzl
        (by rw [List.map_fst_zip _ _ (by omega)]; exact hnds q (List.mem_cons_self _ _))
        (by
          simp only [List.get_eq_getElem, List.getElem_zip]
          rw [hle]
          exact hd)
      simp only [List.get_eq_getElem, List.getElem_zip] at hupd
      rw [hle] at hupd
      rw [hupd]
      have hsc := scatterF_getD_at q.2.2 (V q) b l hl
        (hnds q (List.mem_cons_self _ _))
        (by rw [hVdef, List.length_map, List.length_range])
        (by
          simp only [List.get_eq_getElem]
          rw [hle, ← hab]
          exact hd)
      simp only [List.get_eq_getElem] at hsc
      rw [hle] at hsc
      rw [hsc]
      rw [hVdef, getD_map_g (List.range q.2.2.length) l 0 (by simpa using hl),
        getD_range hl]
      simp only
      rw [List.getD_eq_getElem (C q) [] (by omega)]

theorem colAt_gather (columns : List (List ℚ)) (uins : List Nat) (i : Nat)
    (h : ∀ idx ∈ uins, idx < columns.length) :
    colAt (uins.map fun idx => columns.getD idx []) i =
      uins.map fun idx => (colAt columns i).getD idx 0 := by
  unfold colAt
  rw [List.map_map]
  refine List.map_congr_left fun idx hidx => ?_
  simp only [Function.comp]
  rw [getD_map_g columns idx [] (h idx hidx)]

theorem specCols_getD (t : Transform) (cols : List (List ℚ)) (k d : Nat)
    (hd : d < t.output_ndim) :
    (specCols t cols k).getD d [] =
      (List.range k).map fun i => (pointFun t (colAt cols i)).getD d 0 := by
  unfold specCols
  rw [getD_map_g (List.range t.output_ndim) d 0 (by simpa using hd), getD_range hd]

theorem byDim_final_eq (k : Nat) (columns : List (List ℚ)) (subs : List SubT)
    (bufs : List TBuf)
    (hw : WFT (.byDimension subs))
    (hc : columns.length = (Transform.byDimension subs).input_ndim)
    (hck : ∀ c ∈ columns, c.length = k)
    (hbufs : bufs.length = (Transform.byDimension subs).output_ndim)
    (hbk : ∀ b ∈ bufs, b.2.length = k) :
    subs.foldl (fun a q => updCols
      (q.2.2.zip (specCols q.1 (q.2.1.map fun idx => columns.getD idx []) k)) a)
      bufs =
    List.zipWith (fun (b : TBuf) c => (b.1, c)) bufs
      (specCols (.byDimension subs) columns k) := by
  simp only [WFT] at hw
  obtain ⟨hinP, houtP, hsub⟩ := hw
  simp only [Transform.input_ndim] at hc
  simp only [Transform.output_ndim] at hbufs
  have hofl : ((subs.map fun q => q.2.2).flatten).Nodup :=
    houtP.symm.nodup (List.nodup_range _)
  have hoflm : ∀ q ∈ subs, ∀ e ∈ q.2.2, e < bufs.length := by
    intro q hq e he
    rw [hbufs]
    refine List.mem_range.mp (houtP.mem_iff.mp ?_)
    exact List.mem_flatten.mpr ⟨q.2.2, List.mem_map_of_mem _ hq, he⟩
  refine List.ext_getElem ?_ fun d h1 h2 => ?_
  · rw [(updFold (fun q => specCols q.1 (q.2.1.map fun idx => columns.getD idx []) k)
      subs bufs).1, List.length_zipWith, specCols_length]
    simp only [Transform.output_ndim]
    omega
  · have hdb : d < bufs.length := by
      rw [(updFold (fun q => specCols q.1 (q.2.1.map fun idx => columns.getD idx []) k)
        subs bufs).1] at h1
      exact h1
    have hdo : d < (Transform.byDimension subs).output_ndim := by
      simp only [Transform.output_ndim]
      omega
    rw [← List.getD_eq_getElem _ (0, ([] : List ℚ)) h1,
      ← List.getD_eq_getElem _ (0, ([] : List ℚ)) h2]
    rw [getD_zipWith_pair bufs _ d hdb (by rw [specCols_length]; exact hdo)]
    refine Prod.ext_iff.mpr ⟨?_, ?_⟩
    · exact (updFold _ subs bufs).2 d
    · have hlenL : ((subs.foldl (fun a q => updCols
          (q.2.2.zip (specCols q.1 (q.2.1.map fun idx => columns.getD idx []) k)) a)
          bufs).getD d (0, [])).2.length = k := by
        refine updFold_mem (fun q => specCols q.1 (q.2.1.map fun idx =>
            columns.getD idx []) k) k subs bufs
          (fun q hq c hcm => specCols_mem_length c hcm) hbk _ ?_
        rw [List.getD_eq_getElem _ _ h1]
        exact List.getElem_mem h1
      have hlenR : ((specCols (.byDimension subs) columns k).getD d []).length = k := by
        rw [specCols_getD _ _ _ _ hdo]
        simp
      refine List.ext_getElem (by rw [hlenL, hlenR]) fun i hi1 hi2 => ?_
      have hik : i < k := by rw [hlenL] at hi1; exact hi1
      rw [← List.getD_eq_getElem _ (0 : ℚ) hi1, ← List.getD_eq_getElem _ (0 : ℚ) hi2]
      rw [specCols_getD _ _ _ _ hdo]
      rw [getD_map_g (List.range k) i 0 (by simpa using hik), getD_range hik]
      rw [pointFun_byDimension]
      rw [show (subs.map fun bt => bt.2.2.length).sum =
          (Transform.byDimension subs).output_ndim from by
        simp only [Transform.output_ndim]]
      refine parallel_fold i k
        (fun q => specCols q.1 (q.2.1.map fun idx => columns.getD idx []) k)
        (fun q => pointFun q.1 (q.2.1.map fun idx =>
          (colAt columns i).getD idx 0))
        subs bufs
        (List.replicate ((Transform.byDimension subs).output_ndim) 0)
        (by rw [List.length_replicate, hbufs]; simp only [Transform.output_ndim])
        ?_ hoflm ?_ d hdb ?_
      · intro q hq
        obtain ⟨hwq, hqi, hqo⟩ := hsub q.1 q.2.1 q.2.2 hq
        refine ⟨by rw [specCols_length, hqo], ?_⟩
        show pointFun q.1 (q.2.1.map fun idx => (colAt columns i).getD idx 0) = _
        have huc : ∀ idx ∈ q.2.1, idx < columns.length := by
          intro idx hidx
          rw [hc]
          refine List.mem_range.mp (hinP.mem_iff.mp ?_)
          exact List.mem_flatten.mpr ⟨q.2.1, List.mem_map_of_mem _ hq, hidx⟩
        have harg : (q.2.1.map fun idx => (colAt columns i).getD idx 0) =
            colAt (q.2.1.map fun idx => columns.getD idx []) i :=
          (colAt_gather columns q.2.1 i huc).symm
        rw [harg]
        have hplen : (pointFun q.1 (colAt (q.2.1.map fun idx =>
            columns.getD idx []) i)).length = q.2.2.length := by
          rw [(point_spec 0 (sizeOf q.1) q.1 le_rfl hwq).1 _
            (by rw [colAt_length, List.length_map, hqi]), hqo]
        conv_lhs => rw [← map_getD_range (pointFun q.1 (colAt (q.2.1.map fun idx =>
          columns.getD idx []) i)) 0, hplen]
        refine List.map_congr_left fun l hlm => ?_
        have hlq : l < q.2.2.length := List.mem_range.mp hlm
        rw [specCols_getD _ _ _ _ (by rw [hqo]; exact hlq)]
        rw [getD_map_g (List.range k) i 0 (by simpa using hik), getD_range hik]
      · intro q hq
        refine (List.sublist_flatten_of_mem
          (List.mem_map_of_mem (fun r => r.2.2) hq)).nodup hofl
      · rw [hbufs] at hdb
        exact houtP.symm.mem_iff.mp (List.mem_range.mpr hdb)

theorem col_spec (nan : ℚ) :
    ∀ (n : Nat) (t : Transform), sizeOf t ≤ n → WFT t →
      ∀ (columns : List (List ℚ)) (bufs : List TBuf) (k : Nat),
        columns.length = t.input_ndim → (∀ c ∈ columns, c.length = k) →
        bufs.length = t.output_ndim → (∀ b ∈ bufs, b.2.length = k) →
        column_transform_into nan t columns bufs =
          some (List.zipWith (fun (b : TBuf) c => (b.1, c)) bufs
            (specCols t columns k)) := by
  intro n
  induction n with
  | zero =>
    intro t hs
    exact absurd hs (by cases t <;> simp)
  | succ n ih =>
    intro t hs hw columns bufs k hc hck hbufs hbk
    match t with
    | .identity nd =>
      simp only [Transform.input_ndim] at hc
      simp only [Transform.output_ndim] at hbufs
      simp only [column_transform_into]
      rw [idColGo_spec columns bufs (by omega) (fun p hp => by
        rw [hck p.1 (List.of_mem_zip hp).1, hbk p.2 (List.of_mem_zip hp).2])]
      rw [specCols_identity nd k columns hc hck]
    | .translate v =>
      simp only [Transform.input_ndim] at hc
      simp only [Transform.output_ndim] at hbufs
      simp only [column_transform_into]
      rw [perDimColGo_spec (fun c t => c + t) columns bufs v (by omega) (by omega)
        (fun p hp => by
          rw [hck p.1 (List.of_mem_zip hp).1, hbk p.2 (List.of_mem_zip hp).2])]
      rw [specCols_translate v k columns hc hck]
    | .scale sv =>
      simp only [Transform.input_ndim] at hc
      simp only [Transform.output_ndim] at hbufs
      simp only [column_transform_into]
      rw [perDimColGo_spec (fun c t => c * t) columns bufs sv (by omega) (by omega)
        (fun p hp => by
          rw [hck p.1 (List.of_mem_zip hp).1, hbk p.2 (List.of_mem_zip hp).2])]
      rw [specCols_scale sv k columns hc hck]
    | .mapAxis m =>
      simp only [WFT] at hw
      simp only [Transform.input_ndim] at hc
      simp only [Transform.output_ndim] at hbufs
      have hmem : ∀ j ∈ m, j < m.length := fun j hj =>
        List.mem_range.mp (hw.mem_iff.mp hj)
      simp only [column_transform_into]
      rw [maColGo_spec columns m bufs (by omega) (fun p hp => by
        refine ⟨by rw [hc]; exact hmem p.1 (List.of_mem_zip hp).1, ?_⟩
        simp only [List.get_eq_getElem]
        rw [hbk p.2 (List.of_mem_zip hp).2]
        exact hck _ (List.getElem_mem _))]
      rw [specCols_mapAxis m k columns hc hck hmem]
      rw [List.zipWith_map_right]
    | .affine u tr =>
      simp only [WFT] at hw
      obtain ⟨hd, ht, hnc⟩ := hw
      simp only [Transform.input_ndim] at hc
      simp only [Transform.output_ndim] at hbufs
      simp only [column_transform_into, Option.bind_eq_bind]
      rw [matmul_transposed_spec u columns bufs k hd hnc hc hck hbufs hbk]
      simp only [Option.some_bind]
      rw [zipWithKeep_pair_spec bufs _ tr (by simp [hbufs]) (by simp [ht])]
      rw [specCols_affine u tr k columns ht]
    | .rotation mt =>
      simp only [WFT] at hw
      obtain ⟨hd, hsq, hnc⟩ := hw
      simp only [Transform.input_ndim] at hc
      simp only [Transform.output_ndim] at hbufs
      simp only [column_transform_into]
      rw [matmul_transposed_spec mt columns bufs k hd hnc hc hck hbufs hbk]
      rw [specCols_rotation mt k columns]
    | .bijection f g =>
      simp only [WFT] at hw
      obtain ⟨hwf, hwg, hio, hgi⟩ := hw
      have hsf : sizeOf f ≤ n := by simp at hs; omega
      simp only [Transform.input_ndim] at hc
      simp only [Transform.output_ndim] at hbufs
      simp only [column_transform_into]
      rw [ih f hsf hwf columns bufs k hc hck hbufs hbk]
      have hspec : specCols (.bijection f g) columns k = specCols f columns k := by
        unfold specCols
        simp only [Transform.output_ndim, pointFun]
      rw [hspec]
    | .byDimension subs =>
      simp only [WFT] at hw
      obtain ⟨hinP, houtP, hsubs⟩ := hw
      have hbl : bufs.length = (subs.map fun bt => bt.2.2.length).sum := by
        rw [hbufs]
        simp [Transform.output_ndim]
      have hflatlen : ((subs.map fun q => q.2.2).flatten).length = bufs.length := by
        rw [List.length_flatten, List.map_map, hbl]
        rfl
      simp only [column_transform_into, Option.bind_eq_bind]
      obtain ⟨s2, hbd⟩ := bdColGo_spec nan k columns (List.range bufs.length) subs bufs
        (List.range bufs.length) [] 0
        (fun u uins uouts hu cols bs hc2 hck2 hb2 hbk2 =>
          ih u (by
            have h5 := List.sizeOf_lt_of_mem hu
            simp at hs h5
            omega) (hsubs u uins uouts hu).1 cols bs k hc2 hck2 hb2 hbk2)
        (fun u uins uouts hu => by
          obtain ⟨hwu, hiu, hou⟩ := hsubs u uins uouts hu
          refine ⟨hiu, hou, fun i hi => ?_⟩
          rw [hc]
          simp only [Transform.input_ndim]
          exact List.mem_range.mp (hinP.mem_iff.mp
            (List.mem_flatten.mpr ⟨uins, List.mem_map_of_mem (fun bt => bt.2.1) hu, hi⟩)))
        hck (List.Perm.refl _) hbk (by simp) (houtP.symm.nodup (List.nodup_range _))
        (fun e he => by
          rw [hbl]
          exact List.mem_range.mp (houtP.mem_iff.mp he))
        (by rw [hflatlen]; omega)
        (by rw [List.foldl_nil])
      rw [map_getD_range bufs (0, [])] at hbd
      rw [hbd]
      simp only [Option.some_bind]
      rw [show (s2.foldl (fun o p => swapPos o p.1 p.2) (List.range bufs.length)).map
          (fun i => (subs.foldl (fun a q => updCols (q.2.2.zip
            (specCols q.1 (q.2.1.map fun idx => columns.getD idx []) k)) a)
            bufs).getD i (0, [])) =
          s2.foldl (fun o p => swapPos o p.1 p.2) ((List.range bufs.length).map
          (fun i => (subs.foldl (fun a q => updCols (q.2.2.zip
            (specCols q.1 (q.2.1.map fun idx => columns.getD idx []) k)) a)
            bufs).getD i (0, []))) from
        (swap_foldl_map _ s2 (List.range bufs.length)).symm]
      rw [show bufs.length = (subs.foldl (fun a q => updCols (q.2.2.zip
          (specCols q.1 (q.2.1.map fun idx => columns.getD idx []) k)) a)
          bufs).length from ((updFold _ subs bufs).1).symm]
      rw [map_getD_range _ (0, [])]
      rw [swap_unwind]
      rw [byDim_final_eq k columns subs bufs (by
          simp only [WFT]
          exact ⟨hinP, houtP, hsubs⟩) hc hck hbufs hbk]
    | .sequence ts =>
      simp only [WFT] at hw
      obtain ⟨hlen2, hin1, hch, hall⟩ := hw
      have hmem : ∀ u ∈ ts, ∀ (cols : List (List ℚ)) (bs : List TBuf),
          cols.length = u.input_ndim → (∀ c ∈ cols, c.length = k) →
          bs.length = u.output_ndim → (∀ b ∈ bs, b.2.length = k) →
          column_transform_into nan u cols bs =
            some (List.zipWith (fun (b : TBuf) c => (b.1, c)) bs
              (specCols u cols k)) := fun u hu cols bs =>
        ih u (by have := List.sizeOf_lt_of_mem hu; simp at hs; omega) (hall u hu)
          cols bs k
      cases ts with
      | nil => simp at hlen2
      | cons t0 rest =>
        cases rest with
        | nil => simp at hlen2
        | cons t1 r2 =>
          simp only [Transform.input_ndim] at hc
          have hc0lt : 0 < columns.length := by
            rw [hc]
            simpa [Transform.input_ndim] using hin1
          have hc0k : (columns.getD 0 []).length = k := by
            rw [List.getD_eq_getElem columns [] hc0lt]
            exact hck _ (List.getElem_mem _)
          have hmiAll : ∀ u ∈ t1 :: r2,
              u.input_ndim ≤ seqMaxInnerNdim (t0 :: t1 :: r2) := fun u hu => by
            simp only [seqMaxInnerNdim, List.drop_succ_cons, List.drop_zero]
            exact le_foldl_max _ _ (List.mem_map_of_mem _ hu) 0
          have hch2 := List.chain'_cons.mp hch
          have hto0 : t0.output_ndim ≤ seqMaxInnerNdim (t0 :: t1 :: r2) := by
            rw [hch2.1]
            exact hmiAll t1 (List.mem_cons_self _ _)
          have hgl : (t0 :: t1 :: r2).getLast? =
              some ((t0 :: t1 :: r2).getLast (by simp)) :=
            List.getLast?_eq_getLast _ _
          have hwr := hmem t0 (List.mem_cons_self _ _) columns
            (((List.range (seqMaxInnerNdim (t0 :: t1 :: r2))).map fun i =>
              ((seqMaxInnerNdim (t0 :: t1 :: r2) + i,
                List.replicate (columns.getD 0 []).length nan) : TBuf)).take
              t0.output_ndim)
            hc hck
            (by
              rw [List.length_take, List.length_map, List.length_range]
              omega)
            (fun b hb => by
              obtain ⟨i, hi, rfl⟩ := List.mem_map.mp (List.mem_of_mem_take hb)
              show (List.replicate (columns.getD 0 []).length nan).length = k
              rw [List.length_replicate]
              exact hc0k)
          have hrlen : (List.zipWith (fun (b : TBuf) c => (b.1, c))
              (((List.range (seqMaxInnerNdim (t0 :: t1 :: r2))).map fun i =>
                ((seqMaxInnerNdim (t0 :: t1 :: r2) + i,
                  List.replicate (columns.getD 0 []).length nan) : TBuf)).take
                t0.output_ndim)
              (specCols t0 columns k)).length = t0.output_ndim := by
            rw [List.length_zipWith, List.length_take, List.length_map,
              List.length_range, specCols_length]
            omega
          obtain ⟨x, y, heq⟩ := seqColGo_spec nan (seqMaxInnerNdim (t0 :: t1 :: r2)) k
            (t1 :: r2) false (specCols t0 columns k) columns
            ((List.range (seqMaxInnerNdim (t0 :: t1 :: r2))).map fun i =>
              ((i, List.replicate (columns.getD 0 []).length nan) : TBuf))
            (List.zipWith (fun (b : TBuf) c => (b.1, c))
              (((List.range (seqMaxInnerNdim (t0 :: t1 :: r2))).map fun i =>
                ((seqMaxInnerNdim (t0 :: t1 :: r2) + i,
                  List.replicate (columns.getD 0 []).length nan) : TBuf)).take
                t0.output_ndim)
              (specCols t0 columns k) ++
              ((List.range (seqMaxInnerNdim (t0 :: t1 :: r2))).map fun i =>
                ((seqMaxInnerNdim (t0 :: t1 :: r2) + i,
                  List.replicate (columns.getD 0 []).length nan) : TBuf)).drop
                t0.output_ndim)
            bufs (by simp)
            (fun u hu => hmem u (List.mem_cons_of_mem _ hu))
            hch2.2 hmiAll
            (by rw [List.length_map, List.length_range])
            (by
              rw [List.length_append, hrlen, List.length_drop, List.length_map,
                List.length_range]
              omega)
            (fun b hb => by
              obtain ⟨i, hi, rfl⟩ := List.mem_map.mp hb
              show (List.replicate (columns.getD 0 []).length nan).length = k
              rw [List.length_replicate]
              exact hc0k)
            (by
              intro b hb
              rcases List.mem_append.mp hb with hb | hb
              · rw [specCols_mem_length b.2 (mem_zipWith_pair_snd b hb)]
              · obtain ⟨i, hi, rfl⟩ := List.mem_map.mp (List.mem_of_mem_drop hb)
                show (List.replicate (columns.getD 0 []).length nan).length = k
                rw [List.length_replicate]
                exact hc0k)
            (by
              intro u rr he
              injection he with he1 _
              subst he1
              simp only [Bool.cond_false]
              rw [← hch2.1]
              rw [List.take_left' hrlen]
              exact zipWith_pair_map_snd _ _ (by
                rw [List.length_take, List.length_map, List.length_range,
                  specCols_length]
                omega))
            (fun c hcm => specCols_mem_length c hcm)
            (fun u rr he => by
              injection he with he1 _
              subst he1
              rw [specCols_length, hch2.1])
            (fun tl htl => by
              rw [hbufs]
              exact output_ndim_sequence htl)
            hbk
          simp only [column_transform_into, seqColGo, List.length_map,
            List.length_range, Bool.false_eq_true, Bool.not_true, Bool.not_false,
            if_false, if_true, List.isEmpty_cons, List.length_append,
            Option.bind_eq_bind] at heq ⊢
          rw [List.getElem?_eq_getElem hc0lt]
          simp only [Option.some_bind]
          rw [← List.getD_eq_getElem columns [] hc0lt]
          rw [if_pos hto0]
          rw [hwr]
          simp only [Option.some_bind]
          rw [heq]
          simp only [Option.some_bind, Option.some.injEq]
          have hfold := specCols_foldl k (t0 :: t1 :: r2) columns hall hch
            (fun u rr he => by
              injection he with he1 _
              subst he1
              exact hc)
            hck ((t0 :: t1 :: r2).getLast (by simp)) hgl
          have hseqspec : specCols (.sequence (t0 :: t1 :: r2)) columns k =
              (t0 :: t1 :: r2).foldl (fun cc u => specCols u cc k) columns := by
            rw [hfold]
            unfold specCols
            rw [output_ndim_sequence hgl]
            refine List.map_congr_left fun d _ => List.map_congr_left fun i _ => ?_
            rw [pointFun_sequence]
          rw [hseqspec]
          simp only [List.foldl_cons]

theorem zipWith_pair_map_fst :
    ∀ (bs : List TBuf) (cs : List (List ℚ)), bs.length = cs.length →
      (List.zipWith (fun (b : TBuf) c => (b.1, c)) bs cs).map Prod.fst =
        bs.map Prod.fst
  | [], _, _ => rfl
  | b :: bs, [], h => by simp at h
  | b :: bs, c :: cs, h => by
    simp only [List.zipWith_cons_cons, List.map_cons, List.cons.injEq, true_and]
    exact zipWith_pair_map_fst bs cs (by simpa using h)

/-- C2: for every transformation kind (Identity, Translate, Scale, MapAxis,
Affine, Rotation, Sequence, ByDimension, Bijection, via the `Transform`
embedding with well-formedness `WFT`) and every column-major batch of `k`
points of the transform's input dimensionality, `column_transform_into`
succeeds and produces exactly the column-major layout of the pointwise
results: the output reuses the caller's buffers (same tags), and for every
sample `i < k`, reading position `i` of every output column gives precisely
the vector that `transform_into` (the `apply_point` path) writes for sample
`i`'s coordinate, whatever correctly-sized output buffer the scalar call is
given.  Over the exact rational model the two layouts agree exactly, so in
particular to within 1e-10. -/
theorem apply_columns_matches_apply_point (nan : ℚ) (t : Transform) (hw : WFT t)
    (columns : List (List ℚ)) (bufs : List TBuf) (k : Nat)
    (hc : columns.length = t.input_ndim) (hck : ∀ c ∈ columns, c.length = k)
    (hbufs : bufs.length = t.output_ndim) (hbk : ∀ b ∈ bufs, b.2.length = k) :
    ∃ out : List TBuf,
      column_transform_into nan t columns bufs = some out ∧
      out.map Prod.fst = bufs.map Prod.fst ∧
      ∀ i, i < k → ∀ (pbuf : List ℚ), pbuf.length = t.output_ndim →
        transform_into nan t (colAt columns i) pbuf =
          some (colAt (out.map Prod.snd) i) := by
  refine ⟨List.zipWith (fun (b : TBuf) c => (b.1, c)) bufs (specCols t columns k),
    col_spec nan (sizeOf t) t le_rfl hw columns bufs k hc hck hbufs hbk,
    zipWith_pair_map_fst bufs _ (by rw [specCols_length, hbufs]), ?_⟩
  intro i hi pbuf hp
  rw [(point_spec nan (sizeOf t) t le_rfl hw).2 (colAt columns i) pbuf
    (by rw [colAt_length, hc]) hp]
  rw [zipWith_pair_map_snd bufs _ (by rw [specCols_length, hbufs])]
  rw [colAt_specCols t columns k i hi hw hc]

/-- Witness for C2 at a concrete call: `Translate([1])` on the one-column
batch `[[3, 4]]` (two samples), output buffer tagged 7. -/
theorem apply_columns_matches_apply_point_witness :
    ∃ out : List TBuf,
      column_transform_into (0 : ℚ) (.translate [1]) [[3, 4]] [(7, [0, 0])] =
        some out ∧
      out.map Prod.fst = [((7 : Nat), [(0 : ℚ), 0])].map Prod.fst ∧
      ∀ i, i < 2 → ∀ (pbuf : List ℚ),
        pbuf.length = (Transform.translate [1]).output_ndim →
        transform_into 0 (.translate [1]) (colAt [[3, 4]] i) pbuf =
          some (colAt (out.map Prod.snd) i) :=
  apply_columns_matches_apply_point 0 (.translate [1]) (by simp only [WFT]) [[3, 4]]
    [(7, [0, 0])] 2 rfl
    (fun c hcm => by
      rw [List.mem_singleton] at hcm
      subst hcm
      rfl)
    (by simp [Transform.output_ndim])
    (fun b hbm => by
      rw [List.mem_singleton] at hbm
      subst hbm
      rfl)

/-- C1 counterexample: in the graph built by three `add_edge` calls —
a direct edge `0 → 1` carrying `Translate([5])` at cost 100, and the
two-edge path `0 → 2 → 1` carrying `Translate([1])` and `Translate([2])`
at cost 1 each — `find_path 0 1` returns the direct edge's `Translate([5])`,
although the minimum-total-cost directed path is `[0, 2, 1]` with total
cost 2 < 100, whose fusion is `Sequence([Translate([1]), Translate([2])])`. -/
theorem find_path_prefers_direct_edge_over_cheaper_path :
    ((add_edge (TransformGraph.empty Nat) 0 1 (.translate [5]) 100 false).bind fun r1 =>
      (add_edge r1.1 0 2 (.translate [1]) 1 false).bind fun r2 =>
      (add_edge r2.1 2 1 (.translate [2]) 1 false).map fun r3 =>
        ((find_path r3.1 0 1).1, astar_model r3.1 0 1, fusePath r3.1 [0, 2, 1])) =
      some (some (.translate [5]), some (2, [0, 2, 1]),
        some (.sequence [.translate [1], .translate [2]])) ∧
    (2 : ℚ) < 100 := by
  constructor
  · have h1 : ((1 : ℚ) == 0) = false := by rw [beq_eq_false_iff_ne]; norm_num
    have h2 : ((2 : ℚ) == 0) = false := by rw [beq_eq_false_iff_ne]; norm_num
    have h5 : ((5 : ℚ) == 0) = false := by rw [beq_eq_false_iff_ne]; norm_num
    simp [add_edge, ensure_coord_system, TransformGraph.empty, Transform.input_ndim,
      Transform.output_ndim, Transform.is_identity, find_path, cacheGet, cacheInsert,
      best_edge, edges_connecting, minByCostKeepFirst, astar_model, simplePaths,
      simplePathsAux, succs, minPathBy, pathCost, fusePath, windowsPairs,
      SequenceBuilder.add_arced, SequenceBuilder.build_any, Sequence.try_new,
      List.filter, List.dedup, List.find?, List.foldlM, h1, h2, h5]
    norm_num
  · norm_num

/-- C1 (amended): between two distinct registered labels with no cached
entry, the mere existence of a direct edge short-circuits `find_path`: the
result is that pair's minimum-cost direct edge (identity-normalized), chosen
without comparing against multi-edge paths — the minimum-total-cost search
and fusion run only when no direct edge exists. -/
theorem find_path_direct_edge_shortcut {C : Type} [DecidableEq C]
    (g : TransformGraph C) (src tgt : C) (ps pv : C × NodeInfo) (e : GEdge)
    (hs : g.coord_systems.find? (fun p => decide (p.1 = src)) = some ps)
    (ht : g.coord_systems.find? (fun p => decide (p.1 = tgt)) = some pv)
    (hne : src ≠ tgt)
    (hcache : cacheGet g.path_cache (ps.2.idx, pv.2.idx) = none)
    (hbe : best_edge g ps.2.idx pv.2.idx = some e) :
    (find_path g src tgt).1 =
      some (if e.transform.is_identity then Transform.identity ps.2.ndim
        else e.transform) := by
  simp only [find_path, hs, ht, if_neg hne, hcache, hbe]

/-- Witness for the C1 shortcut theorem at a concrete graph: nodes 0 and 1,
one direct edge carrying `Translate([5])` at cost 100. -/
theorem find_path_direct_edge_shortcut_witness :
    (find_path (⟨[0, 1], [(0, 1, ⟨.translate [5], 100⟩)],
        [(0, ⟨0, 1⟩), (1, ⟨1, 1⟩)], []⟩ : TransformGraph Nat) 0 1).1 =
      some (if (Transform.translate [5]).is_identity then Transform.identity 1
        else .translate [5]) :=
  find_path_direct_edge_shortcut
    (⟨[0, 1], [(0, 1, ⟨.translate [5], 100⟩)], [(0, ⟨0, 1⟩), (1, ⟨1, 1⟩)], []⟩ :
      TransformGraph Nat)
    0 1 (0, ⟨0, 1⟩) (1, ⟨1, 1⟩) ⟨.translate [5], 100⟩
    (by simp [List.find?])
    (by simp [List.find?])
    (by decide)
    rfl
    (by simp [best_edge, edges_connecting, minByCostKeepFirst, List.filter])

end OZ
